import Mathlib

/-!
# The option-set / YAML-tree codec of `cli/clibase/yaml.go`

A shallow embedding of `deepMapNode`, `OptionSet.ToYAML`, `OptionSet.FromYAML` and
`fromYAML`, followed by theorems about them.

Conventions of the embedding.

* A `*yaml.Node` tree is a value of `Node`; the four fields the code reads or writes
  (`Kind`, `Value`, `HeadComment`, `Content`) are kept.
* A `*Group` is a value of `GroupPtr`: `nil`, or a pointer carrying its address and the
  fields of the struct it points to.  Go's pointer comparison is equality of `GroupPtr`.
* The builder mutates the tree through pointers.  `deepMapNode` returns a pointer that its
  caller writes through; here it takes the caller's write as a function and returns the
  updated tree.
* The reader mutates the value holders of the options.  `fromYAML` returns the option set
  after the call together with the returned `error` (`none` is Go's `nil`); there every
  option has a value holder of its own.  `fromYAMLShared` is the same function with the
  holders behind the pointers of the `Value` interfaces, so that options can share one.
* `ToYAMLMem` is `ToYAML` on nodes in memory, with `Content` as a slice of pointers, so
  that a node returned by a `yaml.Marshaler` shares its children with the holder.
* The value holders (`pflag.Value`, optionally `yaml.Marshaler` / `yaml.Unmarshaler`) and
  `wordwrap.WrapString` live outside the file; they are the fields of `Env`.
-/

namespace Clibase

/-- The `yaml.Kind` of a node; `zero` is the kind of a zero-valued `yaml.Node`. -/
inductive Kind where
  | zero
  | document
  | sequence
  | mapping
  | scalar
  | alias
deriving DecidableEq, Repr

/-- A `yaml.Node`, with the fields used by the codec. -/
inductive Node where
  | mk (kind : Kind) (value : String) (headComment : String) (content : List Node)
deriving Repr

/-- Field `Kind`. -/
def Node.kind : Node → Kind
  | .mk k _ _ _ => k

/-- Field `Value`. -/
def Node.value : Node → String
  | .mk _ v _ _ => v

/-- Field `HeadComment`. -/
def Node.headComment : Node → String
  | .mk _ _ h _ => h

/-- Field `Content`. -/
def Node.content : Node → List Node
  | .mk _ _ _ c => c

/-- Assignment `n.Content = c`. -/
def Node.withContent : Node → List Node → Node
  | .mk k v h _, c => .mk k v h c

/-- Modelled from the spec: the `Group` struct and pointers to it, declared outside
`yaml.go`.  "Group — a named node in a hierarchy", with `Name`, `YAMLKey` (`YAMLName` in the
code), `Description` and `Parent`, "reference to an enclosing Group or none".  `nil` is the
nil pointer; `ref addr parent name yamlName description` points to the struct at address
`addr`. -/
inductive GroupPtr where
  | nil
  | ref (addr : Nat) (parent : GroupPtr) (name yamlName description : String)
deriving DecidableEq, Repr

/-- Field `Parent` of the group pointed to. -/
def GroupPtr.parent : GroupPtr → GroupPtr
  | .nil => .nil
  | .ref _ p _ _ _ => p

/-- Field `Name` of the group pointed to. -/
def GroupPtr.name : GroupPtr → String
  | .nil => ""
  | .ref _ _ n _ _ => n

/-- Field `YAMLName` of the group pointed to. -/
def GroupPtr.yamlName : GroupPtr → String
  | .nil => ""
  | .ref _ _ _ y _ => y

/-- Field `Description` of the group pointed to. -/
def GroupPtr.description : GroupPtr → String
  | .nil => ""
  | .ref _ _ _ _ d => d

/-- Modelled from the spec: `(*Group).Ancestry`, declared outside `yaml.go`.  "Ancestry of a
group is the ordered root-to-self chain", "empty sequence if the option has no group". -/
def GroupPtr.Ancestry : GroupPtr → List GroupPtr
  | .nil => []
  | .ref a p n y d => p.Ancestry ++ [.ref a p n y d]

/-- Modelled from the spec: the `Option` struct, declared outside `yaml.go`, with the fields
the codec uses: `Name`, `Description`, `YAML` (the spec's `YAMLKey`), `Group` and the
`Value` holder, whose state has type `V`.  It is called `Opt` here, `Option` being the name
of the option type of Lean. -/
structure Opt (V : Type) where
  name : String
  description : String
  yaml : String
  group : GroupPtr
  value : V

/-- Modelled from the spec: `OptionSet`, "an ordered sequence of Option". -/
abbrev OptionSet (V : Type) := List (Opt V)

/-- The collaborators of the codec.  `V` is the state of a value holder, dynamic type
included.
* `string`, `set`: `pflag.Value.String` and `pflag.Value.Set`; `set` gives the holder after
  the call and the returned error.
* `marshalYAML`: `none` when the holder is no `yaml.Marshaler`; otherwise the outcome of
  `MarshalYAML()`: an error, or a result that is a `yaml.Node` (`some`) or of another type
  (`none`).
* `unmarshalYAML`: `none` when the holder is no `yaml.Unmarshaler`; otherwise
  `UnmarshalYAML`, giving the holder after the call and the returned error.
* `wrapString`: `wordwrap.WrapString`. -/
structure Env (V : Type) where
  string : V → String
  set : V → String → V × Option String
  marshalYAML : V → Option (Except String (Option Node))
  unmarshalYAML : V → Option (Node → V × Option String)
  wrapString : String → Nat → String

/-- The errors built in `yaml.go`, one constructor per `xerrors.Errorf` call, with the
values formatted into the message as arguments, and the result of `errors.Join`.  The dump
of the node that `expected mapping node` prints is left out. -/
inductive Error where
  | marshal (optName : String) (err : String)
  | marshalType (optName : String)
  | groupYAMLNameEmpty (optName : String) (group : GroupPtr)
  | expectedOneContent (len : Nat)
  | expectedMapping (kind : Kind)
  | duplicateOption (yaml : String)
  | optionAndGroup (k : String)
  | nameNotScalar (kind : Kind)
  | complexOption (optName : String)
  | unmarshal (optName : String) (err : String)
  | group (yamlName : String) (err : Error)
  | unknownOptionOrSubgroup (name : String)
  | unknownOption (name : String)
  | set (optName : String) (err : String)
  | unexpectedKind (kind : Kind)
  | join (errs : List Error)
deriving Repr

/-- The function `errors.Join`: nil arguments are discarded, and the result is nil when
none is left. -/
def errorsJoin (errs : List (Option Error)) : Option Error :=
  match errs.filterMap id with
  | [] => none
  | es => some (.join es)

mutual
/-- The individual errors an error is made of: `errors.Join` results are flattened, every
other error is one individual error. -/
def Error.leaves : Error → List Error
  | .join es => Error.leavesList es
  | e => [e]
/-- The individual errors of a list of errors. -/
def Error.leavesList : List Error → List Error
  | [] => []
  | e :: es => e.leaves ++ Error.leavesList es
end

/-- A Go `map[string]α`, as the list of its entries. -/
abbrev GoMap (α : Type) := List (String × α)

/-- Map read `m[k]` with the `ok` flag. -/
def GoMap.get {α : Type} : GoMap α → String → Option α
  | [], _ => none
  | (k, v) :: m, key => if k = key then some v else GoMap.get m key

/-- Map write `m[k] = v`. -/
def GoMap.put {α : Type} : GoMap α → String → α → GoMap α
  | [], key, val => [(key, val)]
  | (k, v) :: m, key, val => if k = key then (key, val) :: m else (k, v) :: GoMap.put m key val

/-- The search loop of `deepMapNode`: the first even index `i` with `i < len(content) - 1`
whose node has value `key`. -/
def findName : List Node → String → Option Nat
  | nm :: _ :: rest, key =>
    if nm.value = key then some 0 else (findName rest key).map (· + 2)
  | _, _ => none

/-- Replace the element at index `i` by its image under `f`. -/
def modifyAt (f : Node → Node) : List Node → Nat → List Node
  | [], _ => []
  | c :: cs, 0 => f c :: cs
  | c :: cs, i + 1 => c :: modifyAt f cs i

/-- The function `deepMapNode`.  The Go function returns the (possibly new) mapping node at
`path` below `n`, and its caller then writes to that node; here `f` is that write and the
result is `n` after it. -/
def deepMapNode (n : Node) (path : List String) (headComment : String)
    (f : Node → Node) : Node :=
  match path with
  | [] => f n
  | p :: rest =>
    match findName n.content p with
    | some i =>
      n.withContent (modifyAt (fun c => deepMapNode c rest headComment f) n.content (i + 1))
    | none =>
      let nameNode := Node.mk .scalar p headComment []
      let valueNode := Node.mk .mapping "" "" []
      n.withContent (n.content ++ [nameNode, deepMapNode valueNode rest headComment f])

/-- The value node `ToYAML` builds for an option: the result of `MarshalYAML` for a
`yaml.Marshaler`, a scalar of the string representation otherwise. -/
def valueNodeOf {V : Type} (env : Env V) (opt : Opt V) : Except Error Node :=
  match env.marshalYAML opt.value with
  | some (.error err) => .error (.marshal opt.name err)
  | some (.ok none) => .error (.marshalType opt.name)
  | some (.ok (some v)) => .ok v
  | none => .ok (.mk .scalar (env.string opt.value) "" [])

/-- The loop of `ToYAML` over `opt.Group.Ancestry()`, collecting the YAML names. -/
def groupPath (opt : String) (grp : GroupPtr) : List GroupPtr → List String → Except Error (List String)
  | [], group => .ok group
  | g :: gs, group =>
    if g.yamlName = "" then .error (.groupYAMLNameEmpty opt grp)
    else groupPath opt grp gs (group ++ [g.yamlName])

/-- One iteration of the loop of `ToYAML`, on the tree `root` built so far. -/
def toYAMLStep {V : Type} (env : Env V) (root : Node) (opt : Opt V) : Except Error Node :=
  if opt.yaml = "" then .ok root
  else
    let nameNode := Node.mk .scalar opt.yaml (env.wrapString opt.description 80) []
    match valueNodeOf env opt with
    | .error e => .error e
    | .ok valueNode =>
      match groupPath opt.name opt.group opt.group.Ancestry [] with
      | .error e => .error e
      | .ok group =>
        let groupDesc :=
          if opt.group ≠ .nil then env.wrapString opt.group.description 80 else ""
        .ok (deepMapNode root group groupDesc
          (fun parentValueNode =>
            parentValueNode.withContent (parentValueNode.content ++ [nameNode, valueNode])))

/-- The loop of `ToYAML`. -/
def toYAMLLoop {V : Type} (env : Env V) : Node → OptionSet V → Except Error Node
  | root, [] => .ok root
  | root, opt :: rest =>
    match toYAMLStep env root opt with
    | .error e => .error e
    | .ok root1 => toYAMLLoop env root1 rest

/-- The method `OptionSet.ToYAML`: the tree, or the error (Go returns a nil tree with it). -/
def ToYAML {V : Type} (env : Env V) (s : OptionSet V) : Except Error Node :=
  toYAMLLoop env (.mk .mapping "" "" []) s

/-- The two maps `fromYAML` builds for a level.  `optionsByName` holds `&os[i]` as the
index `i`. -/
structure Maps where
  subGroupsByName : GoMap GroupPtr
  optionsByName : GoMap Nat

/-- The first loop of `fromYAML`, from index `i` on the remaining options. -/
def collectMaps {V : Type} (ofGroup : GroupPtr) : List (Opt V) → Nat → Maps → Except Error Maps
  | [], _, m => .ok m
  | opt :: rest, i, m =>
    if opt.yaml = "" then collectMaps ofGroup rest (i + 1) m
    else if opt.group ≠ ofGroup then
      if opt.group ≠ .nil ∧ opt.group.parent = ofGroup then
        if opt.group.yamlName = "" then .error (.groupYAMLNameEmpty opt.name opt.group)
        else collectMaps ofGroup rest (i + 1)
          { m with subGroupsByName := m.subGroupsByName.put opt.group.yamlName opt.group }
      else collectMaps ofGroup rest (i + 1) m
    else if (m.optionsByName.get opt.yaml).isSome then .error (.duplicateOption opt.yaml)
    else collectMaps ofGroup rest (i + 1)
      { m with optionsByName := m.optionsByName.put opt.yaml i }

/-- The second loop of `fromYAML`: a key of `subGroupsByName` that is also in
`optionsByName`.  Go ranges over the map in an unspecified order; the entries are visited
here in the order of their first insertion. -/
def ambiguousName (m : Maps) : Option String :=
  (m.subGroupsByName.find? (fun kv => (m.optionsByName.get kv.1).isSome)).map (·.1)

/-- Write `v` to the value holder of `os[i]`. -/
def setValue {V : Type} : OptionSet V → Nat → V → OptionSet V
  | [], _, _ => []
  | o :: os, 0, v => { o with value := v } :: os
  | o :: os, i + 1, v => o :: setValue os i v

mutual
/-- The function `fromYAML`: the option set after the call, and the returned error. -/
def fromYAML {V : Type} (env : Env V) (os : OptionSet V) (ofGroup : GroupPtr) :
    Node → OptionSet V × Option Error
  | .mk kind _ _ content =>
    if kind = .document ∧ ofGroup = .nil then
      match content with
      | [c] => fromYAML env os ofGroup c
      | _ => (os, some (.expectedOneContent content.length))
    else if kind ≠ .mapping then (os, some (.expectedMapping kind))
    else
      match collectMaps ofGroup os 0 ⟨[], []⟩ with
      | .error e => (os, some e)
      | .ok maps =>
        match ambiguousName maps with
        | some k => (os, some (.optionAndGroup k))
        | none => fromYAMLItems env maps os content 0 "" none
/-- The third loop of `fromYAML`, over `n.Content` from index `i` on, with the loop
variables `name` and `merr`.  An index read from `optionsByName` is an index of `os`, whose
length never changes, so the branches `os[j]? = none` are never taken. -/
def fromYAMLItems {V : Type} (env : Env V) (maps : Maps) (os : OptionSet V) :
    List Node → Nat → String → Option Error → OptionSet V × Option Error
  | [], _, _, merr => (os, merr)
  | item :: rest, i, name, merr =>
    if i % 2 = 0 then
      if item.kind ≠ .scalar then (os, some (.nameNotScalar item.kind))
      else fromYAMLItems env maps os rest (i + 1) item.value merr
    else
      match item.kind with
      | .mapping =>
        match maps.optionsByName.get name with
        | some j =>
          match os[j]? with
          | none => (os, merr)
          | some opt =>
            match env.unmarshalYAML opt.value with
            | none => (os, some (.complexOption opt.name))
            | some unmarshal =>
              let r := unmarshal item
              fromYAMLItems env maps (setValue os j r.1) rest (i + 1) name
                (match r.2 with
                  | some err => errorsJoin [merr, some (.unmarshal opt.name err)]
                  | none => merr)
        | none =>
          match maps.subGroupsByName.get name with
          | some g =>
            let r := fromYAML env os g item
            fromYAMLItems env maps r.1 rest (i + 1) name
              (match r.2 with
                | some err => errorsJoin [merr, some (.group g.yamlName err)]
                | none => merr)
          | none =>
            fromYAMLItems env maps os rest (i + 1) name
              (errorsJoin [merr, some (.unknownOptionOrSubgroup name)])
      | .scalar =>
        match maps.optionsByName.get name with
        | none =>
          fromYAMLItems env maps os rest (i + 1) name
            (errorsJoin [merr, some (.unknownOption name)])
        | some j =>
          match os[j]? with
          | none => (os, merr)
          | some opt =>
            match env.unmarshalYAML opt.value with
            | none =>
              let r := env.set opt.value item.value
              fromYAMLItems env maps (setValue os j r.1) rest (i + 1) name
                (match r.2 with
                  | some err => errorsJoin [merr, some (.set opt.name err)]
                  | none => merr)
            | some unmarshal =>
              let r := unmarshal item
              fromYAMLItems env maps (setValue os j r.1) rest (i + 1) name
                (match r.2 with
                  | some err => errorsJoin [merr, some (.unmarshal opt.name err)]
                  | none => merr)
      | k => (os, some (.unexpectedKind k))
end

/-- The method `OptionSet.FromYAML`. -/
def FromYAML {V : Type} (env : Env V) (s : OptionSet V) (n : Node) :
    OptionSet V × Option Error :=
  fromYAML env s .nil n

/-- Two simple value holders, used for the concrete instances below: a string holder, whose
`Set` stores the text, and a boolean holder, whose `Set` accepts `true` and `false`
only. -/
inductive Val where
  | str (s : String)
  | bool (b : Bool)
deriving DecidableEq, Repr

/-- The method `String` of the sample holders. -/
def Val.string : Val → String
  | .str s => s
  | .bool true => "true"
  | .bool false => "false"

/-- The method `Set` of the sample holders. -/
def Val.set : Val → String → Val × Option String
  | .str _, t => (.str t, none)
  | .bool b, t =>
    if t = "true" then (.bool true, none)
    else if t = "false" then (.bool false, none)
    else (.bool b, some "invalid syntax")

/-- The sample environment: simple holders only, and a word wrap that leaves its (short)
texts as they are. -/
def sampleEnv : Env Val where
  string := Val.string
  set := Val.set
  marshalYAML := fun _ => none
  unmarshalYAML := fun _ => none
  wrapString := fun s _ => s

/-- An option that is written to the tree and has, in the ancestry of its group, a group
without YAML name. -/
def MissingGroupKey {V : Type} (o : Opt V) : Prop :=
  o.yaml ≠ "" ∧ ∃ g ∈ o.group.Ancestry, g.yamlName = ""

/-- What the reader has to leave alone in an option: the schema fields, and the value when
the YAML key is empty. -/
def frameOf {V : Type} (o : Opt V) : String × String × String × GroupPtr × Option V :=
  (o.name, o.description, o.yaml, o.group, if o.yaml = "" then some o.value else none)

/-- Every index stored in `optionsByName` is the index of an option with a YAML key. -/
def KeyedIdx {V : Type} (maps : Maps) (os : OptionSet V) : Prop :=
  ∀ k j, maps.optionsByName.get k = some j → ∃ o, os[j]? = some o ∧ o.yaml ≠ ""

/-- The value node paired with the first name node of value `key`, in the content of a
mapping node. -/
def childOf : List Node → String → Option Node
  | nm :: v :: rest, key => if nm.value = key then some v else childOf rest key
  | _, _ => none

/-- The sequence of names of a mapping node's content: the values of the nodes at the even
positions. -/
def namesOf : List Node → List String
  | [] => []
  | [nm] => [nm.value]
  | nm :: _ :: rest => nm.value :: namesOf rest

/-- The node found below `n` by following the names of `path`, one level per name. -/
def nodeAt : Node → List String → Option Node
  | n, [] => some n
  | n, k :: path =>
    match childOf n.content k with
    | some c => nodeAt c path
    | none => none

/-- The path of a group in the tree: the YAML names of its ancestry, root first. -/
def ancestryKeys (g : GroupPtr) : List String :=
  g.Ancestry.map GroupPtr.yamlName

/-- The remainder of `a` after `p`, when `a` starts with `p`. -/
def stripPath : List String → List String → Option (List String)
  | [], a => some a
  | _ :: _, [] => none
  | x :: p, y :: a => if x = y then stripPath p a else none

/-- What an option contributes to a level of the tree: its own key, or the key of the
subgroup of that level it lies in. -/
inductive Touch where
  | option (key : String)
  | subgroup (key : String)
deriving DecidableEq, Repr

/-- The contribution of option `o` to the level at path `p`: nothing when `o` has no YAML
key or lies elsewhere, its key when its group is the group of the level, the key of the
subgroup of the level that holds it when it lies deeper. -/
def touch {V : Type} (p : List String) (o : Opt V) : Option Touch :=
  if o.yaml = "" then none
  else
    match stripPath p (ancestryKeys o.group) with
    | some [] => some (.option o.yaml)
    | some (k :: _) => some (.subgroup k)
    | none => none

/-- The names of the level at path `p` in first-touch order, following the spec's words:
scanning the options in set order, an option of the level gives its key, and an option
lying in a subgroup of the level gives the key of that subgroup unless an earlier option
lies in a subgroup with that key. -/
def levelNames {V : Type} (p : List String) : OptionSet V → OptionSet V → List String
  | _, [] => []
  | earlier, o :: rest =>
    (match touch p o with
      | some (.option k) => [k]
      | some (.subgroup k) =>
        if earlier.any (fun q => decide (touch p q = some (.subgroup k))) then [] else [k]
      | none => [])
    ++ levelNames p (earlier ++ [o]) rest

/-- Option `o` has the key of the subgroup, of the level of `o`, that holds `q`. -/
def collides {V : Type} (o q : Opt V) : Bool :=
  match stripPath (ancestryKeys o.group) (ancestryKeys q.group) with
  | some (k :: _) => decide (o.yaml ≠ "" ∧ q.yaml ≠ "" ∧ k = o.yaml)
  | _ => false

/-- No option key equals the key of a sibling subgroup. -/
def NoCollision {V : Type} (s : OptionSet V) : Prop :=
  ∀ o ∈ s, ∀ q ∈ s, collides o q = false

/-- The levels of the tree of an option set: the root, and every path that leads to or
towards the group of an option with a YAML key. -/
def IsLevel {V : Type} (s : OptionSet V) (p : List String) : Prop :=
  p = [] ∨ ∃ o ∈ s, (touch p o).isSome

/-- Along the path `p` below `n`, every node met is a mapping with a content of even
length. -/
def GoodAlong : Node → List String → Prop
  | n, [] => n.kind = .mapping ∧ n.content.length % 2 = 0
  | n, k :: p =>
    n.kind = .mapping ∧ n.content.length % 2 = 0
      ∧ ∀ c, childOf n.content k = some c → GoodAlong c p

/-- The write `ToYAML` makes through the pointer returned by `deepMapNode`. -/
def appendPair (nameNode valueNode : Node) (parentValueNode : Node) : Node :=
  parentValueNode.withContent (parentValueNode.content ++ [nameNode, valueNode])

/-- The names at path `p` below `n`; none when there is no node at `p`. -/
def namesAt (n : Node) (p : List String) : List String :=
  match nodeAt n p with
  | some c => namesOf c.content
  | none => []

/-- What an insertion below the path `a`, of a pair named `key`, adds to the names of the
level at path `p`, whose names so far are `names`. -/
def levelDelta (p a : List String) (key : String) (names : List String) : List String :=
  match stripPath p a with
  | some [] => [key]
  | some (k :: _) => if k ∈ names then [] else [k]
  | none => []

/-- The content of a mapping node with the given entries, each a name node and a value
node. -/
def pairsContent : List (Node × Node) → List Node
  | [] => []
  | (k, v) :: rest => k :: v :: pairsContent rest

/-- A sample option set: ungrouped options, options in the group `network` and in its
subgroup `http`, and an option without YAML key in a group without YAML name. -/
def sampleSet : OptionSet Val :=
  [⟨"Zone", "", "zone", .nil, .str "eu"⟩,
   ⟨"Port", "", "port", .ref 2 (.ref 1 .nil "Network" "network" "") "HTTP" "http" "", .str "80"⟩,
   ⟨"Secret", "", "", .ref 3 .nil "Hidden" "" "", .str "s"⟩,
   ⟨"Address", "", "address", .nil, .str "a"⟩,
   ⟨"Proxy", "", "proxy", .ref 1 .nil "Network" "network" "", .str "p"⟩,
   ⟨"TLS", "", "tls", .ref 2 (.ref 1 .nil "Network" "network" "") "HTTP" "http" "", .bool true⟩]

/-- The tree of the sample option set. -/
def sampleTree : Node :=
  .mk .mapping "" ""
    [.mk .scalar "zone" "" [], .mk .scalar "eu" "" [],
     .mk .scalar "network" "" [],
     .mk .mapping "" ""
      [.mk .scalar "http" "" [],
       .mk .mapping "" ""
        [.mk .scalar "port" "" [], .mk .scalar "80" "" [],
         .mk .scalar "tls" "" [], .mk .scalar "true" "" []],
       .mk .scalar "proxy" "" [], .mk .scalar "p" "" []],
     .mk .scalar "address" "" [], .mk .scalar "a" "" []]

/-- The statement `if err != nil { merr = errors.Join(merr, wrap(err)) }` of the reader,
for an error `err` of a value holder or of a recursive call. -/
def joinWrapped {ε : Type} (merr : Option Error) (wrap : ε → Error) :
    Option ε → Option Error
  | none => merr
  | some err => errorsJoin [merr, some (wrap err)]

/-- How one name/value pair of the third loop of `fromYAML` ends: with a `return` of the
function, or with the loop going on to the next pair. -/
inductive PairResult (V : Type) where
  | abort (r : OptionSet V × Option Error)
  | next (os : OptionSet V) (merr : Option Error)

/-- Two iterations of the third loop of `fromYAML`, on a name node `k` at an even index and
the value node `v` after it, from the option set `os` and the aggregate `merr`. -/
def pairStep {V : Type} (env : Env V) (maps : Maps) (os : OptionSet V) (k v : Node)
    (merr : Option Error) : PairResult V :=
  if k.kind ≠ .scalar then .abort (os, some (.nameNotScalar k.kind))
  else
    match v.kind with
    | .mapping =>
      match maps.optionsByName.get k.value with
      | some j =>
        match os[j]? with
        | none => .abort (os, merr)
        | some opt =>
          match env.unmarshalYAML opt.value with
          | none => .abort (os, some (.complexOption opt.name))
          | some unmarshal =>
            .next (setValue os j (unmarshal v).1)
              (joinWrapped merr (.unmarshal opt.name) (unmarshal v).2)
      | none =>
        match maps.subGroupsByName.get k.value with
        | some g =>
          .next (fromYAML env os g v).1
            (joinWrapped merr (.group g.yamlName) (fromYAML env os g v).2)
        | none => .next os (errorsJoin [merr, some (.unknownOptionOrSubgroup k.value)])
    | .scalar =>
      match maps.optionsByName.get k.value with
      | none => .next os (errorsJoin [merr, some (.unknownOption k.value)])
      | some j =>
        match os[j]? with
        | none => .abort (os, merr)
        | some opt =>
          match env.unmarshalYAML opt.value with
          | none =>
            .next (setValue os j (env.set opt.value v.value).1)
              (joinWrapped merr (.set opt.name) (env.set opt.value v.value).2)
          | some unmarshal =>
            .next (setValue os j (unmarshal v).1)
              (joinWrapped merr (.unmarshal opt.name) (unmarshal v).2)
    | kd => .abort (os, some (.unexpectedKind kd))

/-- The third loop of `fromYAML` after a pair named `name`: the value returned when the pair
ended the function, the rest of the loop otherwise. -/
def afterPair {V : Type} (env : Env V) (maps : Maps) (rest : List Node) (i : Nat)
    (name : String) : PairResult V → OptionSet V × Option Error
  | .abort r => r
  | .next os merr => fromYAMLItems env maps os rest i name merr

/-- The schema fields of an option: everything but the value. -/
def schemaOf {V : Type} (o : Opt V) : String × String × String × GroupPtr :=
  (o.name, o.yaml, o.description, o.group)

/-- Sample value holders with a structured one: a simple holder, or a holder of a YAML node
that is a `yaml.Marshaler` and a `yaml.Unmarshaler`. -/
inductive Holder where
  | simple (v : Val)
  | structured (n : Node)

/-- The sample environment with structured holders.  A structured holder marshals to its
node and takes every node but an alias; its `Set` fails. -/
def holderEnv : Env Holder where
  string
    | .simple v => v.string
    | .structured n => n.value
  set
    | .simple v, t => (.simple (v.set t).1, (v.set t).2)
    | .structured n, _ => (.structured n, some "not a scalar")
  marshalYAML
    | .simple _ => none
    | .structured n => some (.ok (some n))
  unmarshalYAML
    | .simple _ => none
    | .structured n => some (fun m =>
        if m.kind = Kind.alias then (.structured n, some "alias") else (.structured m, none))
  wrapString := fun s _ => s

/-- Two options of `l`, one before the other, with the same non-empty YAML key `k` and both
in the group `g` (both in no group when `g` is `nil`). -/
def DupPair {V : Type} (g : GroupPtr) (k : String) (l : OptionSet V) : Prop :=
  ∃ l1 a l2 b l3, l = l1 ++ a :: (l2 ++ b :: l3)
    ∧ a.yaml = k ∧ b.yaml = k ∧ k ≠ "" ∧ a.group = g ∧ b.group = g

/-- A document with an offending pair where the reader looks, read for the group `g` with
the schema of `os`: a mapping with, at an even index, a name node that is no scalar or a
name node followed by a value node that is neither a mapping nor a scalar (`here`); or a
mapping with an entry that the level reads as a subgroup and whose mapping is such a
document for the subgroup (`inside`); or, at the root, a document node around such a
document (`doc`). -/
inductive Offending {V : Type} (os : OptionSet V) : GroupPtr → Node → Prop where
  | here (g : GroupPtr) (value headComment : String) (pre : List Node) (k v : Node)
      (post : List Node) :
      pre.length % 2 = 0 → (k.kind ≠ .scalar ∨ (v.kind ≠ .mapping ∧ v.kind ≠ .scalar)) →
      Offending os g (.mk .mapping value headComment (pre ++ k :: v :: post))
  | inside (g : GroupPtr) (value headComment : String) (pre : List Node) (k v : Node)
      (post : List Node) (maps : Maps) (sub : GroupPtr) :
      pre.length % 2 = 0 → collectMaps g os 0 ⟨[], []⟩ = .ok maps →
      k.kind = .scalar → v.kind = .mapping →
      maps.optionsByName.get k.value = none → maps.subGroupsByName.get k.value = some sub →
      Offending os sub v →
      Offending os g (.mk .mapping value headComment (pre ++ k :: v :: post))
  | doc (value headComment : String) (c : Node) :
      Offending os .nil c → Offending os .nil (.mk .document value headComment [c])

/-- Every node at an even position of the content is a scalar. -/
def scalarNames : List Node → Prop
  | [] => True
  | [nm] => nm.kind = .scalar
  | nm :: _ :: rest => nm.kind = .scalar ∧ scalarNames rest

/-- The content holds the name node `a` at an even position, with the value node `b` right
after it. -/
def pairIn (a b : Node) : List Node → Prop
  | x :: y :: rest => (x = a ∧ y = b) ∨ pairIn a b rest
  | _ => False

/-- Along the path `p` below `n`, every node met has scalars at the even positions of its
content. -/
def ScalarAlong : Node → List String → Prop
  | n, [] => scalarNames n.content
  | n, k :: p => scalarNames n.content ∧ ∀ c, childOf n.content k = some c → ScalarAlong c p

/-- The node at path `p` below `t` holds the pair of the name node `a` and the value node
`b`. -/
def PairAt (t : Node) (p : List String) (a b : Node) : Prop :=
  ∃ n, nodeAt t p = some n ∧ pairIn a b n.content

/-- The name node `ToYAML` builds for an option. -/
def nameNodeOf {V : Type} (env : Env V) (opt : Opt V) : Node :=
  .mk .scalar opt.yaml (env.wrapString opt.description 80) []

/-- The state of the value holders of an option set whose options can share a holder: the
holder at each address.  With it goes an `OptionSet Nat`, in which the `value` of an option
is the address of the holder its `Value` interface points to; two options with one address
share the holder. -/
abbrev Holders (V : Type) := Nat → V

/-- A call of a method of the holder at address `a` that leaves it in state `v`. -/
def Holders.write {V : Type} (hs : Holders V) (a : Nat) (v : V) : Holders V :=
  fun b => if b = a then v else hs b

mutual
/-- The function `fromYAML`, with the value holders behind the pointers of the `Value`
interfaces: the option set `os` is only read, and the calls of `Set` and `UnmarshalYAML`
change the holder the option points to.  The result is the holders after the call, and the
returned error. -/
def fromYAMLShared {V : Type} (env : Env V) (os : OptionSet Nat) (hs : Holders V)
    (ofGroup : GroupPtr) : Node → Holders V × Option Error
  | .mk kind _ _ content =>
    if kind = .document ∧ ofGroup = .nil then
      match content with
      | [c] => fromYAMLShared env os hs ofGroup c
      | _ => (hs, some (.expectedOneContent content.length))
    else if kind ≠ .mapping then (hs, some (.expectedMapping kind))
    else
      match collectMaps ofGroup os 0 ⟨[], []⟩ with
      | .error e => (hs, some e)
      | .ok maps =>
        match ambiguousName maps with
        | some k => (hs, some (.optionAndGroup k))
        | none => fromYAMLSharedItems env maps os hs content 0 "" none
/-- The third loop of `fromYAML`, with the value holders behind pointers; see
`fromYAMLItems`. -/
def fromYAMLSharedItems {V : Type} (env : Env V) (maps : Maps) (os : OptionSet Nat)
    (hs : Holders V) : List Node → Nat → String → Option Error → Holders V × Option Error
  | [], _, _, merr => (hs, merr)
  | item :: rest, i, name, merr =>
    if i % 2 = 0 then
      if item.kind ≠ .scalar then (hs, some (.nameNotScalar item.kind))
      else fromYAMLSharedItems env maps os hs rest (i + 1) item.value merr
    else
      match item.kind with
      | .mapping =>
        match maps.optionsByName.get name with
        | some j =>
          match os[j]? with
          | none => (hs, merr)
          | some opt =>
            match env.unmarshalYAML (hs opt.value) with
            | none => (hs, some (.complexOption opt.name))
            | some unmarshal =>
              let r := unmarshal item
              fromYAMLSharedItems env maps os (hs.write opt.value r.1) rest (i + 1) name
                (match r.2 with
                  | some err => errorsJoin [merr, some (.unmarshal opt.name err)]
                  | none => merr)
        | none =>
          match maps.subGroupsByName.get name with
          | some g =>
            let r := fromYAMLShared env os hs g item
            fromYAMLSharedItems env maps os r.1 rest (i + 1) name
              (match r.2 with
                | some err => errorsJoin [merr, some (.group g.yamlName err)]
                | none => merr)
          | none =>
            fromYAMLSharedItems env maps os hs rest (i + 1) name
              (errorsJoin [merr, some (.unknownOptionOrSubgroup name)])
      | .scalar =>
        match maps.optionsByName.get name with
        | none =>
          fromYAMLSharedItems env maps os hs rest (i + 1) name
            (errorsJoin [merr, some (.unknownOption name)])
        | some j =>
          match os[j]? with
          | none => (hs, merr)
          | some opt =>
            match env.unmarshalYAML (hs opt.value) with
            | none =>
              let r := env.set (hs opt.value) item.value
              fromYAMLSharedItems env maps os (hs.write opt.value r.1) rest (i + 1) name
                (match r.2 with
                  | some err => errorsJoin [merr, some (.set opt.name err)]
                  | none => merr)
            | some unmarshal =>
              let r := unmarshal item
              fromYAMLSharedItems env maps os (hs.write opt.value r.1) rest (i + 1) name
                (match r.2 with
                  | some err => errorsJoin [merr, some (.unmarshal opt.name err)]
                  | none => merr)
      | k => (hs, some (.unexpectedKind k))
end

/-- The method `OptionSet.FromYAML`, with the value holders behind pointers. -/
def FromYAMLShared {V : Type} (env : Env V) (s : OptionSet Nat) (hs : Holders V)
    (n : Node) : Holders V × Option Error :=
  fromYAMLShared env s hs .nil n

/-- A `yaml.Node` struct in memory, with the fields used by the builder.  `Content` is a
slice of pointers: here the addresses of the child nodes. -/
structure Cell where
  kind : Kind
  value : String
  headComment : String
  content : List Nat
deriving DecidableEq, Repr

/-- The memory that holds the nodes: the node at address `a` is the element of index `a`. -/
abbrev Mem := List Cell

/-- The node at address `a`. -/
def Mem.read (m : Mem) (a : Nat) : Cell :=
  m.getD a ⟨.zero, "", "", []⟩

/-- A new node: the memory with it, and its address. -/
def Mem.alloc (m : Mem) (c : Cell) : Mem × Nat :=
  (m ++ [c], m.length)

/-- The statement `n.Content = append(n.Content, a, b)` for the node at address `n`. -/
def Mem.appendContent (m : Mem) (n : Nat) (a b : Nat) : Mem :=
  m.set n { m.read n with content := (m.read n).content ++ [a, b] }

/-- The search loop of `deepMapNode` on a `Content` of pointers: for the first even index
`i` with `i < len(content) - 1` whose node has value `key`, the pointer
`n.Content[i+1]`. -/
def findNameMem (m : Mem) : List Nat → String → Option Nat
  | nm :: v :: rest, key =>
    if (m.read nm).value = key then some v else findNameMem m rest key
  | _, _ => none

/-- The function `deepMapNode` on nodes in memory: `n` and the result are pointers, and the
nodes it creates are new nodes of the memory. -/
def deepMapNodeMem : Mem → Nat → List String → String → Mem × Nat
  | m, n, [], _ => (m, n)
  | m, n, p :: rest, headComment =>
    match findNameMem m (m.read n).content p with
    | some c => deepMapNodeMem m c rest headComment
    | none =>
      let nameNode := m.alloc ⟨.scalar, p, headComment, []⟩
      let valueNode := nameNode.1.alloc ⟨.mapping, "", "", []⟩
      deepMapNodeMem (valueNode.1.appendContent n nameNode.2 valueNode.2) valueNode.2 rest
        headComment

/-- The collaborators of the builder for nodes in memory.  `marshalYAML` is as in `Env`,
but a resulting `yaml.Node` is the struct itself, whose `Content` holds the pointers the
holder put there: the addresses of nodes the holder keeps. -/
structure MemEnv (V : Type) where
  string : V → String
  marshalYAML : V → Option (Except String (Option Cell))
  wrapString : String → Nat → String

/-- The value node `ToYAML` builds for an option, before it is put in memory.  For a
`yaml.Marshaler`, `valueNode, ok = v.(yaml.Node)` copies the struct, pointers included. -/
def valueCellOf {V : Type} (env : MemEnv V) (opt : Opt V) : Except Error Cell :=
  match env.marshalYAML opt.value with
  | some (.error err) => .error (.marshal opt.name err)
  | some (.ok none) => .error (.marshalType opt.name)
  | some (.ok (some v)) => .ok v
  | none => .ok ⟨.scalar, env.string opt.value, "", []⟩

/-- One iteration of the loop of `ToYAML` on nodes in memory, `root` being the address of
the root.  The local variables `nameNode` and `valueNode` become new nodes of the
memory. -/
def toYAMLStepMem {V : Type} (env : MemEnv V) (m : Mem) (root : Nat) (opt : Opt V) :
    Except Error Mem :=
  if opt.yaml = "" then .ok m
  else
    match valueCellOf env opt with
    | .error e => .error e
    | .ok value =>
      match groupPath opt.name opt.group opt.group.Ancestry [] with
      | .error e => .error e
      | .ok group =>
        let groupDesc :=
          if opt.group ≠ .nil then env.wrapString opt.group.description 80 else ""
        let nameNode := m.alloc ⟨.scalar, opt.yaml, env.wrapString opt.description 80, []⟩
        let valueNode := nameNode.1.alloc value
        let parentValueNode := deepMapNodeMem valueNode.1 root group groupDesc
        .ok (parentValueNode.1.appendContent parentValueNode.2 nameNode.2 valueNode.2)

/-- The loop of `ToYAML` on nodes in memory. -/
def toYAMLLoopMem {V : Type} (env : MemEnv V) (root : Nat) : Mem → OptionSet V → Except Error Mem
  | m, [] => .ok m
  | m, opt :: rest =>
    match toYAMLStepMem env m root opt with
    | .error e => .error e
    | .ok m1 => toYAMLLoopMem env root m1 rest

/-- The method `OptionSet.ToYAML` on nodes in memory: `m` is the memory before the call,
with the nodes the holders keep; the result is the memory after the call and the returned
pointer to the root. -/
def ToYAMLMem {V : Type} (env : MemEnv V) (m : Mem) (s : OptionSet V) :
    Except Error (Mem × Nat) :=
  let root := m.alloc ⟨.mapping, "", "", []⟩
  match toYAMLLoopMem env root.2 root.1 s with
  | .error e => .error e
  | .ok m1 => .ok (m1, root.2)

/-- Sample holders for nodes in memory: a string holder, and a holder that keeps a
`yaml.Node` and returns it from `MarshalYAML`. -/
inductive NodeHolder where
  | text (s : String)
  | node (c : Cell)
deriving DecidableEq, Repr

/-- The sample environment for nodes in memory. -/
def sampleMemEnv : MemEnv NodeHolder where
  string
    | .text s => s
    | .node c => c.value
  marshalYAML
    | .text _ => none
    | .node c => some (.ok (some c))
  wrapString := fun s _ => s

/-- The memory before the call for the sample below: the two children of the node a holder
keeps, the name `names` at address 0 and an empty mapping at address 1. -/
def keptMem : Mem :=
  [⟨.scalar, "names", "", []⟩, ⟨.mapping, "", "", []⟩]

/-- An option set with the option `workspace`, whose holder keeps the mapping node with the
children of `keptMem`, and the option `name` in the group `names` of the group
`workspace`. -/
def keptSet : OptionSet NodeHolder :=
  [⟨"Workspace", "", "workspace", .nil, .node ⟨.mapping, "", "", [0, 1]⟩⟩,
   ⟨"Name", "", "name", .ref 2 (.ref 1 .nil "Workspace" "workspace" "") "Names" "names" "",
     .text "billie"⟩]

/-! # Theorems -/

/-! ## The builder skips options without YAML key -/

theorem toYAMLStep_empty {V : Type} (env : Env V) (root : Node) (o : Opt V) (h : o.yaml = "") :
    toYAMLStep env root o = .ok root := by
  simp [toYAMLStep, h]

theorem toYAMLLoop_filter {V : Type} (env : Env V) (s : OptionSet V) :
    ∀ root, toYAMLLoop env root s
      = toYAMLLoop env root (s.filter (fun o => decide (o.yaml ≠ ""))) := by
  induction s with
  | nil => intro root; rfl
  | cons o rest ih =>
    intro root
    by_cases h : o.yaml = ""
    · rw [List.filter_cons_of_neg (by simpa using h)]
      simp only [toYAMLLoop, toYAMLStep_empty env root o h]
      exact ih root
    · rw [List.filter_cons_of_pos (by simpa using h)]
      simp only [toYAMLLoop]
      cases toYAMLStep env root o with
      | error e => rfl
      | ok r => exact ih r

theorem toYAMLLoop_all_empty {V : Type} (env : Env V) (s : OptionSet V)
    (h : ∀ o ∈ s, o.yaml = "") : ∀ root, toYAMLLoop env root s = .ok root := by
  induction s with
  | nil => intro root; rfl
  | cons o rest ih =>
    intro root
    simp only [toYAMLLoop, toYAMLStep_empty env root o (h o (List.mem_cons_self _ _))]
    exact ih (fun p hp => h p (List.mem_cons_of_mem _ hp)) root

/-! ## Group paths and failures of the builder -/

theorem groupPath_ok (opt : String) (grp : GroupPtr) (gs : List GroupPtr) :
    ∀ acc, (∀ g ∈ gs, g.yamlName ≠ "") →
      groupPath opt grp gs acc = .ok (acc ++ gs.map GroupPtr.yamlName) := by
  induction gs with
  | nil => intro acc _; simp [groupPath]
  | cons g gs ih =>
    intro acc h
    have hg : g.yamlName ≠ "" := h g (List.mem_cons_self _ _)
    simp only [groupPath, if_neg hg]
    rw [ih _ (fun x hx => h x (List.mem_cons_of_mem _ hx))]
    simp

theorem groupPath_error (opt : String) (grp : GroupPtr) (gs : List GroupPtr) :
    ∀ acc, (∃ g ∈ gs, g.yamlName = "") →
      groupPath opt grp gs acc = .error (.groupYAMLNameEmpty opt grp) := by
  induction gs with
  | nil => intro acc h; simp at h
  | cons g gs ih =>
    intro acc h
    by_cases hg : g.yamlName = ""
    · simp [groupPath, hg]
    · simp only [groupPath, if_neg hg]
      apply ih
      obtain ⟨x, hx, hxe⟩ := h
      rcases List.mem_cons.1 hx with rfl | hx
      · exact absurd hxe hg
      · exact ⟨x, hx, hxe⟩

theorem toYAMLLoop_append {V : Type} (env : Env V) (pre post : OptionSet V) :
    ∀ root, toYAMLLoop env root (pre ++ post)
      = (match toYAMLLoop env root pre with
        | .error e => .error e
        | .ok r => toYAMLLoop env r post) := by
  induction pre with
  | nil => intro root; rfl
  | cons o pre ih =>
    intro root
    simp only [List.cons_append, toYAMLLoop]
    cases toYAMLStep env root o with
    | error e => rfl
    | ok r => exact ih r

theorem toYAMLStep_missing {V : Type} (env : Env V) (root : Node) (o : Opt V)
    (h : MissingGroupKey o) :
    ∃ e, toYAMLStep env root o = .error e
      ∧ (e = .groupYAMLNameEmpty o.name o.group ∨ (∃ m, e = .marshal o.name m)
          ∨ e = .marshalType o.name)
      ∧ (env.marshalYAML o.value = none → e = .groupYAMLNameEmpty o.name o.group) := by
  obtain ⟨hk, hg⟩ := h
  have hp := groupPath_error o.name o.group o.group.Ancestry [] hg
  simp only [toYAMLStep, if_neg hk, valueNodeOf]
  cases hm : env.marshalYAML o.value with
  | none => simp [hp]
  | some r =>
    cases r with
    | error m => simp
    | ok v =>
      cases v with
      | none => simp
      | some v => simp [hp]

theorem toYAMLLoop_error_of_mem {V : Type} (env : Env V) (s : OptionSet V)
    (h : ∃ o ∈ s, MissingGroupKey o) : ∀ root, ∃ e, toYAMLLoop env root s = .error e := by
  induction s with
  | nil => simp at h
  | cons o s ih =>
    intro root
    simp only [toYAMLLoop]
    cases hs : toYAMLStep env root o with
    | error e => exact ⟨e, rfl⟩
    | ok r =>
      obtain ⟨x, hx, hxb⟩ := h
      rcases List.mem_cons.1 hx with rfl | hx
      · obtain ⟨e, he, _⟩ := toYAMLStep_missing env root x hxb
        rw [he] at hs; cases hs
      · exact ih ⟨x, hx, hxb⟩ r

/-! ## The frame of the reader -/

theorem GoMap.get_put {α : Type} (m : GoMap α) (k : String) (v : α) (key : String) :
    (m.put k v).get key = if k = key then some v else m.get key := by
  induction m with
  | nil => simp [GoMap.put, GoMap.get]
  | cons e m ih =>
    obtain ⟨k1, v1⟩ := e
    by_cases h : k1 = k
    · subst h
      by_cases h2 : k1 = key <;> simp [GoMap.put, GoMap.get, h2]
    · by_cases h2 : k1 = key
      · subst h2
        simp [GoMap.put, GoMap.get, h, Ne.symm h]
      · simp [GoMap.put, GoMap.get, h, h2, ih]

theorem setValue_frame {V : Type} (os : OptionSet V) :
    ∀ j o v, os[j]? = some o → o.yaml ≠ "" →
      (setValue os j v).map frameOf = os.map frameOf := by
  induction os with
  | nil => intro j o v h; simp at h
  | cons p os ih =>
    intro j o v h hk
    cases j with
    | zero =>
      simp at h
      subst h
      simp [setValue, frameOf, hk]
    | succ j =>
      simp at h
      simp [setValue, ih j o v h hk]

theorem keyedIdx_of_frame {V : Type} (maps : Maps) (os os1 : OptionSet V)
    (h : os1.map frameOf = os.map frameOf) (hk : KeyedIdx maps os) : KeyedIdx maps os1 := by
  intro k j hj
  obtain ⟨o, ho, hy⟩ := hk k j hj
  have h1 : (os1.map frameOf)[j]? = (os.map frameOf)[j]? := by rw [h]
  simp only [List.getElem?_map, ho, Option.map_some'] at h1
  cases h2 : os1[j]? with
  | none => simp [h2] at h1
  | some o1 =>
    refine ⟨o1, rfl, ?_⟩
    simp [h2, frameOf] at h1
    rw [h1.2.2.1]; exact hy

theorem collectMaps_keyed {V : Type} (ofGroup : GroupPtr) (os : OptionSet V) :
    ∀ (rest : List (Opt V)) (i : Nat) (m maps : Maps),
      (∀ j o, rest[j]? = some o → os[i + j]? = some o) →
      KeyedIdx m os → collectMaps ofGroup rest i m = .ok maps → KeyedIdx maps os := by
  intro rest
  induction rest with
  | nil => intro i m maps _ hm h; simp [collectMaps] at h; subst h; exact hm
  | cons o rest ih =>
    intro i m maps hidx hm h
    have hrest : ∀ j p, rest[j]? = some p → os[i + 1 + j]? = some p := by
      intro j p hj
      have := hidx (j + 1) p (by simpa using hj)
      rw [← this]; congr 1; omega
    rw [collectMaps] at h
    split at h
    · exact ih _ _ _ hrest hm h
    · rename_i hy
      split at h
      · split at h
        · split at h
          · cases h
          · refine ih _ _ _ hrest ?_ h
            exact fun k j hj => hm k j hj
        · exact ih _ _ _ hrest hm h
      · split at h
        · cases h
        · refine ih _ _ _ hrest ?_ h
          intro k j hj
          simp only [GoMap.get_put] at hj
          split at hj
          · cases hj
            exact ⟨o, by simpa using hidx 0 o (by simp), hy⟩
          · exact hm k j hj

mutual
theorem fromYAML_frame {V : Type} (env : Env V) (os : OptionSet V) (g : GroupPtr) :
    ∀ n : Node, (fromYAML env os g n).1.map frameOf = os.map frameOf
  | .mk kind v h content => by
    rw [fromYAML.eq_def]
    simp only
    split
    · split
      · rename_i c
        exact fromYAML_frame env os g c
      · rfl
    · split
      · rfl
      · split
        · rfl
        · rename_i maps hmaps
          split
          · rfl
          · refine fromYAMLItems_frame env maps os content 0 "" none ?_
            exact collectMaps_keyed g os os 0 ⟨[], []⟩ maps (by intro j o hj; simpa using hj)
              (by intro k j hj; simp [GoMap.get] at hj) hmaps
theorem fromYAMLItems_frame {V : Type} (env : Env V) (maps : Maps) (os : OptionSet V) :
    ∀ (items : List Node) (i : Nat) (name : String) (merr : Option Error),
      KeyedIdx maps os →
      (fromYAMLItems env maps os items i name merr).1.map frameOf = os.map frameOf
  | [], _, _, _ => by intro _; rw [fromYAMLItems]
  | item :: rest, i, name, merr => by
    intro hk
    have step : ∀ os1 i1 name1 merr1, os1.map frameOf = os.map frameOf →
        (fromYAMLItems env maps os1 rest i1 name1 merr1).1.map frameOf = os.map frameOf := by
      intro os1 i1 name1 merr1 h1
      rw [fromYAMLItems_frame env maps os1 rest i1 name1 merr1
        (keyedIdx_of_frame maps os os1 h1 hk), h1]
    have upd : ∀ j o v, maps.optionsByName.get name = some j → os[j]? = some o →
        (setValue os j v).map frameOf = os.map frameOf := by
      intro j o v hj ho
      obtain ⟨o1, ho1, hy⟩ := hk name j hj
      rw [ho] at ho1; cases ho1
      exact setValue_frame os j o v ho hy
    rw [fromYAMLItems]
    split
    · split
      · rfl
      · exact step _ _ _ _ rfl
    · split
      · split
        · split
          · rfl
          · split
            · rfl
            · rename_i j hj _ o ho _ _ _
              exact step _ _ _ _ (upd j o _ hj ho)
        · split
          · exact step _ _ _ _ (fromYAML_frame env os _ item)
          · exact step _ _ _ _ rfl
      · split
        · exact step _ _ _ _ rfl
        · split
          · rfl
          · rename_i j hj _ o ho
            split
            · exact step _ _ _ _ (upd j o _ hj ho)
            · exact step _ _ _ _ (upd j o _ hj ho)
      · rfl
end


/-! ## One option: the tree that is built, and reading it back -/

theorem ToYAML_single_ungrouped {V : Type} (env : Env V) (o : Opt V) (hk : o.yaml ≠ "")
    (hs : env.marshalYAML o.value = none) (hg : o.group = .nil) :
    ToYAML env [o] = .ok (.mk .mapping "" ""
      [.mk .scalar o.yaml (env.wrapString o.description 80) [],
       .mk .scalar (env.string o.value) "" []]) := by
  simp [ToYAML, toYAMLLoop, toYAMLStep, hk, valueNodeOf, hs, hg, GroupPtr.Ancestry,
    groupPath, deepMapNode, Node.withContent, Node.content]

theorem ToYAML_single_grouped {V : Type} (env : Env V) (o : Opt V) (hk : o.yaml ≠ "")
    (hs : env.marshalYAML o.value = none) (a : Nat) (n g d : String) (hne : g ≠ "")
    (hg : o.group = .ref a .nil n g d) :
    ToYAML env [o] = .ok (.mk .mapping "" ""
      [.mk .scalar g (env.wrapString d 80) [],
       .mk .mapping "" ""
        [.mk .scalar o.yaml (env.wrapString o.description 80) [],
         .mk .scalar (env.string o.value) "" []]]) := by
  simp [ToYAML, toYAMLLoop, toYAMLStep, hk, valueNodeOf, hs, hg, GroupPtr.Ancestry,
    groupPath, deepMapNode, Node.withContent, Node.content, GroupPtr.yamlName, hne,
    findName, GroupPtr.description]

/-! ## Steps of the reader loop -/

theorem perm3_cases {α : Type} (a b c : α) (l : List α) (h : l.Perm [a, b, c]) :
    l = [a, b, c] ∨ l = [a, c, b] ∨ l = [b, a, c] ∨ l = [b, c, a] ∨ l = [c, a, b]
      ∨ l = [c, b, a] := by
  have h1 := List.mem_permutations.2 h
  simp [List.permutations, List.permutationsAux_cons, List.permutationsAux2] at h1
  tauto

theorem fromYAML_mapping {V : Type} (env : Env V) (os : OptionSet V) (g : GroupPtr)
    (v h : String) (content : List Node) :
    fromYAML env os g (.mk .mapping v h content) =
      match collectMaps g os 0 ⟨[], []⟩ with
      | .error e => (os, some e)
      | .ok maps =>
        match ambiguousName maps with
        | some k => (os, some (.optionAndGroup k))
        | none => fromYAMLItems env maps os content 0 "" none := by
  rw [fromYAML.eq_def]
  simp

theorem fromYAMLItems_scalar_unknown {V : Type} (env : Env V) (maps : Maps)
    (os : OptionSet V) (k v : Node) (rest : List Node) (i : Nat) (name : String)
    (merr : Option Error) (hi : i % 2 = 0) (hk : k.kind = .scalar) (hv : v.kind = .scalar)
    (hget : maps.optionsByName.get k.value = none) :
    fromYAMLItems env maps os (k :: v :: rest) i name merr
      = fromYAMLItems env maps os rest (i + 2) k.value
          (errorsJoin [merr, some (.unknownOption k.value)]) := by
  have hi1 : ¬ (i + 1) % 2 = 0 := by omega
  rw [fromYAMLItems, if_pos hi, if_neg (by simp [hk]), fromYAMLItems, if_neg hi1]
  simp only [hv, hget]

theorem fromYAMLItems_scalar_set {V : Type} (env : Env V) (maps : Maps)
    (os : OptionSet V) (k v : Node) (rest : List Node) (i : Nat) (name : String)
    (merr : Option Error) (j : Nat) (opt : Opt V)
    (hi : i % 2 = 0) (hk : k.kind = .scalar) (hv : v.kind = .scalar)
    (hget : maps.optionsByName.get k.value = some j) (hj : os[j]? = some opt)
    (hu : env.unmarshalYAML opt.value = none) :
    fromYAMLItems env maps os (k :: v :: rest) i name merr
      = fromYAMLItems env maps (setValue os j (env.set opt.value v.value).1) rest (i + 2)
          k.value
          (match (env.set opt.value v.value).2 with
            | some err => errorsJoin [merr, some (.set opt.name err)]
            | none => merr) := by
  have hi1 : ¬ (i + 1) % 2 = 0 := by omega
  rw [fromYAMLItems, if_pos hi, if_neg (by simp [hk]), fromYAMLItems, if_neg hi1]
  simp only [hv, hget, hj, hu]

/-! ## Contents of mapping nodes, two nodes at a time -/

theorem pair_induction {P : List Node → Prop} (h0 : P []) (h1 : ∀ a, P [a])
    (h2 : ∀ a b l, P l → P (a :: b :: l)) : ∀ l, P l := by
  have key : ∀ l, P l ∧ ∀ a, P (a :: l) := by
    intro l
    induction l with
    | nil => exact ⟨h0, h1⟩
    | cons b l ih => exact ⟨ih.2 b, fun a => h2 a b l ih.1⟩
  exact fun l => (key l).1

theorem stripPath_eq_some (p : List String) :
    ∀ a r, stripPath p a = some r ↔ a = p ++ r := by
  induction p with
  | nil => intro a r; simp [stripPath, eq_comm]
  | cons x p ih =>
    intro a r
    cases a with
    | nil => simp [stripPath]
    | cons y a =>
      by_cases h : x = y
      · subst h; simp [stripPath, ih]
      · simp [stripPath, h, Ne.symm h]

theorem stripPath_append (p r : List String) : stripPath p (p ++ r) = some r :=
  (stripPath_eq_some p _ r).2 rfl

theorem childOf_append (a b : Node) (k : String) :
    ∀ c : List Node, c.length % 2 = 0 →
      childOf (c ++ [a, b]) k
        = match childOf c k with
          | some x => some x
          | none => if a.value = k then some b else none := by
  intro c
  induction c using pair_induction with
  | h0 => intro _; simp [childOf]
  | h1 x => intro h; simp at h
  | h2 x y l ih =>
    intro h
    have hl : l.length % 2 = 0 := by simp at h; omega
    by_cases hx : x.value = k
    · simp [childOf, hx]
    · simp [childOf, hx, ih hl]

theorem namesOf_append (a b : Node) :
    ∀ c : List Node, c.length % 2 = 0 → namesOf (c ++ [a, b]) = namesOf c ++ [a.value] := by
  intro c
  induction c using pair_induction with
  | h0 => intro _; simp [namesOf]
  | h1 x => intro h; simp at h
  | h2 x y l ih =>
    intro h
    have hl : l.length % 2 = 0 := by simp at h; omega
    simp [namesOf, ih hl]

theorem childOf_eq_none_iff (k : String) :
    ∀ c : List Node, c.length % 2 = 0 → (childOf c k = none ↔ k ∉ namesOf c) := by
  intro c
  induction c using pair_induction with
  | h0 => intro _; simp [childOf, namesOf]
  | h1 x => intro h; simp at h
  | h2 x y l ih =>
    intro h
    have hl : l.length % 2 = 0 := by simp at h; omega
    by_cases hx : x.value = k
    · simp [childOf, namesOf, hx]
    · simp [childOf, namesOf, hx, ih hl, Ne.symm hx]

theorem findName_none (k : String) :
    ∀ c : List Node, findName c k = none → childOf c k = none := by
  intro c
  induction c using pair_induction with
  | h0 => intro _; simp [childOf]
  | h1 x => intro _; simp [childOf]
  | h2 x y l ih =>
    intro h
    by_cases hx : x.value = k
    · simp [findName, hx] at h
    · simp [findName, hx] at h
      simp [childOf, hx, ih h]

theorem findName_some (f : Node → Node) (x : String) :
    ∀ (c : List Node) (i : Nat), findName c x = some i →
      (modifyAt f c (i + 1)).length = c.length
      ∧ namesOf (modifyAt f c (i + 1)) = namesOf c
      ∧ (∃ ch, childOf c x = some ch)
      ∧ ∀ k, childOf (modifyAt f c (i + 1)) k
          = if x = k then (childOf c k).map f else childOf c k := by
  intro c
  induction c using pair_induction with
  | h0 => intro i h; simp [findName] at h
  | h1 a => intro i h; simp [findName] at h
  | h2 a b l ih =>
    intro i h
    by_cases ha : a.value = x
    · simp [findName, ha] at h
      subst h
      refine ⟨by simp [modifyAt], by simp [modifyAt, namesOf], ⟨b, by simp [childOf, ha]⟩, ?_⟩
      intro k
      by_cases hk : x = k
      · subst hk; simp [modifyAt, childOf, ha]
      · have : ¬ a.value = k := by rw [ha]; exact hk
        simp [modifyAt, childOf, hk, this]
    · simp [findName, ha] at h
      obtain ⟨j, hj, rfl⟩ := h
      obtain ⟨h1, h2, h3, h4⟩ := ih j hj
      refine ⟨by simp [modifyAt, h1], by simp [modifyAt, namesOf, h2], ?_, ?_⟩
      · obtain ⟨ch, hch⟩ := h3
        exact ⟨ch, by simp [childOf, ha, hch]⟩
      · intro k
        by_cases hak : a.value = k
        · have : ¬ x = k := by rw [← hak]; exact fun h => ha h.symm
          simp [modifyAt, childOf, hak, this]
        · simp [modifyAt, childOf, hak, h4 k]


/-! ## One insertion into the tree, seen from a level -/

theorem Node.content_withContent (n : Node) (c : List Node) : (n.withContent c).content = c := by
  cases n; rfl

theorem Node.kind_withContent (n : Node) (c : List Node) : (n.withContent c).kind = n.kind := by
  cases n; rfl

theorem deepMapNode_cons (t : Node) (x : String) (a : List String) (hc : String)
    (f : Node → Node) (ht : t.content.length % 2 = 0) :
    (deepMapNode t (x :: a) hc f).kind = t.kind
    ∧ (deepMapNode t (x :: a) hc f).content.length % 2 = 0
    ∧ (∀ k, x ≠ k → childOf (deepMapNode t (x :: a) hc f).content k = childOf t.content k)
    ∧ childOf (deepMapNode t (x :: a) hc f).content x
        = some (deepMapNode ((childOf t.content x).getD (.mk .mapping "" "" [])) a hc f)
    ∧ namesOf (deepMapNode t (x :: a) hc f).content
        = namesOf t.content ++ (if x ∈ namesOf t.content then [] else [x]) := by
  rw [deepMapNode]
  cases hf : findName t.content x with
  | some i =>
    obtain ⟨h1, h2, ⟨ch, hch⟩, h4⟩ :=
      findName_some (fun c => deepMapNode c a hc f) x t.content i hf
    have hx : x ∈ namesOf t.content := by
      by_contra hn
      rw [(childOf_eq_none_iff x t.content ht).2 hn] at hch
      cases hch
    simp only [Node.kind_withContent, Node.content_withContent, h1, h2, ht, hx, if_true,
      List.append_nil, true_and]
    refine ⟨fun k hk => by rw [h4 k, if_neg hk], ?_⟩
    rw [h4 x, if_pos rfl, hch]
    exact ⟨rfl, trivial⟩
  | none =>
    have hch := findName_none x t.content hf
    have hx : x ∉ namesOf t.content := (childOf_eq_none_iff x t.content ht).1 hch
    simp only [Node.kind_withContent, Node.content_withContent, hx, if_false, true_and]
    refine ⟨by simp; omega, fun k hk => ?_, ?_, ?_⟩
    · rw [childOf_append _ _ _ _ ht]
      simp only [Node.value, if_neg hk]
      cases childOf t.content k <;> rfl
    · rw [childOf_append _ _ _ _ ht, hch]
      simp [Node.value]
    · rw [namesOf_append _ _ _ ht]
      rfl

theorem goodAlong_empty (p : List String) : GoodAlong (.mk .mapping "" "" []) p := by
  cases p with
  | nil => exact ⟨rfl, rfl⟩
  | cons k p => exact ⟨rfl, rfl, fun c h => by simp [Node.content, childOf] at h⟩

theorem nodeAt_empty_cons (k : String) (p : List String) :
    nodeAt (.mk .mapping "" "" []) (k :: p) = none := by
  simp [nodeAt, Node.content, childOf]

theorem namesAt_empty (p : List String) : namesAt (.mk .mapping "" "" []) p = [] := by
  cases p with
  | nil => rfl
  | cons k p => simp [namesAt, nodeAt_empty_cons]

theorem goodAlong_base (t : Node) (p : List String) (h : GoodAlong t p) :
    t.kind = .mapping ∧ t.content.length % 2 = 0 := by
  cases p with
  | nil => exact h
  | cons k p => exact ⟨h.1, h.2.1⟩

theorem namesAt_cons (t : Node) (k : String) (p : List String) :
    namesAt t (k :: p) = namesAt ((childOf t.content k).getD (.mk .mapping "" "" [])) p := by
  cases h : childOf t.content k with
  | none =>
    rw [Option.getD_none, namesAt_empty]
    simp [namesAt, nodeAt, h]
  | some c => simp [namesAt, nodeAt, h]

theorem goodAlong_child (t : Node) (k : String) (p : List String)
    (h : GoodAlong t (k :: p)) :
    GoodAlong ((childOf t.content k).getD (.mk .mapping "" "" [])) p := by
  cases hc : childOf t.content k with
  | none => exact goodAlong_empty p
  | some c => exact h.2.2 c hc

theorem deepMapNode_level (hc : String) (nm v : Node) :
    ∀ (a : List String) (t : Node) (p : List String),
      GoodAlong t p → (∀ r, p ≠ a ++ nm.value :: r) →
      GoodAlong (deepMapNode t a hc (appendPair nm v)) p
      ∧ namesAt (deepMapNode t a hc (appendPair nm v)) p
          = namesAt t p ++ levelDelta p a nm.value (namesAt t p)
      ∧ ((nodeAt t p).isSome ∨ (stripPath p a).isSome →
          (nodeAt (deepMapNode t a hc (appendPair nm v)) p).isSome) := by
  intro a
  induction a with
  | nil =>
    intro t p hg hp
    obtain ⟨hk, hl⟩ := goodAlong_base t p hg
    have hl2 : (t.content ++ [nm, v]).length % 2 = 0 := by simp; omega
    simp only [deepMapNode, appendPair]
    cases p with
    | nil =>
      refine ⟨⟨by rw [Node.kind_withContent]; exact hk,
        by rw [Node.content_withContent]; exact hl2⟩, ?_, fun _ => rfl⟩
      simp [namesAt, nodeAt, Node.content_withContent, namesOf_append _ _ _ hl, levelDelta,
        stripPath]
    | cons k p =>
      have hne : ¬ nm.value = k := by
        intro h
        exact hp p (by simp [h])
      have hch : childOf (t.withContent (t.content ++ [nm, v])).content k
          = childOf t.content k := by
        rw [Node.content_withContent, childOf_append _ _ _ _ hl, if_neg hne]
        cases childOf t.content k <;> rfl
      refine ⟨⟨by rw [Node.kind_withContent]; exact hk,
        by rw [Node.content_withContent]; exact hl2, ?_⟩, ?_, ?_⟩
      · intro c h
        rw [hch] at h
        exact hg.2.2 c h
      · rw [namesAt_cons, namesAt_cons, hch]
        simp [levelDelta, stripPath]
      · simp only [nodeAt, hch, stripPath, Option.isSome_none, Bool.false_eq_true, or_false]
        exact id
  | cons x a ih =>
    intro t p hg hp
    obtain ⟨hk, hl⟩ := goodAlong_base t p hg
    obtain ⟨h1, h2, h3, h4, h5⟩ := deepMapNode_cons t x a hc (appendPair nm v) hl
    cases p with
    | nil =>
      refine ⟨⟨by rw [h1]; exact hk, h2⟩, ?_, fun _ => rfl⟩
      simp only [namesAt, nodeAt, h5, levelDelta, stripPath]
    | cons k p =>
      by_cases hxk : x = k
      · subst hxk
        have hp1 : ∀ r, p ≠ a ++ nm.value :: r := by
          intro r h
          exact hp r (by simp [h])
        obtain ⟨i1, i2, i3⟩ := ih _ p (goodAlong_child t x p hg) hp1
        refine ⟨⟨by rw [h1]; exact hk, h2, ?_⟩, ?_, ?_⟩
        · intro c h
          rw [h4] at h
          cases h
          exact i1
        · rw [namesAt_cons, namesAt_cons, h4, Option.getD_some, i2]
          simp [levelDelta, stripPath]
        · intro h
          simp only [nodeAt, h4]
          apply i3
          rcases h with h | h
          · left
            cases hch : childOf t.content x with
            | none => simp [nodeAt, hch] at h
            | some c => simpa [nodeAt, hch] using h
          · right
            simpa [stripPath] using h
      · have hch := h3 k hxk
        have hkx : ¬ k = x := fun h => hxk h.symm
        refine ⟨⟨by rw [h1]; exact hk, h2, ?_⟩, ?_, ?_⟩
        · intro c h
          rw [hch] at h
          exact hg.2.2 c h
        · rw [namesAt_cons, namesAt_cons, hch]
          simp [levelDelta, stripPath, hkx]
        · simp only [nodeAt, hch, stripPath, if_neg hkx, Option.isSome_none,
            Bool.false_eq_true, or_false]
          exact id
/-! ## The loop of the builder, seen from a level -/

theorem goodAlong_nodeAt :
    ∀ (p : List String) (t n : Node), GoodAlong t p → nodeAt t p = some n →
      n.kind = .mapping ∧ n.content.length % 2 = 0 := by
  intro p
  induction p with
  | nil =>
    intro t n hg h
    simp only [nodeAt, Option.some.injEq] at h
    subst h
    exact hg
  | cons k p ih =>
    intro t n hg h
    cases hc : childOf t.content k with
    | none => simp [nodeAt, hc] at h
    | some c =>
      simp only [nodeAt, hc] at h
      exact ih c n (hg.2.2 c hc) h

theorem ancestryKeys_of_groupPath (name : String) (g : GroupPtr) (group : List String)
    (h : groupPath name g g.Ancestry [] = .ok group) : group = ancestryKeys g := by
  by_cases hall : ∀ x ∈ g.Ancestry, x.yamlName ≠ ""
  · rw [groupPath_ok name g g.Ancestry [] hall] at h
    simp only [List.nil_append, Except.ok.injEq] at h
    exact h.symm
  · have hex : ∃ x ∈ g.Ancestry, x.yamlName = "" := by
      by_contra hn
      exact hall (fun x hx hxe => hn ⟨x, hx, hxe⟩)
    rw [groupPath_error name g g.Ancestry [] hex] at h
    cases h

theorem toYAMLStep_ok {V : Type} (env : Env V) (t t1 : Node) (o : Opt V)
    (h : toYAMLStep env t o = .ok t1) (hk : o.yaml ≠ "") :
    ∃ nm v hc, nm.value = o.yaml
      ∧ t1 = deepMapNode t (ancestryKeys o.group) hc (appendPair nm v) := by
  simp only [toYAMLStep, if_neg hk] at h
  cases hv : valueNodeOf env o with
  | error e => simp [hv] at h
  | ok v =>
    cases hg : groupPath o.name o.group o.group.Ancestry [] with
    | error e => simp [hv, hg] at h
    | ok group =>
      simp only [hv, hg, Except.ok.injEq] at h
      have := ancestryKeys_of_groupPath _ _ _ hg
      subst this
      exact ⟨Node.mk .scalar o.yaml (env.wrapString o.description 80) [], v, _, rfl, h.symm⟩

theorem touch_of_keyed {V : Type} (p : List String) (o : Opt V) (hk : o.yaml ≠ "")
    (names : List String) :
    levelDelta p (ancestryKeys o.group) o.yaml names
      = match touch p o with
        | some (.option k) => [k]
        | some (.subgroup k) => if k ∈ names then [] else [k]
        | none => [] := by
  simp only [levelDelta, touch, if_neg hk]
  cases stripPath p (ancestryKeys o.group) with
  | none => rfl
  | some r =>
    cases r with
    | nil => rfl
    | cons k r => rfl

theorem touch_isSome {V : Type} (p : List String) (o : Opt V) (h : (touch p o).isSome) :
    o.yaml ≠ "" ∧ (stripPath p (ancestryKeys o.group)).isSome := by
  by_cases hk : o.yaml = ""
  · simp [touch, hk] at h
  · refine ⟨hk, ?_⟩
    simp only [touch, if_neg hk] at h
    cases hs : stripPath p (ancestryKeys o.group) with
    | none => simp [hs] at h
    | some r => rfl

theorem exists_mem_snoc {α : Type} (l : List α) (a : α) (P : α → Prop) :
    (∃ e ∈ l ++ [a], P e) ↔ (∃ e ∈ l, P e) ∨ P a := by
  constructor
  · rintro ⟨e, he, hp⟩
    rcases List.mem_append.1 he with h | h
    · exact Or.inl ⟨e, h, hp⟩
    · rw [List.mem_singleton] at h
      subst h
      exact Or.inr hp
  · rintro (⟨e, he, hp⟩ | hp)
    · exact ⟨e, List.mem_append_left _ he, hp⟩
    · exact ⟨a, List.mem_append_right _ (List.mem_singleton_self a), hp⟩

theorem toYAMLLoop_level {V : Type} (env : Env V) (p : List String) :
    ∀ (s earlier : OptionSet V) (t tf : Node),
      toYAMLLoop env t s = .ok tf → GoodAlong t p →
      (∀ o ∈ s, o.yaml ≠ "" → ∀ r, p ≠ ancestryKeys o.group ++ o.yaml :: r) →
      (∀ o ∈ s, ∀ q ∈ s, ∀ k, touch p o = some (.option k) →
        touch p q ≠ some (.subgroup k)) →
      (∀ q ∈ s, ∀ k, touch p q = some (.subgroup k) →
        (k ∈ namesAt t p ↔ ∃ e ∈ earlier, touch p e = some (.subgroup k))) →
      GoodAlong tf p
      ∧ namesAt tf p = namesAt t p ++ levelNames p earlier s
      ∧ ((nodeAt t p).isSome ∨ (∃ o ∈ s, (touch p o).isSome) → (nodeAt tf p).isSome) := by
  intro s
  induction s with
  | nil =>
    intro earlier t tf h hg _ _ _
    simp only [toYAMLLoop, Except.ok.injEq] at h
    subst h
    refine ⟨hg, by simp [levelNames], ?_⟩
    rintro (h | ⟨o, ho, _⟩)
    · exact h
    · simp at ho
  | cons o rest ih =>
    intro earlier t tf h hg hon hcol hseen
    simp only [toYAMLLoop] at h
    cases hs : toYAMLStep env t o with
    | error e => simp [hs] at h
    | ok t1 =>
      simp only [hs] at h
      have hon1 : ∀ q ∈ rest, q.yaml ≠ "" → ∀ r, p ≠ ancestryKeys q.group ++ q.yaml :: r :=
        fun q hq => hon q (List.mem_cons_of_mem _ hq)
      have hcol1 : ∀ a ∈ rest, ∀ q ∈ rest, ∀ k, touch p a = some (.option k) →
          touch p q ≠ some (.subgroup k) :=
        fun a ha q hq => hcol a (List.mem_cons_of_mem _ ha) q (List.mem_cons_of_mem _ hq)
      by_cases hk : o.yaml = ""
      · -- the option is skipped
        rw [toYAMLStep_empty env t o hk] at hs
        cases hs
        have hto : touch p o = none := by simp [touch, hk]
        have hseen1 : ∀ q ∈ rest, ∀ k, touch p q = some (.subgroup k) →
            (k ∈ namesAt t p ↔ ∃ e ∈ earlier ++ [o], touch p e = some (.subgroup k)) := by
          intro q hq k hqk
          rw [hseen q (List.mem_cons_of_mem _ hq) k hqk, exists_mem_snoc, hto]
          simp
        obtain ⟨i1, i2, i3⟩ := ih (earlier ++ [o]) t tf h hg hon1 hcol1 hseen1
        refine ⟨i1, ?_, ?_⟩
        · rw [i2]; simp [levelNames, hto]
        · rintro (h1 | ⟨q, hq, hq1⟩)
          · exact i3 (Or.inl h1)
          · rcases List.mem_cons.1 hq with rfl | hq
            · simp [hto] at hq1
            · exact i3 (Or.inr ⟨q, hq, hq1⟩)
      · obtain ⟨nm, v, hc, hnm, rfl⟩ := toYAMLStep_ok env t t1 o hs hk
        have hp : ∀ r, p ≠ ancestryKeys o.group ++ nm.value :: r := by
          rw [hnm]; exact hon o (List.mem_cons_self _ _) hk
        obtain ⟨g1, g2, g3⟩ := deepMapNode_level hc nm v (ancestryKeys o.group) t p hg hp
        rw [hnm, touch_of_keyed p o hk] at g2
        have hany : ∀ k, touch p o = some (.subgroup k) →
            ((earlier.any (fun q => decide (touch p q = some (.subgroup k)))) = true
              ↔ k ∈ namesAt t p) := by
          intro k hok
          rw [hseen o (List.mem_cons_self _ _) k hok]
          simp
        have hseen1 : ∀ q ∈ rest, ∀ k, touch p q = some (.subgroup k) →
            (k ∈ namesAt (deepMapNode t (ancestryKeys o.group) hc (appendPair nm v)) p
              ↔ ∃ e ∈ earlier ++ [o], touch p e = some (.subgroup k)) := by
          intro q hq k hqk
          have hbase := hseen q (List.mem_cons_of_mem _ hq) k hqk
          rw [g2, exists_mem_snoc, List.mem_append, ← hbase]
          cases hto : touch p o with
          | none => simp
          | some tc =>
            cases tc with
            | option k0 =>
              have hne : k ≠ k0 := by
                intro hkk
                subst hkk
                exact hcol o (List.mem_cons_self _ _) q (List.mem_cons_of_mem _ hq) k hto hqk
              simp [hne]
            | subgroup k0 =>
              by_cases hkk : k0 = k
              · subst hkk
                by_cases hin : k0 ∈ namesAt t p
                · simp [hin]
                · simp [hin]
              · have hkk2 : ¬ k = k0 := fun h => hkk h.symm
                by_cases hin : k0 ∈ namesAt t p
                · simp [hin, hkk, hkk2]
                · simp [hin, hkk, hkk2]
        obtain ⟨i1, i2, i3⟩ := ih (earlier ++ [o]) _ tf h g1 hon1 hcol1 hseen1
        refine ⟨i1, ?_, ?_⟩
        · rw [i2, g2, List.append_assoc]
          congr 1
          simp only [levelNames]
          congr 1
          cases hto : touch p o with
          | none => rfl
          | some tc =>
            cases tc with
            | option k0 => rfl
            | subgroup k0 =>
              simp only
              by_cases hin : k0 ∈ namesAt t p
              · rw [if_pos hin, if_pos ((hany k0 hto).2 hin)]
              · rw [if_neg hin, if_neg (fun h => hin ((hany k0 hto).1 h))]
        · rintro (h1 | ⟨q, hq, hq1⟩)
          · exact i3 (Or.inl (g3 (Or.inl h1)))
          · rcases List.mem_cons.1 hq with rfl | hq
            · exact i3 (Or.inl (g3 (Or.inr (touch_isSome p q hq1).2)))
            · exact i3 (Or.inr ⟨q, hq, hq1⟩)
theorem touch_eq_option {V : Type} (p : List String) (o : Opt V) (k : String)
    (h : touch p o = some (.option k)) :
    o.yaml ≠ "" ∧ k = o.yaml ∧ ancestryKeys o.group = p := by
  by_cases hk : o.yaml = ""
  · simp [touch, hk] at h
  · simp only [touch, if_neg hk] at h
    cases hs : stripPath p (ancestryKeys o.group) with
    | none => simp [hs] at h
    | some r =>
      cases r with
      | nil =>
        simp only [hs, Option.some.injEq, Touch.option.injEq] at h
        exact ⟨hk, h.symm, by simpa using (stripPath_eq_some p _ _).1 hs⟩
      | cons x r => simp [hs] at h

theorem touch_eq_subgroup {V : Type} (p : List String) (o : Opt V) (k : String)
    (h : touch p o = some (.subgroup k)) :
    o.yaml ≠ "" ∧ ∃ r, ancestryKeys o.group = p ++ k :: r := by
  by_cases hk : o.yaml = ""
  · simp [touch, hk] at h
  · simp only [touch, if_neg hk] at h
    cases hs : stripPath p (ancestryKeys o.group) with
    | none => simp [hs] at h
    | some r =>
      cases r with
      | nil => simp [hs] at h
      | cons x r =>
        simp only [hs, Option.some.injEq, Touch.subgroup.injEq] at h
        subst h
        exact ⟨hk, r, (stripPath_eq_some p _ _).1 hs⟩

theorem collides_of_below {V : Type} (o q : Opt V) (r : List String) (ho : o.yaml ≠ "")
    (hq : q.yaml ≠ "")
    (h : ancestryKeys q.group = ancestryKeys o.group ++ o.yaml :: r) :
    collides o q = true := by
  simp [collides, h, stripPath_append, ho, hq]

theorem noCollision_touch {V : Type} (s : OptionSet V) (hnc : NoCollision s)
    (p : List String) :
    ∀ o ∈ s, ∀ q ∈ s, ∀ k, touch p o = some (.option k) →
      touch p q ≠ some (.subgroup k) := by
  intro o ho q hq k h1 h2
  obtain ⟨hok, hk, hoa⟩ := touch_eq_option p o k h1
  obtain ⟨hqk, r, hqa⟩ := touch_eq_subgroup p q k h2
  rw [← hoa, hk] at hqa
  have hc := collides_of_below o q r hok hqk hqa
  rw [hnc o ho q hq] at hc
  cases hc

theorem toYAML_level {V : Type} (env : Env V) (s : OptionSet V) (t : Node)
    (h : ToYAML env s = .ok t) (hnc : NoCollision s) (p : List String) (hp : IsLevel s p) :
    ∃ n, nodeAt t p = some n ∧ n.kind = .mapping ∧ namesOf n.content = levelNames p [] s := by
  have hon : ∀ o ∈ s, o.yaml ≠ "" → ∀ r, p ≠ ancestryKeys o.group ++ o.yaml :: r := by
    intro o ho hk r hpe
    rcases hp with hp | ⟨q, hq, hqt⟩
    · rw [hp] at hpe
      simp at hpe
    · obtain ⟨hqk, hqs⟩ := touch_isSome p q hqt
      cases hs : stripPath p (ancestryKeys q.group) with
      | none => simp [hs] at hqs
      | some r1 =>
        have := (stripPath_eq_some p _ _).1 hs
        rw [hpe, List.append_assoc, List.cons_append] at this
        have hc := collides_of_below o q _ hk hqk this
        rw [hnc o ho q hq] at hc
        cases hc
  have hseen : ∀ q ∈ s, ∀ k, touch p q = some (.subgroup k) →
      (k ∈ namesAt (.mk .mapping "" "" []) p
        ↔ ∃ e ∈ ([] : OptionSet V), touch p e = some (.subgroup k)) := by
    intro q _ k _
    simp [namesAt_empty]
  obtain ⟨h1, h2, h3⟩ :=
    toYAMLLoop_level env p s [] _ t h (goodAlong_empty p) hon (noCollision_touch s hnc p) hseen
  have hsome : (nodeAt t p).isSome := by
    apply h3
    rcases hp with hp | hp
    · left; rw [hp]; rfl
    · right; exact hp
  cases hn : nodeAt t p with
  | none => simp [hn] at hsome
  | some n =>
    refine ⟨n, rfl, (goodAlong_nodeAt p t n h1 hn).1, ?_⟩
    rw [namesAt_empty, List.nil_append] at h2
    rw [← h2]
    simp only [namesAt, hn]

theorem touch_cases {V : Type} (p : List String) (o : Opt V) :
    touch p o = none ∨ (∃ k, touch p o = some (.option k))
      ∨ ∃ k, touch p o = some (.subgroup k) := by
  cases h : touch p o with
  | none => exact Or.inl rfl
  | some tc =>
    cases tc with
    | option k => exact Or.inr (Or.inl ⟨k, rfl⟩)
    | subgroup k => exact Or.inr (Or.inr ⟨k, rfl⟩)

theorem levelNames_count {V : Type} (p : List String) (k : String) :
    ∀ (s earlier : OptionSet V), (∀ o ∈ s, touch p o ≠ some (.option k)) →
      (levelNames p earlier s).count k
        = if earlier.any (fun q => decide (touch p q = some (.subgroup k))) then 0
          else if s.any (fun q => decide (touch p q = some (.subgroup k))) then 1 else 0 := by
  intro s
  induction s with
  | nil => intro earlier _; simp [levelNames]
  | cons o rest ih =>
    intro earlier hopt
    have ih1 := ih (earlier ++ [o]) (fun q hq => hopt q (List.mem_cons_of_mem _ hq))
    simp only [levelNames, List.count_append, ih1, List.any_append, List.any_cons,
      List.any_nil, Bool.or_false]
    obtain hto | ⟨k0, hto⟩ | ⟨k0, hto⟩ := touch_cases p o
    · simp [hto]
    · have hne : k0 ≠ k := by
        intro hkk
        subst hkk
        exact hopt o (List.mem_cons_self _ _) hto
      have hc : List.count k [k0] = 0 := List.count_eq_zero.2 (by simp [Ne.symm hne])
      simp [hto, hne, hc]
    · by_cases hkk : k0 = k
      · subst hkk
        by_cases he : earlier.any (fun q => decide (touch p q = some (.subgroup k0))) = true
        · simp [hto, he]
        · simp [hto, he]
      · have hc : List.count k [k0] = 0 := List.count_eq_zero.2 (by simp [Ne.symm hkk])
        by_cases he : earlier.any (fun q => decide (touch p q = some (.subgroup k0))) = true
        · simp [hto, he, hkk]
        · simp [hto, he, hkk, hc]

/-! ## An option and a subgroup with one key: the reader -/

theorem GroupPtr.parent_ne_self (a : Nat) (n y d : String) :
    ∀ p : GroupPtr, p ≠ .ref a p n y d := by
  intro p
  induction p generalizing a n y d with
  | nil => intro h; cases h
  | ref a1 p1 n1 y1 d1 ih =>
    intro h
    injection h with _ hp _ _ _
    exact ih a1 n1 y1 d1 hp

theorem GoMap.get_isSome_mem {α : Type} (m : GoMap α) (k : String)
    (h : (m.get k).isSome) : ∃ v, (k, v) ∈ m := by
  induction m with
  | nil => simp [GoMap.get] at h
  | cons e m ih =>
    obtain ⟨k1, v1⟩ := e
    by_cases hk : k1 = k
    · subst hk
      exact ⟨v1, List.mem_cons_self _ _⟩
    · simp only [GoMap.get, if_neg hk] at h
      obtain ⟨v, hv⟩ := ih h
      exact ⟨v, List.mem_cons_of_mem _ hv⟩

theorem ambiguousName_isSome (m : Maps) (k : String)
    (h1 : (m.subGroupsByName.get k).isSome) (h2 : (m.optionsByName.get k).isSome) :
    (ambiguousName m).isSome := by
  obtain ⟨v, hv⟩ := GoMap.get_isSome_mem _ k h1
  simp only [ambiguousName, Option.isSome_map']
  rw [List.find?_isSome]
  exact ⟨(k, v), hv, h2⟩

theorem collectMaps_mono {V : Type} (ofGroup : GroupPtr) :
    ∀ (rest : List (Opt V)) (i : Nat) (m maps : Maps),
      collectMaps ofGroup rest i m = .ok maps →
      (∀ k, (m.optionsByName.get k).isSome → (maps.optionsByName.get k).isSome)
      ∧ (∀ k, (m.subGroupsByName.get k).isSome → (maps.subGroupsByName.get k).isSome) := by
  intro rest
  induction rest with
  | nil =>
    intro i m maps h
    simp only [collectMaps, Except.ok.injEq] at h
    subst h
    exact ⟨fun _ h => h, fun _ h => h⟩
  | cons o rest ih =>
    intro i m maps h
    rw [collectMaps] at h
    split at h
    · exact ih _ _ _ h
    · split at h
      · split at h
        · split at h
          · cases h
          · obtain ⟨h1, h2⟩ := ih _ _ _ h
            refine ⟨h1, fun k hk => h2 k ?_⟩
            simp only [GoMap.get_put]
            split
            · rfl
            · exact hk
        · exact ih _ _ _ h
      · split at h
        · cases h
        · obtain ⟨h1, h2⟩ := ih _ _ _ h
          refine ⟨fun k hk => h1 k ?_, h2⟩
          simp only [GoMap.get_put]
          split
          · rfl
          · exact hk

theorem collectMaps_mem {V : Type} (ofGroup : GroupPtr) :
    ∀ (rest : List (Opt V)) (i : Nat) (m maps : Maps),
      collectMaps ofGroup rest i m = .ok maps →
      (∀ o ∈ rest, o.yaml ≠ "" → o.group = ofGroup →
        (maps.optionsByName.get o.yaml).isSome)
      ∧ (∀ q ∈ rest, q.yaml ≠ "" → q.group ≠ ofGroup → q.group ≠ .nil →
          q.group.parent = ofGroup → (maps.subGroupsByName.get q.group.yamlName).isSome) := by
  intro rest
  induction rest with
  | nil => intro i m maps _; exact ⟨fun o ho => by simp at ho, fun q hq => by simp at hq⟩
  | cons o rest ih =>
    intro i m maps h
    have hmono := collectMaps_mono ofGroup rest
    rw [collectMaps] at h
    split at h
    · rename_i hy
      obtain ⟨h1, h2⟩ := ih _ _ _ h
      refine ⟨fun p hp hpk hpg => ?_, fun q hq hqk hqg hqn hqp => ?_⟩
      · rcases List.mem_cons.1 hp with rfl | hp
        · exact absurd hy hpk
        · exact h1 p hp hpk hpg
      · rcases List.mem_cons.1 hq with rfl | hq
        · exact absurd hy hqk
        · exact h2 q hq hqk hqg hqn hqp
    · split at h
      · rename_i hog
        split at h
        · split at h
          · cases h
          · obtain ⟨h1, h2⟩ := ih _ _ _ h
            refine ⟨fun p hp hpk hpg => ?_, fun q hq hqk hqg hqn hqp => ?_⟩
            · rcases List.mem_cons.1 hp with rfl | hp
              · exact absurd hpg hog
              · exact h1 p hp hpk hpg
            · rcases List.mem_cons.1 hq with rfl | hq
              · exact (hmono _ _ _ h).2 _ (by simp [GoMap.get_put])
              · exact h2 q hq hqk hqg hqn hqp
        · rename_i hnot
          obtain ⟨h1, h2⟩ := ih _ _ _ h
          refine ⟨fun p hp hpk hpg => ?_, fun q hq hqk hqg hqn hqp => ?_⟩
          · rcases List.mem_cons.1 hp with rfl | hp
            · exact absurd hpg hog
            · exact h1 p hp hpk hpg
          · rcases List.mem_cons.1 hq with rfl | hq
            · exact absurd ⟨hqn, hqp⟩ hnot
            · exact h2 q hq hqk hqg hqn hqp
      · rename_i hog
        split at h
        · cases h
        · obtain ⟨h1, h2⟩ := ih _ _ _ h
          refine ⟨fun p hp hpk hpg => ?_, fun q hq hqk hqg hqn hqp => ?_⟩
          · rcases List.mem_cons.1 hp with rfl | hp
            · exact (hmono _ _ _ h).1 _ (by simp [GoMap.get_put])
            · exact h1 p hp hpk hpg
          · rcases List.mem_cons.1 hq with rfl | hq
            · exact absurd (not_not.1 hog) hqg
            · exact h2 q hq hqk hqg hqn hqp

theorem fromYAML_option_and_group {V : Type} (env : Env V) (os : OptionSet V)
    (ofGroup : GroupPtr) (o q : Opt V) (ho : o ∈ os) (hq : q ∈ os)
    (hok : o.yaml ≠ "") (hqk : q.yaml ≠ "") (hog : o.group = ofGroup)
    (hqn : q.group ≠ .nil) (hqp : q.group.parent = ofGroup)
    (hkey : q.group.yamlName = o.yaml) (value headComment : String) (content : List Node) :
    ∃ e, fromYAML env os ofGroup (.mk .mapping value headComment content)
      = (os, some e) := by
  have hqg : q.group ≠ ofGroup := by
    intro h
    rw [h] at hqp hqn
    cases hG : ofGroup with
    | nil => exact hqn hG
    | ref a p n y d =>
      rw [hG] at hqp
      exact GroupPtr.parent_ne_self a n y d p hqp
  rw [fromYAML_mapping]
  cases hm : collectMaps ofGroup os 0 ⟨[], []⟩ with
  | error e => exact ⟨e, rfl⟩
  | ok maps =>
    obtain ⟨h1, h2⟩ := collectMaps_mem ofGroup os 0 _ maps hm
    have ha := ambiguousName_isSome maps o.yaml
      (by rw [← hkey]; exact h2 q hq hqk hqg hqn hqp) (h1 o ho hok hog)
    cases hamb : ambiguousName maps with
    | none => simp [hamb] at ha
    | some k => exact ⟨.optionAndGroup k, by simp only [hamb]⟩

/-! ## The reader loop, one pair at a time -/

theorem fromYAMLItems_pair {V : Type} (env : Env V) (maps : Maps) (os : OptionSet V)
    (k v : Node) (rest : List Node) (i : Nat) (name : String) (merr : Option Error)
    (hi : i % 2 = 0) :
    fromYAMLItems env maps os (k :: v :: rest) i name merr
      = afterPair env maps rest (i + 2) k.value (pairStep env maps os k v merr) := by
  have hi1 : ¬ (i + 1) % 2 = 0 := by omega
  rw [fromYAMLItems, if_pos hi]
  by_cases hk : k.kind = .scalar
  · rw [if_neg (by simp [hk]), fromYAMLItems, if_neg hi1]
    cases hv : v.kind with
    | mapping =>
      cases hget : maps.optionsByName.get k.value with
      | none =>
        cases hsg : maps.subGroupsByName.get k.value with
        | none => simp [pairStep, afterPair, hk, hv, hget, hsg]
        | some g =>
          simp only [pairStep, afterPair, hk, hv, hget, hsg, ne_eq, not_true_eq_false, if_false]
          cases (fromYAML env os g v).2 <;> rfl
      | some j =>
        cases hj : os[j]? with
        | none => simp [pairStep, afterPair, hk, hv, hget, hj]
        | some opt =>
          cases hu : env.unmarshalYAML opt.value with
          | none => simp [pairStep, afterPair, hk, hv, hget, hj, hu]
          | some um =>
            simp only [pairStep, afterPair, hk, hv, hget, hj, hu, ne_eq, not_true_eq_false,
              if_false]
            cases (um v).2 <;> rfl
    | scalar =>
      cases hget : maps.optionsByName.get k.value with
      | none => simp [pairStep, afterPair, hk, hv, hget]
      | some j =>
        cases hj : os[j]? with
        | none => simp [pairStep, afterPair, hk, hv, hget, hj]
        | some opt =>
          cases hu : env.unmarshalYAML opt.value with
          | none =>
            simp only [pairStep, afterPair, hk, hv, hget, hj, hu, ne_eq, not_true_eq_false,
              if_false]
            cases (env.set opt.value v.value).2 <;> rfl
          | some um =>
            simp only [pairStep, afterPair, hk, hv, hget, hj, hu, ne_eq, not_true_eq_false,
              if_false]
            cases (um v).2 <;> rfl
    | zero => simp [pairStep, afterPair, hk, hv]
    | document => simp [pairStep, afterPair, hk, hv]
    | sequence => simp [pairStep, afterPair, hk, hv]
    | «alias» => simp [pairStep, afterPair, hk, hv]
  · simp [pairStep, afterPair, hk]

theorem errorsJoin_some (merr : Option Error) (x : Error) :
    ∃ es, errorsJoin [merr, some x] = some (.join es) := by
  cases merr with
  | none => exact ⟨[x], rfl⟩
  | some m => exact ⟨[m, x], rfl⟩

theorem pairStep_abort {V : Type} (env : Env V) (maps : Maps) (os : OptionSet V)
    (k v : Node) (merr : Option Error) (r : OptionSet V × Option Error)
    (hk : KeyedIdx maps os) (h : pairStep env maps os k v merr = .abort r) :
    r.1 = os ∧ ((∃ kd, r.2 = some (.nameNotScalar kd)) ∨ (∃ nm, r.2 = some (.complexOption nm))
      ∨ ∃ kd, r.2 = some (.unexpectedKind kd)) := by
  unfold pairStep at h
  split at h
  · cases h; exact ⟨rfl, Or.inl ⟨_, rfl⟩⟩
  · split at h
    · split at h
      · rename_i j hj
        obtain ⟨o, ho, _⟩ := hk _ j hj
        simp only [ho] at h
        split at h
        · cases h; exact ⟨rfl, Or.inr (Or.inl ⟨_, rfl⟩)⟩
        · cases h
      · split at h <;> cases h
    · split at h
      · cases h
      · rename_i j hj
        obtain ⟨o, ho, _⟩ := hk _ j hj
        simp only [ho] at h
        split at h <;> cases h
    · cases h; exact ⟨rfl, Or.inr (Or.inr ⟨_, rfl⟩)⟩

theorem pairStep_next {V : Type} (env : Env V) (maps : Maps) (os : OptionSet V)
    (k v : Node) (merr : Option Error) (os1 : OptionSet V) (merr1 : Option Error)
    (hk : KeyedIdx maps os) (h : pairStep env maps os k v merr = .next os1 merr1) :
    os1.map frameOf = os.map frameOf
      ∧ (merr1 = merr ∨ ∃ es, merr1 = some (.join es)) := by
  have upd : ∀ j o w, maps.optionsByName.get k.value = some j → os[j]? = some o →
      (setValue os j w).map frameOf = os.map frameOf := by
    intro j o w hj ho
    obtain ⟨o1, ho1, hy⟩ := hk _ j hj
    rw [ho] at ho1; cases ho1
    exact setValue_frame os j o w ho hy
  have agg : ∀ {ε : Type} (x : Option ε) (wrap : ε → Error),
      joinWrapped merr wrap x = merr ∨ ∃ es, joinWrapped merr wrap x = some (.join es) := by
    intro ε x wrap
    cases x with
    | none => exact Or.inl rfl
    | some err => exact Or.inr (errorsJoin_some merr _)
  unfold pairStep at h
  split at h
  · cases h
  · split at h
    · split at h
      · rename_i j hj
        split at h
        · cases h
        · rename_i o ho
          split at h
          · cases h
          · rename_i um hu
            cases h
            exact ⟨upd j o _ hj ho, agg _ _⟩
      · split at h
        · rename_i g hg
          cases h
          exact ⟨fromYAML_frame env os g v, agg _ _⟩
        · cases h
          exact ⟨rfl, Or.inr (errorsJoin_some merr _)⟩
    · split at h
      · cases h
        exact ⟨rfl, Or.inr (errorsJoin_some merr _)⟩
      · rename_i j hj
        split at h
        · cases h
        · rename_i o ho
          split at h
          · cases h
            exact ⟨upd j o _ hj ho, agg _ _⟩
          · cases h
            exact ⟨upd j o _ hj ho, agg _ _⟩
    · cases h

/-! ## A prefix of the pairs of a level -/

theorem fromYAMLItems_prefix {V : Type} (env : Env V) (maps : Maps) :
    ∀ (pre : List Node), pre.length % 2 = 0 →
      ∀ (os : OptionSet V) (i : Nat) (name : String) (merr : Option Error),
        i % 2 = 0 → KeyedIdx maps os →
        (∃ r : OptionSet V × Option Error, r.2 ≠ none
          ∧ ∀ tail, fromYAMLItems env maps os (pre ++ tail) i name merr = r)
        ∨ (∃ os2 name2 merr2, os2.map frameOf = os.map frameOf
          ∧ (merr ≠ none → merr2 ≠ none)
          ∧ ∀ tail, fromYAMLItems env maps os (pre ++ tail) i name merr
              = fromYAMLItems env maps os2 tail (i + pre.length) name2 merr2) := by
  intro pre
  induction pre using pair_induction with
  | h0 =>
    intro _ os i name merr _ _
    exact Or.inr ⟨os, name, merr, rfl, id, fun tail => rfl⟩
  | h1 a => intro h; simp at h
  | h2 a b pre ih =>
    intro hlen os i name merr hi hk
    have hlen1 : pre.length % 2 = 0 := by simp at hlen; omega
    have hi2 : (i + 2) % 2 = 0 := by omega
    have hstep : ∀ tail, fromYAMLItems env maps os (a :: b :: pre ++ tail) i name merr
        = afterPair env maps (pre ++ tail) (i + 2) a.value (pairStep env maps os a b merr) :=
      fun tail => fromYAMLItems_pair env maps os a b (pre ++ tail) i name merr hi
    cases hp : pairStep env maps os a b merr with
    | abort r =>
      obtain ⟨_, hr⟩ := pairStep_abort env maps os a b merr r hk hp
      refine Or.inl ⟨r, ?_, fun tail => by rw [hstep tail, hp]; rfl⟩
      rcases hr with ⟨kd, h⟩ | ⟨nm, h⟩ | ⟨kd, h⟩ <;> simp [h]
    | next os1 merr1 =>
      obtain ⟨hf, hm⟩ := pairStep_next env maps os a b merr os1 merr1 hk hp
      have hm1 : merr ≠ none → merr1 ≠ none := by
        intro hne
        rcases hm with h | ⟨es, h⟩
        · rw [h]; exact hne
        · simp [h]
      rcases ih hlen1 os1 (i + 2) a.value merr1 hi2 (keyedIdx_of_frame maps os os1 hf hk) with
        ⟨r, hr, hall⟩ | ⟨os2, name2, merr2, hf2, hm2, hall⟩
      · exact Or.inl ⟨r, hr, fun tail => by rw [hstep tail, hp]; exact hall tail⟩
      · refine Or.inr ⟨os2, name2, merr2, hf2.trans hf, fun h => hm2 (hm1 h), fun tail => ?_⟩
        rw [hstep tail, hp]
        simp only [afterPair]
        rw [hall tail]
        congr 1
        simp only [List.length_cons]
        omega

theorem fromYAMLItems_error_of_merr {V : Type} (env : Env V) (maps : Maps) :
    ∀ (items : List Node) (os : OptionSet V) (i : Nat) (name : String)
      (merr : Option Error), KeyedIdx maps os → i % 2 = 0 → merr ≠ none →
      (fromYAMLItems env maps os items i name merr).2 ≠ none := by
  intro items
  induction items using pair_induction with
  | h0 => intro os i name merr _ _ h; rw [fromYAMLItems]; exact h
  | h1 a =>
    intro os i name merr _ hi h
    rw [fromYAMLItems, if_pos hi]
    split
    · simp
    · rw [fromYAMLItems]; exact h
  | h2 a b rest ih =>
    intro os i name merr hk hi h
    rw [fromYAMLItems_pair env maps os a b rest i name merr hi]
    cases hp : pairStep env maps os a b merr with
    | abort r =>
      obtain ⟨_, hr⟩ := pairStep_abort env maps os a b merr r hk hp
      simp only [afterPair]
      rcases hr with ⟨kd, h⟩ | ⟨nm, h⟩ | ⟨kd, h⟩ <;> simp [h]
    | next os1 merr1 =>
      obtain ⟨hf, hm⟩ := pairStep_next env maps os a b merr os1 merr1 hk hp
      simp only [afterPair]
      apply ih os1 (i + 2) a.value merr1 (keyedIdx_of_frame maps os os1 hf hk) (by omega)
      rcases hm with h1 | ⟨es, h1⟩
      · rw [h1]; exact h
      · simp [h1]

theorem pairStep_offending {V : Type} (env : Env V) (maps : Maps) (os : OptionSet V)
    (k v : Node) (merr : Option Error)
    (h : k.kind ≠ .scalar ∨ (v.kind ≠ .mapping ∧ v.kind ≠ .scalar)) :
    ∃ e, pairStep env maps os k v merr = .abort (os, some e) := by
  by_cases hk : k.kind = .scalar
  · rcases h with h | ⟨h1, h2⟩
    · exact absurd hk h
    · unfold pairStep
      rw [if_neg (by simp [hk])]
      split
      · rename_i hv; exact absurd hv h1
      · rename_i hv; exact absurd hv h2
      · exact ⟨_, rfl⟩
  · exact ⟨.nameNotScalar k.kind, by simp [pairStep, hk]⟩

theorem fromYAMLItems_offending {V : Type} (env : Env V) (maps : Maps) (os : OptionSet V)
    (pre : List Node) (k v : Node) (hpre : pre.length % 2 = 0)
    (hbad : k.kind ≠ .scalar ∨ (v.kind ≠ .mapping ∧ v.kind ≠ .scalar))
    (hk : KeyedIdx maps os) :
    ∃ r : OptionSet V × Option Error, r.2 ≠ none
      ∧ ∀ post, fromYAMLItems env maps os (pre ++ k :: v :: post) 0 "" none = r := by
  rcases fromYAMLItems_prefix env maps pre hpre os 0 "" none rfl hk with
    ⟨r, hr, hall⟩ | ⟨os2, name2, merr2, hf2, _, hall⟩
  · exact ⟨r, hr, fun post => hall _⟩
  · obtain ⟨e, he⟩ := pairStep_offending env maps os2 k v merr2 hbad
    refine ⟨(os2, some e), by simp, fun post => ?_⟩
    rw [hall, fromYAMLItems_pair env maps os2 k v post _ name2 merr2 (by omega), he]
    rfl

theorem fromYAML_level_result {V : Type} (env : Env V) (os : OptionSet V) (g : GroupPtr)
    (value headComment : String) :
    (∃ e, ∀ c, fromYAML env os g (.mk .mapping value headComment c) = (os, some e))
    ∨ ∃ maps, KeyedIdx maps os ∧ collectMaps g os 0 ⟨[], []⟩ = .ok maps
        ∧ ∀ c, fromYAML env os g (.mk .mapping value headComment c)
            = fromYAMLItems env maps os c 0 "" none := by
  cases hm : collectMaps g os 0 ⟨[], []⟩ with
  | error e =>
    exact Or.inl ⟨e, fun c => by rw [fromYAML_mapping, hm]⟩
  | ok maps =>
    have hk : KeyedIdx maps os :=
      collectMaps_keyed g os os 0 ⟨[], []⟩ maps (by intro j o hj; simpa using hj)
        (by intro k j hj; simp [GoMap.get] at hj) hm
    cases ha : ambiguousName maps with
    | some k => exact Or.inl ⟨.optionAndGroup k, fun c => by rw [fromYAML_mapping, hm]; simp only [ha]⟩
    | none => exact Or.inr ⟨maps, hk, rfl, fun c => by rw [fromYAML_mapping, hm]; simp only [ha]⟩

theorem collectMaps_congr {V : Type} (g : GroupPtr) :
    ∀ (l1 l2 : List (Opt V)), l1.map frameOf = l2.map frameOf →
      ∀ i m, collectMaps g l1 i m = collectMaps g l2 i m := by
  intro l1
  induction l1 with
  | nil =>
    intro l2 h i m
    cases l2 with
    | nil => rfl
    | cons o l2 => simp at h
  | cons o1 l1 ih =>
    intro l2 h i m
    cases l2 with
    | nil => simp at h
    | cons o2 l2 =>
      simp only [List.map_cons, List.cons.injEq, frameOf, Prod.mk.injEq] at h
      obtain ⟨⟨hn, _, hy, hg, _⟩, hl⟩ := h
      simp only [collectMaps, hn, hy, hg]
      simp only [ih l2 hl]

theorem fromYAML_offending {V : Type} (env : Env V) (os : OptionSet V) (g : GroupPtr)
    (n : Node) (h : Offending os g n) :
    ∀ os1 : OptionSet V, os1.map frameOf = os.map frameOf →
      (fromYAML env os1 g n).2 ≠ none := by
  induction h with
  | here g value headComment pre k v post hpre hbad =>
    intro os1 _
    rcases fromYAML_level_result env os1 g value headComment with
      ⟨e, hall⟩ | ⟨maps, hk, _, hall⟩
    · rw [hall]; simp
    · rw [hall]
      obtain ⟨r, hr, hall2⟩ := fromYAMLItems_offending env maps os1 pre k v hpre hbad hk
      rw [hall2]
      exact hr
  | inside g value headComment pre k v post maps sub hpre hcm hk hv hopt hsub _ ih =>
    intro os1 hf
    rcases fromYAML_level_result env os1 g value headComment with
      ⟨e, hall⟩ | ⟨maps1, hkey, hcm1, hall⟩
    · rw [hall]; simp
    · rw [collectMaps_congr g os1 os hf, hcm] at hcm1
      cases hcm1
      rw [hall]
      rcases fromYAMLItems_prefix env maps pre hpre os1 0 "" none rfl hkey with
        ⟨r, hr, hall2⟩ | ⟨os2, name2, merr2, hf2, _, hall2⟩
      · rw [hall2]; exact hr
      · rw [hall2, fromYAMLItems_pair env maps os2 k v post _ name2 merr2 (by omega)]
        have hinner := ih os2 (hf2.trans hf)
        have hstep : pairStep env maps os2 k v merr2
            = .next (fromYAML env os2 sub v).1
                (joinWrapped merr2 (.group sub.yamlName) (fromYAML env os2 sub v).2) := by
          simp [pairStep, hk, hv, hopt, hsub]
        rw [hstep]
        simp only [afterPair]
        apply fromYAMLItems_error_of_merr
        · exact keyedIdx_of_frame maps os1 _ ((fromYAML_frame env os2 sub v).trans hf2) hkey
        · omega
        · cases herr : (fromYAML env os2 sub v).2 with
          | none => exact absurd herr hinner
          | some err =>
            obtain ⟨es, hes⟩ := errorsJoin_some merr2 (.group sub.yamlName err)
            simp [joinWrapped, hes]
  | doc value headComment c _ ih =>
    intro os1 hf
    have : fromYAML env os1 .nil (.mk .document value headComment [c])
        = fromYAML env os1 .nil c := by
      simp [fromYAML]
    rw [this]
    exact ih os1 hf

/-! ## Duplicate option keys at a level -/

theorem collectMaps_error_kind {V : Type} (g : GroupPtr) :
    ∀ (rest : List (Opt V)) (i : Nat) (m : Maps) (e : Error),
      collectMaps g rest i m = .error e →
      (∃ k, e = .duplicateOption k)
      ∨ ∃ o ∈ rest, o.yaml ≠ "" ∧ o.group ≠ .nil ∧ o.group.parent = g
          ∧ o.group.yamlName = "" ∧ e = .groupYAMLNameEmpty o.name o.group := by
  intro rest
  induction rest with
  | nil => intro i m e h; simp [collectMaps] at h
  | cons o rest ih =>
    intro i m e h
    have lift : ((∃ k, e = .duplicateOption k)
        ∨ ∃ p ∈ rest, p.yaml ≠ "" ∧ p.group ≠ .nil ∧ p.group.parent = g
            ∧ p.group.yamlName = "" ∧ e = .groupYAMLNameEmpty p.name p.group) →
        ((∃ k, e = .duplicateOption k)
        ∨ ∃ p ∈ o :: rest, p.yaml ≠ "" ∧ p.group ≠ .nil ∧ p.group.parent = g
            ∧ p.group.yamlName = "" ∧ e = .groupYAMLNameEmpty p.name p.group) := by
      rintro (h1 | ⟨p, hp, h2⟩)
      · exact Or.inl h1
      · exact Or.inr ⟨p, List.mem_cons_of_mem _ hp, h2⟩
    rw [collectMaps] at h
    split at h
    · exact lift (ih _ _ _ h)
    · rename_i hy
      split at h
      · split at h
        · rename_i hsub
          split at h
          · rename_i hempty
            cases h
            exact Or.inr ⟨o, List.mem_cons_self _ _, hy, hsub.1, hsub.2, hempty, rfl⟩
          · exact lift (ih _ _ _ h)
        · exact lift (ih _ _ _ h)
      · split at h
        · cases h; exact Or.inl ⟨_, rfl⟩
        · exact lift (ih _ _ _ h)

theorem collectMaps_step_cases {V : Type} (g : GroupPtr) (o : Opt V) (rest : List (Opt V))
    (i : Nat) (m : Maps) :
    (∃ e, collectMaps g (o :: rest) i m = .error e)
    ∨ ∃ m1, collectMaps g (o :: rest) i m = collectMaps g rest (i + 1) m1
        ∧ (∀ k, (m.optionsByName.get k).isSome → (m1.optionsByName.get k).isSome)
        ∧ (o.yaml ≠ "" → o.group = g → (m1.optionsByName.get o.yaml).isSome) := by
  rw [collectMaps]
  split
  · rename_i hy
    exact Or.inr ⟨m, rfl, fun _ h => h, fun h => absurd hy h⟩
  · split
    · rename_i hg
      split
      · split
        · exact Or.inl ⟨_, rfl⟩
        · exact Or.inr ⟨_, rfl, fun _ h => h, fun _ h => absurd h hg⟩
      · exact Or.inr ⟨m, rfl, fun _ h => h, fun _ h => absurd h hg⟩
    · split
      · exact Or.inl ⟨_, rfl⟩
      · refine Or.inr ⟨_, rfl, fun k h => ?_, fun _ _ => ?_⟩
        · simp only [GoMap.get_put]
          split
          · rfl
          · exact h
        · simp [GoMap.get_put]

theorem collectMaps_error_of_key {V : Type} (g : GroupPtr) (b : Opt V)
    (hb : b.yaml ≠ "") (hbg : b.group = g) :
    ∀ (rest : List (Opt V)) (i : Nat) (m : Maps), b ∈ rest →
      (m.optionsByName.get b.yaml).isSome → ∃ e, collectMaps g rest i m = .error e := by
  intro rest
  induction rest with
  | nil => intro i m h; simp at h
  | cons o rest ih =>
    intro i m hmem hm
    rcases List.mem_cons.1 hmem with rfl | hmem
    · exact ⟨.duplicateOption b.yaml, by simp [collectMaps, hb, hbg, hm]⟩
    · rcases collectMaps_step_cases g o rest i m with ⟨e, he⟩ | ⟨m1, h1, hmono, _⟩
      · exact ⟨e, he⟩
      · rw [h1]
        exact ih (i + 1) m1 hmem (hmono _ hm)

theorem collectMaps_error_of_dup {V : Type} (g : GroupPtr) (a b : Opt V)
    (l2 l3 : List (Opt V)) (ha : a.yaml ≠ "") (hab : a.yaml = b.yaml) (hag : a.group = g)
    (hbg : b.group = g) :
    ∀ (l1 : List (Opt V)) (i : Nat) (m : Maps),
      ∃ e, collectMaps g (l1 ++ a :: (l2 ++ b :: l3)) i m = .error e := by
  have hb : b.yaml ≠ "" := hab ▸ ha
  intro l1
  induction l1 with
  | nil =>
    intro i m
    simp only [List.nil_append, List.cons_append]
    rcases collectMaps_step_cases g a (l2 ++ b :: l3) i m with ⟨e, he⟩ | ⟨m1, h1, _, hput⟩
    · exact ⟨e, he⟩
    · rw [h1]
      exact collectMaps_error_of_key g b hb hbg _ _ m1 (by simp) (hab ▸ hput ha hag)
  | cons o l1 ih =>
    intro i m
    simp only [List.cons_append] at ih ⊢
    rcases collectMaps_step_cases g o (l1 ++ a :: (l2 ++ b :: l3)) i m with
      ⟨e, he⟩ | ⟨m1, h1, _, _⟩
    · exact ⟨e, he⟩
    · rw [h1]
      exact ih (i + 1) m1

theorem collectMaps_dup_origin {V : Type} (g : GroupPtr) (k : String) :
    ∀ (rest pre : List (Opt V)) (i : Nat) (m : Maps),
      (∀ key, (m.optionsByName.get key).isSome →
        ∃ l1 a l2, pre = l1 ++ a :: l2 ∧ a.yaml = key ∧ key ≠ "" ∧ a.group = g) →
      collectMaps g rest i m = .error (.duplicateOption k) → DupPair g k (pre ++ rest) := by
  intro rest
  induction rest with
  | nil => intro pre i m _ h; simp [collectMaps] at h
  | cons o rest ih =>
    intro pre i m hinv h
    have hpre : pre ++ o :: rest = (pre ++ [o]) ++ rest := by simp
    have keep : ∀ key, (m.optionsByName.get key).isSome →
        ∃ l1 a l2, pre ++ [o] = l1 ++ a :: l2 ∧ a.yaml = key ∧ key ≠ "" ∧ a.group = g := by
      intro key hkey
      obtain ⟨l1, a, l2, hl, h1, h2, h3⟩ := hinv key hkey
      exact ⟨l1, a, l2 ++ [o], by simp [hl], h1, h2, h3⟩
    rw [collectMaps] at h
    split at h
    · rw [hpre]; exact ih _ _ _ keep h
    · rename_i hy
      split at h
      · split at h
        · split at h
          · cases h
          · rw [hpre]
            refine ih _ _ _ ?_ h
            exact keep
        · rw [hpre]; exact ih _ _ _ keep h
      · rename_i hg
        have hg1 : o.group = g := not_not.1 hg
        split at h
        · rename_i hdup
          cases h
          obtain ⟨l1, a, l2, hl, h1, h2, h3⟩ := hinv o.yaml hdup
          exact ⟨l1, a, l2, o, rest, by simp [hl], h1, rfl, h2, h3, hg1⟩
        · rw [hpre]
          refine ih _ _ _ ?_ h
          intro key hkey
          simp only [GoMap.get_put] at hkey
          by_cases hk : o.yaml = key
          · subst hk
            exact ⟨pre, o, [], rfl, rfl, hy, hg1⟩
          · rw [if_neg hk] at hkey
            exact keep key hkey

theorem fromYAMLItems_not_duplicate {V : Type} (env : Env V) (maps : Maps) (k : String) :
    ∀ (items : List Node) (os : OptionSet V) (i : Nat) (name : String)
      (merr : Option Error), KeyedIdx maps os → i % 2 = 0 →
      merr ≠ some (.duplicateOption k) →
      (fromYAMLItems env maps os items i name merr).2 ≠ some (.duplicateOption k) := by
  intro items
  induction items using pair_induction with
  | h0 => intro os i name merr _ _ h; rw [fromYAMLItems]; exact h
  | h1 a =>
    intro os i name merr _ hi h
    rw [fromYAMLItems, if_pos hi]
    split
    · simp
    · rw [fromYAMLItems]; exact h
  | h2 a b rest ih =>
    intro os i name merr hk hi h
    rw [fromYAMLItems_pair env maps os a b rest i name merr hi]
    cases hp : pairStep env maps os a b merr with
    | abort r =>
      obtain ⟨_, hr⟩ := pairStep_abort env maps os a b merr r hk hp
      simp only [afterPair]
      rcases hr with ⟨kd, h⟩ | ⟨nm, h⟩ | ⟨kd, h⟩ <;> simp [h]
    | next os1 merr1 =>
      obtain ⟨hf, hm⟩ := pairStep_next env maps os a b merr os1 merr1 hk hp
      simp only [afterPair]
      apply ih os1 (i + 2) a.value merr1 (keyedIdx_of_frame maps os os1 hf hk) (by omega)
      rcases hm with h1 | ⟨es, h1⟩
      · rw [h1]; exact h
      · simp [h1]

theorem fromYAML_duplicate_origin {V : Type} (env : Env V) (os os1 : OptionSet V)
    (g : GroupPtr) (value headComment : String) (content : List Node) (k : String)
    (h : fromYAML env os g (.mk .mapping value headComment content)
      = (os1, some (.duplicateOption k))) :
    DupPair g k os := by
  rw [fromYAML_mapping] at h
  cases hm : collectMaps g os 0 ⟨[], []⟩ with
  | error e =>
    simp only [hm, Prod.mk.injEq, Option.some.injEq] at h
    rw [h.2] at hm
    have := collectMaps_dup_origin g k os [] 0 ⟨[], []⟩
      (by intro key hkey; simp [GoMap.get] at hkey) hm
    simpa using this
  | ok maps =>
    have hk : KeyedIdx maps os :=
      collectMaps_keyed g os os 0 ⟨[], []⟩ maps (by intro j o hj; simpa using hj)
        (by intro k j hj; simp [GoMap.get] at hj) hm
    simp only [hm] at h
    cases ha : ambiguousName maps with
    | some k1 => simp [ha] at h
    | none =>
      simp only [ha] at h
      have := fromYAMLItems_not_duplicate env maps k content os 0 "" none hk rfl (by simp)
      rw [h] at this
      exact absurd rfl this

theorem fromYAML_duplicate_error {V : Type} (env : Env V) (os : OptionSet V)
    (g : GroupPtr) (k : String) (hdup : DupPair g k os) (value headComment : String)
    (content : List Node) :
    ∃ e, fromYAML env os g (.mk .mapping value headComment content) = (os, some e)
      ∧ ((∃ k1, e = .duplicateOption k1)
        ∨ ∃ o ∈ os, o.yaml ≠ "" ∧ o.group ≠ .nil ∧ o.group.parent = g
            ∧ o.group.yamlName = "" ∧ e = .groupYAMLNameEmpty o.name o.group) := by
  obtain ⟨l1, a, l2, b, l3, hl, ha, hb, hk, hag, hbg⟩ := hdup
  obtain ⟨e, he⟩ := collectMaps_error_of_dup g a b l2 l3 (by rw [ha]; exact hk)
    (by rw [ha, hb]) hag hbg l1 0 ⟨[], []⟩
  rw [← hl] at he
  refine ⟨e, by rw [fromYAML_mapping, he], collectMaps_error_kind g os 0 _ e he⟩

/-! ## Scalar names and pairs in the content of a level -/

theorem scalarNames_append (a b : Node) :
    ∀ c : List Node, c.length % 2 = 0 →
      (scalarNames (c ++ [a, b]) ↔ scalarNames c ∧ a.kind = .scalar) := by
  intro c
  induction c using pair_induction with
  | h0 => intro _; simp [scalarNames]
  | h1 x => intro h; simp at h
  | h2 x y l ih =>
    intro h
    have hl : l.length % 2 = 0 := by simp at h; omega
    simp [scalarNames, ih hl, and_assoc]

theorem scalarNames_modifyAt (f : Node → Node) (x : String) :
    ∀ (c : List Node) (i : Nat), findName c x = some i →
      (scalarNames (modifyAt f c (i + 1)) ↔ scalarNames c) := by
  intro c
  induction c using pair_induction with
  | h0 => intro i h; simp [findName] at h
  | h1 a => intro i h; simp [findName] at h
  | h2 a b l ih =>
    intro i h
    by_cases ha : a.value = x
    · simp [findName, ha] at h
      subst h
      simp [modifyAt, scalarNames]
    · simp [findName, ha] at h
      obtain ⟨j, hj, rfl⟩ := h
      simp [modifyAt, scalarNames, ih j hj]

theorem pairIn_append (a b x y : Node) :
    ∀ c : List Node, c.length % 2 = 0 →
      (pairIn a b (c ++ [x, y]) ↔ pairIn a b c ∨ (x = a ∧ y = b)) := by
  intro c
  induction c using pair_induction with
  | h0 => intro _; simp [pairIn]
  | h1 z => intro h; simp at h
  | h2 z w l ih =>
    intro h
    have hl : l.length % 2 = 0 := by simp at h; omega
    simp [pairIn, ih hl, or_assoc]

theorem pairIn_modifyAt (f : Node → Node) (x : String) (a b : Node) (hax : a.value ≠ x) :
    ∀ (c : List Node) (i : Nat), findName c x = some i → pairIn a b c →
      pairIn a b (modifyAt f c (i + 1)) := by
  intro c
  induction c using pair_induction with
  | h0 => intro i h; simp [findName] at h
  | h1 z => intro i h; simp [findName] at h
  | h2 z w l ih =>
    intro i h hp
    by_cases hz : z.value = x
    · simp [findName, hz] at h
      subst h
      simp only [pairIn] at hp
      rcases hp with ⟨rfl, _⟩ | hp
      · exact absurd hz hax
      · simp [modifyAt, pairIn, hp]
    · simp [findName, hz] at h
      obtain ⟨j, hj, rfl⟩ := h
      simp only [pairIn] at hp
      rcases hp with hp | hp
      · simp [modifyAt, pairIn, hp]
      · simp [modifyAt, pairIn, ih j hj hp]

theorem deepMapNode_cons_more (t : Node) (x : String) (a : List String) (hc : String)
    (f : Node → Node) (ht : t.content.length % 2 = 0) :
    (scalarNames t.content → scalarNames (deepMapNode t (x :: a) hc f).content)
    ∧ ∀ n b : Node, n.value ≠ x → pairIn n b t.content →
        pairIn n b (deepMapNode t (x :: a) hc f).content := by
  rw [deepMapNode]
  cases hf : findName t.content x with
  | some i =>
    simp only [Node.content_withContent]
    exact ⟨fun h => (scalarNames_modifyAt _ x t.content i hf).2 h,
      fun n b hn hp => pairIn_modifyAt _ x n b hn t.content i hf hp⟩
  | none =>
    simp only [Node.content_withContent]
    refine ⟨fun h => ?_, fun n b _ hp => ?_⟩
    · exact (scalarNames_append _ _ t.content ht).2 ⟨h, rfl⟩
    · exact (pairIn_append n b _ _ t.content ht).2 (Or.inl hp)

theorem scalarAlong_empty (p : List String) : ScalarAlong (.mk .mapping "" "" []) p := by
  cases p with
  | nil => exact trivial
  | cons k p => exact ⟨trivial, fun c h => by simp [Node.content, childOf] at h⟩

theorem scalarAlong_child (t : Node) (k : String) (p : List String)
    (h : ScalarAlong t (k :: p)) :
    ScalarAlong ((childOf t.content k).getD (.mk .mapping "" "" [])) p := by
  cases hc : childOf t.content k with
  | none => exact scalarAlong_empty p
  | some c => exact h.2 c hc

theorem scalarAlong_base (t : Node) (p : List String) (h : ScalarAlong t p) :
    scalarNames t.content := by
  cases p with
  | nil => exact h
  | cons k p => exact h.1

theorem nodeAt_cons_of_child (t : Node) (k : String) (p : List String) (c : Node)
    (h : childOf t.content k = some c) : nodeAt t (k :: p) = nodeAt c p := by
  simp [nodeAt, h]

theorem deepMapNode_level_more (hc : String) (nm v : Node) (hnm : nm.kind = .scalar) :
    ∀ (a : List String) (t : Node) (p : List String),
      GoodAlong t p → (∀ r, p ≠ a ++ nm.value :: r) →
      (ScalarAlong t p → ScalarAlong (deepMapNode t a hc (appendPair nm v)) p)
      ∧ ((nodeAt (deepMapNode t a hc (appendPair nm v)) p).isSome →
          (nodeAt t p).isSome ∨ (stripPath p a).isSome)
      ∧ (∀ n b : Node, (∀ k r, stripPath p a = some (k :: r) → n.value ≠ k) →
          PairAt t p n b → PairAt (deepMapNode t a hc (appendPair nm v)) p n b) := by
  intro a
  induction a with
  | nil =>
    intro t p hg hp
    obtain ⟨_, hl⟩ := goodAlong_base t p hg
    simp only [deepMapNode, appendPair]
    cases p with
    | nil =>
      refine ⟨fun hs => ?_, fun _ => Or.inl rfl, fun n b _ hpa => ?_⟩
      · simp only [ScalarAlong, Node.content_withContent] at hs ⊢
        exact (scalarNames_append _ _ _ hl).2 ⟨hs, hnm⟩
      · obtain ⟨n0, hn0, hpi⟩ := hpa
        simp only [nodeAt, Option.some.injEq] at hn0
        subst hn0
        exact ⟨_, rfl, by
          rw [Node.content_withContent]
          exact (pairIn_append n b _ _ _ hl).2 (Or.inl hpi)⟩
    | cons k p =>
      have hne : ¬ nm.value = k := by
        intro h
        exact hp p (by simp [h])
      have hch : childOf (t.withContent (t.content ++ [nm, v])).content k
          = childOf t.content k := by
        rw [Node.content_withContent, childOf_append _ _ _ _ hl, if_neg hne]
        cases childOf t.content k <;> rfl
      have hnode : nodeAt (t.withContent (t.content ++ [nm, v])) (k :: p)
          = nodeAt t (k :: p) := by
        simp only [nodeAt, hch]
      refine ⟨fun hs => ⟨?_, ?_⟩, fun h => Or.inl (by rw [← hnode]; exact h),
        fun n b _ hpa => ?_⟩
      · rw [Node.content_withContent]
        exact (scalarNames_append _ _ _ hl).2 ⟨hs.1, hnm⟩
      · intro c h
        rw [hch] at h
        exact hs.2 c h
      · obtain ⟨n0, hn0, hpi⟩ := hpa
        exact ⟨n0, by rw [hnode]; exact hn0, hpi⟩
  | cons x a ih =>
    intro t p hg hp
    obtain ⟨_, hl⟩ := goodAlong_base t p hg
    obtain ⟨_, _, h3, h4, _⟩ := deepMapNode_cons t x a hc (appendPair nm v) hl
    obtain ⟨m1, m2⟩ := deepMapNode_cons_more t x a hc (appendPair nm v) hl
    cases p with
    | nil =>
      refine ⟨fun hs => m1 hs, fun _ => Or.inl rfl, fun n b hcond hpa => ?_⟩
      obtain ⟨n0, hn0, hpi⟩ := hpa
      simp only [nodeAt, Option.some.injEq] at hn0
      subst hn0
      exact ⟨_, rfl, m2 n b (hcond x a rfl) hpi⟩
    | cons k p =>
      by_cases hxk : x = k
      · subst hxk
        have hp1 : ∀ r, p ≠ a ++ nm.value :: r := by
          intro r h
          exact hp r (by simp [h])
        obtain ⟨i1, i2, i3⟩ := ih _ p (goodAlong_child t x p hg) hp1
        have hnode := nodeAt_cons_of_child _ x p _ h4
        refine ⟨fun hs => ⟨m1 hs.1, ?_⟩, fun h => ?_, fun n b hcond hpa => ?_⟩
        · intro c h
          rw [h4] at h
          cases h
          exact i1 (scalarAlong_child t x p hs)
        · rw [hnode] at h
          rcases i2 h with h1 | h1
          · cases hch : childOf t.content x with
            | none =>
              rw [hch, Option.getD_none] at h1
              cases p with
              | nil => right; simp [stripPath]
              | cons k2 p2 => simp [nodeAt_empty_cons] at h1
            | some c =>
              rw [hch, Option.getD_some] at h1
              left
              rw [nodeAt_cons_of_child t x p c hch]
              exact h1
          · right
            simpa [stripPath] using h1
        · obtain ⟨n0, hn0, hpi⟩ := hpa
          cases hch : childOf t.content x with
          | none => simp [nodeAt, hch] at hn0
          | some c =>
            rw [nodeAt_cons_of_child t x p c hch] at hn0
            have hcond1 : ∀ k r, stripPath p a = some (k :: r) → n.value ≠ k := by
              intro k r h
              exact hcond k r (by simpa [stripPath] using h)
            have := i3 n b hcond1 (by rw [hch, Option.getD_some]; exact ⟨n0, hn0, hpi⟩)
            obtain ⟨n1, hn1, hpi1⟩ := this
            exact ⟨n1, by rw [hnode]; exact hn1, hpi1⟩
      · have hch := h3 k hxk
        have hnode : nodeAt (deepMapNode t (x :: a) hc (appendPair nm v)) (k :: p)
            = nodeAt t (k :: p) := by
          simp only [nodeAt, hch]
        refine ⟨fun hs => ⟨m1 hs.1, ?_⟩, fun h => Or.inl (by rw [← hnode]; exact h),
          fun n b _ hpa => ?_⟩
        · intro c h
          rw [hch] at h
          exact hs.2 c h
        · obtain ⟨n0, hn0, hpi⟩ := hpa
          exact ⟨n0, by rw [hnode]; exact hn0, hpi⟩

theorem deepMapNode_pairAt (hc : String) (nm v : Node) :
    ∀ (a : List String) (t : Node), GoodAlong t a →
      PairAt (deepMapNode t a hc (appendPair nm v)) a nm v := by
  intro a
  induction a with
  | nil =>
    intro t hg
    refine ⟨_, rfl, ?_⟩
    simp only [deepMapNode, appendPair, Node.content_withContent]
    exact (pairIn_append nm v nm v _ hg.2).2 (Or.inr ⟨rfl, rfl⟩)
  | cons x a ih =>
    intro t hg
    obtain ⟨_, hl⟩ := goodAlong_base t (x :: a) hg
    obtain ⟨_, _, _, h4, _⟩ := deepMapNode_cons t x a hc (appendPair nm v) hl
    obtain ⟨n1, hn1, hpi1⟩ := ih _ (goodAlong_child t x a hg)
    exact ⟨n1, by rw [nodeAt_cons_of_child _ x a _ h4]; exact hn1, hpi1⟩

/-! ## The loop of the builder: scalar names, created nodes, appended pairs -/

theorem scalarAlong_nodeAt :
    ∀ (p : List String) (t n : Node), ScalarAlong t p → nodeAt t p = some n →
      scalarNames n.content := by
  intro p
  induction p with
  | nil =>
    intro t n hs h
    simp only [nodeAt, Option.some.injEq] at h
    subst h
    exact hs
  | cons k p ih =>
    intro t n hs h
    cases hc : childOf t.content k with
    | none => simp [nodeAt, hc] at h
    | some c =>
      simp only [nodeAt, hc] at h
      exact ih c n (hs.2 c hc) h

theorem toYAMLStep_ok_nodes {V : Type} (env : Env V) (t t1 : Node) (o : Opt V)
    (h : toYAMLStep env t o = .ok t1) (hk : o.yaml ≠ "") :
    ∃ v hc, valueNodeOf env o = .ok v
      ∧ t1 = deepMapNode t (ancestryKeys o.group) hc (appendPair (nameNodeOf env o) v) := by
  simp only [toYAMLStep, if_neg hk] at h
  cases hv : valueNodeOf env o with
  | error e => simp [hv] at h
  | ok v =>
    cases hg : groupPath o.name o.group o.group.Ancestry [] with
    | error e => simp [hv, hg] at h
    | ok group =>
      simp only [hv, hg, Except.ok.injEq] at h
      have := ancestryKeys_of_groupPath _ _ _ hg
      subst this
      exact ⟨v, _, rfl, h.symm⟩

theorem touch_of_stripPath {V : Type} (p : List String) (o : Opt V) (hk : o.yaml ≠ "") :
    ((stripPath p (ancestryKeys o.group)).isSome → (touch p o).isSome)
    ∧ ∀ k r, stripPath p (ancestryKeys o.group) = some (k :: r) →
        touch p o = some (.subgroup k) := by
  constructor
  · intro h
    simp only [touch, if_neg hk]
    cases hs : stripPath p (ancestryKeys o.group) with
    | none => simp [hs] at h
    | some r => cases r <;> rfl
  · intro k r h
    simp [touch, hk, h]

theorem toYAMLLoop_level_more {V : Type} (env : Env V) (p : List String) :
    ∀ (s : OptionSet V) (t tf : Node),
      toYAMLLoop env t s = .ok tf → GoodAlong t p →
      (∀ o ∈ s, o.yaml ≠ "" → ∀ r, p ≠ ancestryKeys o.group ++ o.yaml :: r) →
      GoodAlong tf p
      ∧ (ScalarAlong t p → ScalarAlong tf p)
      ∧ ((nodeAt tf p).isSome → (nodeAt t p).isSome ∨ ∃ o ∈ s, (touch p o).isSome)
      ∧ (∀ n b : Node, (∀ o ∈ s, ∀ k, touch p o = some (.subgroup k) → n.value ≠ k) →
          PairAt t p n b → PairAt tf p n b) := by
  intro s
  induction s with
  | nil =>
    intro t tf h hg _
    simp only [toYAMLLoop, Except.ok.injEq] at h
    subst h
    exact ⟨hg, id, Or.inl, fun _ _ _ h => h⟩
  | cons o rest ih =>
    intro t tf h hg hon
    simp only [toYAMLLoop] at h
    have hon1 : ∀ q ∈ rest, q.yaml ≠ "" → ∀ r, p ≠ ancestryKeys q.group ++ q.yaml :: r :=
      fun q hq => hon q (List.mem_cons_of_mem _ hq)
    cases hs : toYAMLStep env t o with
    | error e => simp [hs] at h
    | ok t1 =>
      simp only [hs] at h
      by_cases hk : o.yaml = ""
      · rw [toYAMLStep_empty env t o hk] at hs
        cases hs
        obtain ⟨i1, i2, i3, i4⟩ := ih t tf h hg hon1
        refine ⟨i1, i2, fun hsome => ?_, fun n b hcond hpa => ?_⟩
        · rcases i3 hsome with h1 | ⟨q, hq, hq1⟩
          · exact Or.inl h1
          · exact Or.inr ⟨q, List.mem_cons_of_mem _ hq, hq1⟩
        · exact i4 n b (fun q hq => hcond q (List.mem_cons_of_mem _ hq)) hpa
      · obtain ⟨v, hc, _, rfl⟩ := toYAMLStep_ok_nodes env t t1 o hs hk
        have hp : ∀ r, p ≠ ancestryKeys o.group ++ (nameNodeOf env o).value :: r :=
          hon o (List.mem_cons_self _ _) hk
        obtain ⟨g1, _, _⟩ :=
          deepMapNode_level hc (nameNodeOf env o) v (ancestryKeys o.group) t p hg hp
        obtain ⟨d1, d2, d3⟩ :=
          deepMapNode_level_more hc (nameNodeOf env o) v rfl (ancestryKeys o.group) t p hg hp
        obtain ⟨ht1, ht2⟩ := touch_of_stripPath p o hk
        obtain ⟨i1, i2, i3, i4⟩ := ih _ tf h g1 hon1
        refine ⟨i1, fun hsc => i2 (d1 hsc), fun hsome => ?_, fun n b hcond hpa => ?_⟩
        · rcases i3 hsome with h1 | ⟨q, hq, hq1⟩
          · rcases d2 h1 with h2 | h2
            · exact Or.inl h2
            · exact Or.inr ⟨o, List.mem_cons_self _ _, ht1 h2⟩
          · exact Or.inr ⟨q, List.mem_cons_of_mem _ hq, hq1⟩
        · apply i4 n b (fun q hq => hcond q (List.mem_cons_of_mem _ hq))
          exact d3 n b (fun k r hkr => hcond o (List.mem_cons_self _ _) k (ht2 k r hkr)) hpa

theorem noCollision_off_path {V : Type} (s : OptionSet V) (hnc : NoCollision s)
    (q o : Opt V) (hq : q ∈ s) (ho : o ∈ s) (hqk : q.yaml ≠ "") (hok : o.yaml ≠ "")
    (p r : List String) (hpo : ancestryKeys o.group = p ++ r) :
    ∀ r1, p ≠ ancestryKeys q.group ++ q.yaml :: r1 := by
  intro r1 hpe
  rw [hpe, List.append_assoc, List.cons_append] at hpo
  have hc := collides_of_below q o _ hqk hok hpo
  rw [hnc q hq o ho] at hc
  cases hc

theorem toYAMLLoop_split {V : Type} (env : Env V) (pre : OptionSet V) (o : Opt V)
    (post : OptionSet V) (t tf : Node)
    (h : toYAMLLoop env t (pre ++ o :: post) = .ok tf) :
    ∃ tp t1, toYAMLLoop env t pre = .ok tp ∧ toYAMLStep env tp o = .ok t1
      ∧ toYAMLLoop env t1 post = .ok tf := by
  rw [toYAMLLoop_append] at h
  cases hp : toYAMLLoop env t pre with
  | error e => simp [hp] at h
  | ok tp =>
    simp only [hp, toYAMLLoop] at h
    cases hs : toYAMLStep env tp o with
    | error e => simp [hs] at h
    | ok t1 =>
      simp only [hs] at h
      exact ⟨tp, t1, rfl, hs, h⟩

/-! ## The reader with shared value holders -/

theorem Holders.write_other {V : Type} (hs : Holders V) (a b : Nat) (v : V) (h : b ≠ a) :
    (hs.write a v) b = hs b := by
  simp [Holders.write, h]

mutual
theorem fromYAMLShared_frame {V : Type} (env : Env V) (os : OptionSet Nat) (a : Nat)
    (ha : ∀ q ∈ os, q.yaml ≠ "" → q.value ≠ a) (hs : Holders V) (g : GroupPtr) :
    ∀ n : Node, (fromYAMLShared env os hs g n).1 a = hs a
  | .mk kind v h content => by
    rw [fromYAMLShared.eq_def]
    simp only
    split
    · split
      · rename_i c
        exact fromYAMLShared_frame env os a ha hs g c
      · rfl
    · split
      · rfl
      · split
        · rfl
        · rename_i maps hmaps
          split
          · rfl
          · refine fromYAMLSharedItems_frame env maps os a ha hs content 0 "" none ?_
            exact collectMaps_keyed g os os 0 ⟨[], []⟩ maps (by intro j o hj; simpa using hj)
              (by intro k j hj; simp [GoMap.get] at hj) hmaps
theorem fromYAMLSharedItems_frame {V : Type} (env : Env V) (maps : Maps)
    (os : OptionSet Nat) (a : Nat) (ha : ∀ q ∈ os, q.yaml ≠ "" → q.value ≠ a)
    (hs : Holders V) :
    ∀ (items : List Node) (i : Nat) (name : String) (merr : Option Error),
      KeyedIdx maps os →
      (fromYAMLSharedItems env maps os hs items i name merr).1 a = hs a
  | [], _, _, _ => by intro _; rw [fromYAMLSharedItems]
  | item :: rest, i, name, merr => by
    intro hk
    have step : ∀ (hs1 : Holders V) i1 name1 merr1, hs1 a = hs a →
        (fromYAMLSharedItems env maps os hs1 rest i1 name1 merr1).1 a = hs a := by
      intro hs1 i1 name1 merr1 h1
      rw [fromYAMLSharedItems_frame env maps os a ha hs1 rest i1 name1 merr1 hk, h1]
    have upd : ∀ j o (v : V), maps.optionsByName.get name = some j → os[j]? = some o →
        (hs.write o.value v) a = hs a := by
      intro j o v hj ho
      obtain ⟨o1, ho1, hy⟩ := hk name j hj
      rw [ho] at ho1; cases ho1
      exact Holders.write_other hs _ _ v (Ne.symm (ha o (List.mem_iff_getElem?.2 ⟨j, ho⟩) hy))
    rw [fromYAMLSharedItems]
    split
    · split
      · rfl
      · exact step _ _ _ _ rfl
    · split
      · split
        · split
          · rfl
          · split
            · rfl
            · rename_i j hj _ o ho _ _ _
              exact step _ _ _ _ (upd j o _ hj ho)
        · split
          · exact step _ _ _ _ (fromYAMLShared_frame env os a ha hs _ item)
          · exact step _ _ _ _ rfl
      · split
        · exact step _ _ _ _ rfl
        · split
          · rfl
          · rename_i j hj _ o ho
            split
            · exact step _ _ _ _ (upd j o _ hj ho)
            · exact step _ _ _ _ (upd j o _ hj ho)
      · rfl
end

/-! # The claims -/

/-- C1 (round trip), at a failing input.  The option set holds one option, with key
`workspaceName` and the string value `billie`, in the group `names` whose parent is the
group `workspace`; all keys are distinct and non-empty, every group of the ancestry has a
key, the value is a string holder.  `ToYAML` succeeds with the tree
`workspace: {names: {workspaceName: billie}}`.  `FromYAML` of that tree on the same schema
with an empty value returns the error "unknown option or subgroup workspace" and leaves
the value empty: at the root the reader registers only the groups of options whose parent
is the level, and `workspace` is the group of no option. -/
theorem round_trip_fails_below_two_groups :
    ToYAML sampleEnv
        [⟨"Workspace Name", "", "workspaceName",
          .ref 2 (.ref 1 .nil "" "workspace" "") "" "names" "", .str "billie"⟩]
      = .ok (.mk .mapping "" ""
          [.mk .scalar "workspace" "" [],
           .mk .mapping "" ""
            [.mk .scalar "names" "" [],
             .mk .mapping "" ""
              [.mk .scalar "workspaceName" "" [], .mk .scalar "billie" "" []]]])
    ∧ FromYAML sampleEnv
        [⟨"Workspace Name", "", "workspaceName",
          .ref 2 (.ref 1 .nil "" "workspace" "") "" "names" "", .str ""⟩]
        (.mk .mapping "" ""
          [.mk .scalar "workspace" "" [],
           .mk .mapping "" ""
            [.mk .scalar "names" "" [],
             .mk .mapping "" ""
              [.mk .scalar "workspaceName" "" [], .mk .scalar "billie" "" []]]])
      = ([⟨"Workspace Name", "", "workspaceName",
          .ref 2 (.ref 1 .nil "" "workspace" "") "" "names" "", .str ""⟩],
         some (.join [.unknownOptionOrSubgroup "workspace"])) :=
  ⟨rfl, rfl⟩

/-- C2 (first-touch ordering).  Let `ToYAML` succeed on `s` with tree `t`, and let no
option key of `s` equal the key of a sibling subgroup (`NoCollision`).  Then at every level
`p` of `s` (the root, or a path leading to or towards the group of a keyed option) the tree
has a node, found by following the names of `p`; it is a mapping; the sequence of its names
is `levelNames p [] s`: the keys of the options of the level and of the subgroups of the
level, in the order of the first option of `s` that is that option or lies in that
subgroup, not sorted; and every subgroup key occurs exactly once in it. -/
theorem ToYAML_first_touch_order {V : Type} (env : Env V) (s : OptionSet V) (t : Node)
    (h : ToYAML env s = .ok t) (hnc : NoCollision s) (p : List String) (hp : IsLevel s p) :
    ∃ n, nodeAt t p = some n ∧ n.kind = .mapping
      ∧ namesOf n.content = levelNames p [] s
      ∧ ∀ q ∈ s, ∀ k, touch p q = some (.subgroup k) → (namesOf n.content).count k = 1 := by
  obtain ⟨n, h1, h2, h3⟩ := toYAML_level env s t h hnc p hp
  refine ⟨n, h1, h2, h3, ?_⟩
  intro q hq k hqk
  rw [h3, levelNames_count p k s []
    (fun o ho hok => noCollision_touch s hnc p o ho q hq k hok hqk)]
  have hany : s.any (fun q => decide (touch p q = some (.subgroup k))) = true := by
    rw [List.any_eq_true]
    exact ⟨q, hq, by simpa using hqk⟩
  simp [hany]

/-- Witness of C2: in the sample set the root level reads `zone`, `network`, `address`,
the order of first touch and not the alphabetical one. -/
theorem ToYAML_first_touch_order_witness :
    ∃ n, nodeAt sampleTree [] = some n ∧ n.kind = .mapping
      ∧ namesOf n.content = ["zone", "network", "address"]
      ∧ ∀ q ∈ sampleSet, ∀ k, touch [] q = some (.subgroup k) →
          (namesOf n.content).count k = 1 :=
  ToYAML_first_touch_order sampleEnv sampleSet sampleTree rfl
    (by unfold NoCollision; decide) [] (Or.inl rfl)

/-- C3 (partial-failure aggregation).  The option set holds two ungrouped options `A` and
`B` with simple values and distinct non-empty keys, in either order.  The document is a
root mapping with three entries, in any order, each a scalar name with a scalar value: one
whose name is no key, one named as `A` whose text the set-from-string of `A` rejects with
error `ea`, one named as `B` whose text the set-from-string of `B` accepts.  Then
`FromYAML` returns an error made of exactly two individual errors, the unknown name and
the set failure carrying the name of `A`, and the value of `B` is what its
set-from-string made of the text of the document (the holder of `A` is what its failed
set-from-string left). -/
theorem FromYAML_aggregation {V : Type} (env : Env V) (A B : Opt V)
    (hA : A.group = .nil) (hB : B.group = .nil) (hAk : A.yaml ≠ "") (hBk : B.yaml ≠ "")
    (hAB : A.yaml ≠ B.yaml)
    (hAs : env.unmarshalYAML A.value = none) (hBs : env.unmarshalYAML B.value = none)
    (s : OptionSet V) (hs : s = [A, B] ∨ s = [B, A])
    (ku vu ka va kb vb : Node)
    (hku : ku.kind = .scalar) (hvu : vu.kind = .scalar)
    (hka : ka.kind = .scalar) (hva : va.kind = .scalar)
    (hkb : kb.kind = .scalar) (hvb : vb.kind = .scalar)
    (huA : ku.value ≠ A.yaml) (huB : ku.value ≠ B.yaml)
    (hkA : ka.value = A.yaml) (hkB : kb.value = B.yaml)
    (ea : String) (hrej : (env.set A.value va.value).2 = some ea)
    (hacc : (env.set B.value vb.value).2 = none)
    (entries : List (Node × Node)) (hperm : entries.Perm [(ku, vu), (ka, va), (kb, vb)])
    (value headComment : String) :
    ∃ e, (FromYAML env s (.mk .mapping value headComment (pairsContent entries))).2 = some e
      ∧ e.leaves.Perm [.unknownOption ku.value, .set A.name ea]
      ∧ (FromYAML env s (.mk .mapping value headComment (pairsContent entries))).1
          = s.map (fun o =>
              if o.yaml = B.yaml then { B with value := (env.set B.value vb.value).1 }
              else { A with value := (env.set A.value va.value).1 }) := by
  have hBA : B.yaml ≠ A.yaml := fun h => hAB h.symm
  have hm1 : collectMaps GroupPtr.nil [A, B] 0 ⟨[], []⟩
      = .ok ⟨[], [(A.yaml, 0), (B.yaml, 1)]⟩ := by
    simp [collectMaps, hA, hB, hAk, hBk, hAB, hBA, GoMap.get, GoMap.put]
  have hm2 : collectMaps GroupPtr.nil [B, A] 0 ⟨[], []⟩
      = .ok ⟨[], [(B.yaml, 0), (A.yaml, 1)]⟩ := by
    simp [collectMaps, hA, hB, hAk, hBk, hAB, hBA, GoMap.get, GoMap.put]
  have hamb : ∀ m, ambiguousName ⟨[], m⟩ = none := fun m => rfl
  have gA1 : GoMap.get [(A.yaml, 0), (B.yaml, 1)] ka.value = some 0 := by
    simp [GoMap.get, hkA]
  have gB1 : GoMap.get [(A.yaml, 0), (B.yaml, 1)] kb.value = some 1 := by
    simp [GoMap.get, hkB, hAB]
  have gU1 : GoMap.get [(A.yaml, 0), (B.yaml, 1)] ku.value = none := by
    simp [GoMap.get, huA.symm, huB.symm]
  have gA2 : GoMap.get [(B.yaml, 0), (A.yaml, 1)] ka.value = some 1 := by
    simp [GoMap.get, hkA, hBA]
  have gB2 : GoMap.get [(B.yaml, 0), (A.yaml, 1)] kb.value = some 0 := by
    simp [GoMap.get, hkB]
  have gU2 : GoMap.get [(B.yaml, 0), (A.yaml, 1)] ku.value = none := by
    simp [GoMap.get, huA.symm, huB.symm]
  rcases hs with rfl | rfl
  · unfold FromYAML
    rw [fromYAML_mapping, hm1]
    simp only [hamb]
    rcases perm3_cases _ _ _ _ hperm with rfl | rfl | rfl | rfl | rfl | rfl
    all_goals
      simp only [pairsContent]
      repeat (first
        | rw [fromYAMLItems_scalar_unknown env _ _ ku vu _ _ _ _ (by rfl) hku hvu gU1]
        | rw [fromYAMLItems_scalar_set env _ _ ka va _ _ _ _ 0 A (by rfl) hka hva gA1
            (by rfl) hAs]
        | rw [fromYAMLItems_scalar_set env _ _ kb vb _ _ _ _ 1 B (by rfl) hkb hvb gB1
            (by rfl) hBs])
      rw [fromYAMLItems]
      simp [hrej, hacc, errorsJoin, Error.leaves, Error.leavesList, setValue, hAB]
      first
        | done
        | exact List.Perm.swap _ _ _
  · unfold FromYAML
    rw [fromYAML_mapping, hm2]
    simp only [hamb]
    rcases perm3_cases _ _ _ _ hperm with rfl | rfl | rfl | rfl | rfl | rfl
    all_goals
      simp only [pairsContent]
      repeat (first
        | rw [fromYAMLItems_scalar_unknown env _ _ ku vu _ _ _ _ (by rfl) hku hvu gU2]
        | rw [fromYAMLItems_scalar_set env _ _ ka va _ _ _ _ 1 A (by rfl) hka hva gA2
            (by rfl) hAs]
        | rw [fromYAMLItems_scalar_set env _ _ kb vb _ _ _ _ 0 B (by rfl) hkb hvb gB2
            (by rfl) hBs])
      rw [fromYAMLItems]
      simp [hrej, hacc, errorsJoin, Error.leaves, Error.leavesList, setValue, hAB]
      first
        | done
        | exact List.Perm.swap _ _ _


/-- Witness of C3: the boolean option `verbose` rejects `maybe`, the string option
`workspaceName` takes `billie`, and `color` is no option. -/
theorem FromYAML_aggregation_witness :
    ∃ e, (FromYAML sampleEnv
          [⟨"Verbose", "", "verbose", .nil, .bool false⟩,
           ⟨"Workspace Name", "", "workspaceName", .nil, .str ""⟩]
          (.mk .mapping "" "" (pairsContent
            [(.mk .scalar "color" "" [], .mk .scalar "red" "" []),
             (.mk .scalar "verbose" "" [], .mk .scalar "maybe" "" []),
             (.mk .scalar "workspaceName" "" [], .mk .scalar "billie" "" [])]))).2 = some e
      ∧ e.leaves.Perm [.unknownOption "color", .set "Verbose" "invalid syntax"]
      ∧ (FromYAML sampleEnv
          [⟨"Verbose", "", "verbose", .nil, .bool false⟩,
           ⟨"Workspace Name", "", "workspaceName", .nil, .str ""⟩]
          (.mk .mapping "" "" (pairsContent
            [(.mk .scalar "color" "" [], .mk .scalar "red" "" []),
             (.mk .scalar "verbose" "" [], .mk .scalar "maybe" "" []),
             (.mk .scalar "workspaceName" "" [], .mk .scalar "billie" "" [])]))).1
        = [⟨"Verbose", "", "verbose", .nil, .bool false⟩,
           ⟨"Workspace Name", "", "workspaceName", .nil, .str "billie"⟩] :=
  FromYAML_aggregation sampleEnv
    ⟨"Verbose", "", "verbose", .nil, .bool false⟩
    ⟨"Workspace Name", "", "workspaceName", .nil, .str ""⟩
    rfl rfl (by decide) (by decide) (by decide) rfl rfl _ (Or.inl rfl)
    (.mk .scalar "color" "" []) (.mk .scalar "red" "" [])
    (.mk .scalar "verbose" "" []) (.mk .scalar "maybe" "" [])
    (.mk .scalar "workspaceName" "" []) (.mk .scalar "billie" "" [])
    rfl rfl rfl rfl rfl rfl (by decide) (by decide) rfl rfl
    "invalid syntax" rfl rfl _ (List.Perm.refl _) "" ""

/-- C4 (missing group key rejection at build).  If the option set contains an option with a
non-empty YAML key whose group, or an ancestor of it, has an empty YAML name, `ToYAML`
returns an error (and so no tree).  If moreover `o` is the first such option and no option
before it fails (`ToYAML` succeeds on the options before `o`), the error names `o`: it is
the empty-group-name error for `o`, or the failure of the `MarshalYAML` of `o`, which the
loop runs before it looks at the groups; for a value that is no `yaml.Marshaler` it is the
empty-group-name error. -/
theorem ToYAML_missing_group_key {V : Type} (env : Env V) (s : OptionSet V) :
    ((∃ o ∈ s, MissingGroupKey o) → ∃ e, ToYAML env s = .error e)
    ∧ (∀ pre o post t, s = pre ++ o :: post → MissingGroupKey o →
        (∀ p ∈ pre, ¬ MissingGroupKey p) → ToYAML env pre = .ok t →
        ∃ e, ToYAML env s = .error e
          ∧ (e = .groupYAMLNameEmpty o.name o.group ∨ (∃ m, e = .marshal o.name m)
              ∨ e = .marshalType o.name)
          ∧ (env.marshalYAML o.value = none → e = .groupYAMLNameEmpty o.name o.group)) := by
  refine ⟨fun h => toYAMLLoop_error_of_mem env s h _, ?_⟩
  intro pre o post t hs ho _ hpre
  obtain ⟨e, he, hn⟩ := toYAMLStep_missing env t o ho
  refine ⟨e, ?_, hn⟩
  subst hs
  unfold ToYAML at hpre ⊢
  rw [toYAMLLoop_append, hpre]
  simp only [toYAMLLoop, he]

/-- Witness of C4: the option of the `SimpleString` build test, whose group has a display
name and no YAML name, behind an ungrouped option that is built first. -/
theorem ToYAML_missing_group_key_witness :
    ∃ e, ToYAML sampleEnv
        [⟨"Verbose", "", "verbose", .nil, .bool true⟩,
         ⟨"Workspace Name", "The workspace's name.", "workspaceName",
          .ref 0 .nil "Names" "" "", .str "billie"⟩] = .error e
      ∧ (e = .groupYAMLNameEmpty "Workspace Name" (.ref 0 .nil "Names" "" "")
          ∨ (∃ m, e = .marshal "Workspace Name" m) ∨ e = .marshalType "Workspace Name")
      ∧ (sampleEnv.marshalYAML (Val.str "billie") = none →
          e = .groupYAMLNameEmpty "Workspace Name" (.ref 0 .nil "Names" "" "")) :=
  (ToYAML_missing_group_key sampleEnv
      [⟨"Verbose", "", "verbose", .nil, .bool true⟩,
       ⟨"Workspace Name", "The workspace's name.", "workspaceName",
        .ref 0 .nil "Names" "" "", .str "billie"⟩]).2
    [⟨"Verbose", "", "verbose", .nil, .bool true⟩]
    ⟨"Workspace Name", "The workspace's name.", "workspaceName",
      .ref 0 .nil "Names" "" "", .str "billie"⟩ [] _ rfl
    ⟨by decide, _, List.mem_singleton_self _, rfl⟩
    (by
      intro p hp hm
      rw [List.mem_singleton] at hp
      subst hp
      obtain ⟨_, g, hg, _⟩ := hm
      simp [GroupPtr.Ancestry] at hg)
    rfl

/-- C5 (ambiguous schema rejection), at the failing inputs.  The option set holds an
ungrouped option `a` and an option `b` whose group, parentless, has the key of `a` as YAML
name; both have keys and simple values.  `ToYAML` returns no error, in either order of the
two options.  With `a` first, `deepMapNode` finds on the name of the group the name node of
`a` and descends into the value node of `a`, a scalar, and `ToYAML` appends the pair of `b`
to the content of that scalar; with `b` first, the root gets the same name twice.  The
reader does reject the schema: `FromYAML` returns an error for every mapping document. -/
theorem ToYAML_option_and_group_same_key {V : Type} (env : Env V) (a b : Opt V)
    (ha : a.yaml ≠ "") (hb : b.yaml ≠ "") (hag : a.group = .nil)
    (addr : Nat) (n d : String) (hbg : b.group = .ref addr .nil n a.yaml d)
    (has : env.marshalYAML a.value = none) (hbs : env.marshalYAML b.value = none) :
    ToYAML env [a, b] = .ok (.mk .mapping "" ""
      [.mk .scalar a.yaml (env.wrapString a.description 80) [],
       .mk .scalar (env.string a.value) ""
        [.mk .scalar b.yaml (env.wrapString b.description 80) [],
         .mk .scalar (env.string b.value) "" []]])
    ∧ ToYAML env [b, a] = .ok (.mk .mapping "" ""
      [.mk .scalar a.yaml (env.wrapString d 80) [],
       .mk .mapping "" ""
        [.mk .scalar b.yaml (env.wrapString b.description 80) [],
         .mk .scalar (env.string b.value) "" []],
       .mk .scalar a.yaml (env.wrapString a.description 80) [],
       .mk .scalar (env.string a.value) "" []])
    ∧ ∀ value headComment content,
        ∃ e, FromYAML env [a, b] (.mk .mapping value headComment content)
          = ([a, b], some e) := by
  refine ⟨?_, ?_, ?_⟩
  · simp [ToYAML, toYAMLLoop, toYAMLStep, ha, hb, valueNodeOf, has, hbs, hag, hbg,
      GroupPtr.Ancestry, groupPath, deepMapNode, Node.withContent, Node.content,
      GroupPtr.yamlName, findName, Node.value, modifyAt]
  · simp [ToYAML, toYAMLLoop, toYAMLStep, ha, hb, valueNodeOf, has, hbs, hag, hbg,
      GroupPtr.Ancestry, groupPath, deepMapNode, Node.withContent, Node.content,
      GroupPtr.yamlName, findName, Node.value, modifyAt, GroupPtr.description]
  · intro value headComment content
    exact fromYAML_option_and_group env [a, b] .nil a b (List.mem_cons_self _ _)
      (List.mem_cons_of_mem _ (List.mem_singleton_self _)) ha hb hag
      (by rw [hbg]; exact fun h => GroupPtr.noConfusion h) (by rw [hbg]; rfl)
      (by rw [hbg]; rfl) value headComment content

/-- Witness of C5: option `workspace` and group `workspace`. -/
theorem ToYAML_option_and_group_same_key_witness :
    ToYAML sampleEnv
        [⟨"Workspace", "", "workspace", .nil, .str "dev"⟩,
         ⟨"Workspace Name", "", "name", .ref 1 .nil "" "workspace" "", .str "billie"⟩]
      = .ok (.mk .mapping "" ""
          [.mk .scalar "workspace" "" [],
           .mk .scalar "dev" ""
            [.mk .scalar "name" "" [], .mk .scalar "billie" "" []]]) :=
  (ToYAML_option_and_group_same_key sampleEnv
    ⟨"Workspace", "", "workspace", .nil, .str "dev"⟩
    ⟨"Workspace Name", "", "name", .ref 1 .nil "" "workspace" "", .str "billie"⟩
    (by decide) (by decide) rfl 1 "" "" rfl rfl rfl).1

/-- C6 (exclusion at build).  `ToYAML` of an option set is `ToYAML` of the set without its
options of empty YAML key, the same tree or the same failure; so nothing in the tree comes
from such an option.  When every option has an empty key the result is the root mapping
without content and without error, whatever the groups of the options are. -/
theorem ToYAML_exclusion {V : Type} (env : Env V) (s : OptionSet V) :
    ToYAML env s = ToYAML env (s.filter (fun o => decide (o.yaml ≠ "")))
    ∧ ((∀ o ∈ s, o.yaml = "") → ToYAML env s = .ok (.mk .mapping "" "" [])) :=
  ⟨toYAMLLoop_filter env s _, fun h => toYAMLLoop_all_empty env s h _⟩

/-- Witness of C6: the option of the `RequireKey` test, put in a group without YAML name. -/
theorem ToYAML_exclusion_witness :
    ToYAML sampleEnv [⟨"Workspace Name", "", "", .ref 0 .nil "Names" "" "", .str "billie"⟩]
      = .ok (.mk .mapping "" "" []) :=
  (ToYAML_exclusion sampleEnv
    [⟨"Workspace Name", "", "", .ref 0 .nil "Names" "" "", .str "billie"⟩]).2
    (by intro o ho; rw [List.mem_singleton] at ho; subst ho; rfl)

/-- Counterexample to C7 as stated.  The options `Name` (key `name`) and `Hidden` (no YAML
key) have one value holder, at address 0, as two options built from one pointer have.
`FromYAML` on the document `name: billie` returns no error, and the value of `Hidden`,
`old` before the call, is `billie` after it. -/
theorem FromYAML_changes_shared_holder :
    (FromYAMLShared sampleEnv
        [⟨"Name", "", "name", .nil, 0⟩, ⟨"Hidden", "", "", .nil, 0⟩]
        (fun _ => .str "old")
        (.mk .mapping "" "" [.mk .scalar "name" "" [], .mk .scalar "billie" "" []])).1 0
      = .str "billie"
    ∧ (FromYAMLShared sampleEnv
        [⟨"Name", "", "name", .nil, 0⟩, ⟨"Hidden", "", "", .nil, 0⟩]
        (fun _ => .str "old")
        (.mk .mapping "" "" [.mk .scalar "name" "" [], .mk .scalar "billie" "" []])).2
      = none :=
  ⟨rfl, rfl⟩

/-- C7 as amended (exclusion at read).  For every option set, every state of the value
holders and every document tree, after `FromYAML`, whether it returns an error or not, the
value of every option whose YAML key is empty, and whose value holder is not the holder of
an option with a YAML key, equals its value before the call. -/
theorem FromYAMLShared_exclusion {V : Type} (env : Env V) (s : OptionSet Nat)
    (hs : Holders V) (n : Node) :
    ∀ o ∈ s, o.yaml = "" → (∀ q ∈ s, q.yaml ≠ "" → q.value ≠ o.value) →
      (FromYAMLShared env s hs n).1 o.value = hs o.value := by
  intro o _ _ hown
  exact fromYAMLShared_frame env s o.value hown hs .nil n

/-- Witness of C7 as amended: a document with an entry whose name is the empty string, an
entry for the keyed option and an unknown entry; the option without key, with a holder of
its own, keeps its value. -/
theorem FromYAMLShared_exclusion_witness :
    (FromYAMLShared sampleEnv
        [⟨"Hidden", "", "", .nil, 0⟩, ⟨"Name", "", "name", .nil, 1⟩]
        (fun a => if a = 0 then .str "keep" else .str "")
        (.mk .mapping "" ""
          [.mk .scalar "" "" [], .mk .scalar "lost" "" [],
           .mk .scalar "name" "" [], .mk .scalar "billie" "" [],
           .mk .scalar "other" "" [], .mk .sequence "" "" []])).1 0
      = .str "keep" :=
  FromYAMLShared_exclusion sampleEnv
    [⟨"Hidden", "", "", .nil, 0⟩, ⟨"Name", "", "name", .nil, 1⟩]
    (fun a => if a = 0 then .str "keep" else .str "") _
    ⟨"Hidden", "", "", .nil, 0⟩ (List.mem_cons_self _ _) rfl
    (by
      intro q hq hy
      simp only [List.mem_cons, List.mem_singleton, List.not_mem_nil, or_false] at hq
      rcases hq with rfl | rfl
      · exact absurd rfl hy
      · decide)

/-- C8 (reading through nested groups), at the failing inputs.  The option set holds one
keyed option whose group has a parent (a chain of two groups or more, the groups above
owning no option).  For every root mapping with one entry whose value is a mapping, as the
document that nests the groups is, `FromYAML` returns the error "unknown option or
subgroup" for the name of the entry and changes nothing: the first loop of `fromYAML`
registers a group only when its parent is the level read, so at the root no subgroup is
known. -/
theorem FromYAML_nested_group_unknown {V : Type} (env : Env V) (o : Opt V)
    (hk : o.yaml ≠ "") (hp : o.group.parent ≠ .nil) (kn inner : Node)
    (hkn : kn.kind = .scalar) (hin : inner.kind = .mapping) (value headComment : String) :
    FromYAML env [o] (.mk .mapping value headComment [kn, inner])
      = ([o], some (.join [.unknownOptionOrSubgroup kn.value])) := by
  have hg : o.group ≠ .nil := by
    intro h; rw [h] at hp; exact hp rfl
  have hm : collectMaps GroupPtr.nil [o] 0 ⟨[], []⟩ = .ok ⟨[], []⟩ := by
    simp [collectMaps, hk, hg, hp]
  unfold FromYAML
  rw [fromYAML_mapping, hm]
  simp [ambiguousName, fromYAMLItems, hkn, hin, GoMap.get, errorsJoin]

/-- Witness of C8: option `workspaceName` in the group `names` of the group
`workspace`, and the document `workspace: {names: {workspaceName: billie}}`. -/
theorem FromYAML_nested_group_unknown_witness :
    FromYAML sampleEnv
        [⟨"Workspace Name", "", "workspaceName",
          .ref 2 (.ref 1 .nil "" "workspace" "") "" "names" "", .str ""⟩]
        (.mk .mapping "" ""
          [.mk .scalar "workspace" "" [],
           .mk .mapping "" ""
            [.mk .scalar "names" "" [],
             .mk .mapping "" ""
              [.mk .scalar "workspaceName" "" [], .mk .scalar "billie" "" []]]])
      = ([⟨"Workspace Name", "", "workspaceName",
          .ref 2 (.ref 1 .nil "" "workspace" "") "" "names" "", .str ""⟩],
         some (.join [.unknownOptionOrSubgroup "workspace"])) :=
  FromYAML_nested_group_unknown sampleEnv
    ⟨"Workspace Name", "", "workspaceName",
      .ref 2 (.ref 1 .nil "" "workspace" "") "" "names" "", .str ""⟩
    (by decide) (by decide) (.mk .scalar "workspace" "" [])
    (.mk .mapping "" ""
      [.mk .scalar "names" "" [],
       .mk .mapping "" ""
        [.mk .scalar "workspaceName" "" [], .mk .scalar "billie" "" []]])
    rfl rfl "" ""

/-- C9 (shape of the tree built from one option).  For an option set holding one option
with non-empty key `k` and a simple value with string representation `v`, `ToYAML` returns
without error a root mapping whose content is exactly the pair (scalar `k`, scalar `v`)
when the option has no group, and exactly the pair (scalar `g`, mapping holding exactly the
pair (scalar `k`, scalar `v`)) when its group is a parentless group with non-empty key
`g`.  The name scalars carry the wrapped descriptions as head comments. -/
theorem ToYAML_single_shape {V : Type} (env : Env V) (o : Opt V) (hk : o.yaml ≠ "")
    (hs : env.marshalYAML o.value = none) :
    (o.group = .nil →
      ToYAML env [o] = .ok (.mk .mapping "" ""
        [.mk .scalar o.yaml (env.wrapString o.description 80) [],
         .mk .scalar (env.string o.value) "" []]))
    ∧ (∀ a n g d, g ≠ "" → o.group = .ref a .nil n g d →
      ToYAML env [o] = .ok (.mk .mapping "" ""
        [.mk .scalar g (env.wrapString d 80) [],
         .mk .mapping "" ""
          [.mk .scalar o.yaml (env.wrapString o.description 80) [],
           .mk .scalar (env.string o.value) "" []]])) :=
  ⟨ToYAML_single_ungrouped env o hk hs,
   fun a n g d hne hg => ToYAML_single_grouped env o hk hs a n g d hne hg⟩

/-- Witness of C9: the two concrete scenarios of the spec, option `workspaceName` with
value `billie`, without group and in the group `names`. -/
theorem ToYAML_single_shape_witness :
    ToYAML sampleEnv [⟨"Workspace Name", "", "workspaceName", .nil, .str "billie"⟩]
        = .ok (.mk .mapping "" ""
          [.mk .scalar "workspaceName" "" [], .mk .scalar "billie" "" []])
    ∧ ToYAML sampleEnv
        [⟨"Workspace Name", "", "workspaceName", .ref 0 .nil "" "names" "", .str "billie"⟩]
        = .ok (.mk .mapping "" ""
          [.mk .scalar "names" "" [],
           .mk .mapping "" ""
            [.mk .scalar "workspaceName" "" [], .mk .scalar "billie" "" []]]) :=
  ⟨(ToYAML_single_shape sampleEnv
      ⟨"Workspace Name", "", "workspaceName", .nil, .str "billie"⟩ (by decide) rfl).1 rfl,
   (ToYAML_single_shape sampleEnv
      ⟨"Workspace Name", "", "workspaceName", .ref 0 .nil "" "names" "", .str "billie"⟩
      (by decide) rfl).2 0 "" "names" "" (by decide) rfl⟩

/-- C10 (read-back of one option).  For an option set holding one option with non-empty
key and a simple value `v` that set-from-string restores from its string representation,
the option having no group or a parentless group with non-empty key: `ToYAML` returns a
tree, and `FromYAML` of that tree on the same option with a freshly reset simple value `r`
returns no error and leaves the option with value `v`. -/
theorem FromYAML_ToYAML_single {V : Type} (env : Env V) (o : Opt V) (r : V)
    (hk : o.yaml ≠ "") (hm : env.marshalYAML o.value = none)
    (hu : env.unmarshalYAML r = none)
    (hset : env.set r (env.string o.value) = (o.value, none))
    (hg : o.group = .nil ∨ ∃ a n g d, g ≠ "" ∧ o.group = .ref a .nil n g d) :
    ∃ t, ToYAML env [o] = .ok t
      ∧ FromYAML env [{ o with value := r }] t = ([o], none) := by
  rcases hg with hg | ⟨a, n, g, d, hne, hg⟩
  · refine ⟨_, ToYAML_single_ungrouped env o hk hm hg, ?_⟩
    simp [FromYAML, fromYAML, collectMaps, hk, hg, GoMap.get, GoMap.put, ambiguousName,
      fromYAMLItems, Node.kind, Node.value, hu, hset, setValue]
    cases o; simp_all
  · refine ⟨_, ToYAML_single_grouped env o hk hm a n g d hne hg, ?_⟩
    simp [FromYAML, fromYAML, collectMaps, hk, hg, GoMap.get, GoMap.put, ambiguousName,
      fromYAMLItems, Node.kind, Node.value, hu, hset, setValue, GroupPtr.parent,
      GroupPtr.yamlName, hne]
    cases o; simp_all

/-- Witness of C10: the case of the isomorphism test, option `workspaceName` in the group
`names`, value `billie`, read back into an empty string holder. -/
theorem FromYAML_ToYAML_single_witness :
    ∃ t, ToYAML sampleEnv
        [⟨"Workspace Name", "The workspace's name.", "workspaceName",
          .ref 0 .nil "" "names" "", .str "billie"⟩] = .ok t
      ∧ FromYAML sampleEnv
        [⟨"Workspace Name", "The workspace's name.", "workspaceName",
          .ref 0 .nil "" "names" "", .str ""⟩] t
        = ([⟨"Workspace Name", "The workspace's name.", "workspaceName",
          .ref 0 .nil "" "names" "", .str "billie"⟩], none) :=
  FromYAML_ToYAML_single sampleEnv
    ⟨"Workspace Name", "The workspace's name.", "workspaceName",
      .ref 0 .nil "" "names" "", .str "billie"⟩ (.str "")
    (by decide) rfl rfl rfl (Or.inr ⟨0, "", "names", "", by decide, rfl⟩)

/-- C11 (group comments), at the failing inputs.  The option set holds one keyed option with
a simple value in a group `B` (key `keyB`, description `descB`) whose parent is the
parentless group `A` (key `keyA`, description `descA`).  In the tree `ToYAML` builds, the
name scalar of the node of `A` carries the wrapped description of `B`, not that of `A`:
`ToYAML` hands `deepMapNode` the description of the option's own group, and `deepMapNode`
puts that one text on every node it creates along the path. -/
theorem ToYAML_ancestor_comment {V : Type} (env : Env V) (o : Opt V)
    (hk : o.yaml ≠ "") (hs : env.marshalYAML o.value = none)
    (addrA addrB : Nat) (nameA keyA descA nameB keyB descB : String)
    (hA : keyA ≠ "") (hB : keyB ≠ "")
    (hg : o.group = .ref addrB (.ref addrA .nil nameA keyA descA) nameB keyB descB) :
    ToYAML env [o] = .ok (.mk .mapping "" ""
      [.mk .scalar keyA (env.wrapString descB 80) [],
       .mk .mapping "" ""
        [.mk .scalar keyB (env.wrapString descB 80) [],
         .mk .mapping "" ""
          [.mk .scalar o.yaml (env.wrapString o.description 80) [],
           .mk .scalar (env.string o.value) "" []]]]) := by
  simp [ToYAML, toYAMLLoop, toYAMLStep, hk, valueNodeOf, hs, hg, GroupPtr.Ancestry,
    groupPath, deepMapNode, Node.withContent, Node.content, GroupPtr.yamlName, hA, hB,
    findName, GroupPtr.description]

/-- Witness of C11: option `port` in the group `http` ("The HTTP listener.") of the group
`network` ("Networking."); the node `network` gets the comment of `http`. -/
theorem ToYAML_ancestor_comment_witness :
    ToYAML sampleEnv
        [⟨"Port", "", "port",
          .ref 2 (.ref 1 .nil "Network" "network" "Networking.") "HTTP" "http"
            "The HTTP listener.", .str "80"⟩]
      = .ok (.mk .mapping "" ""
          [.mk .scalar "network" "The HTTP listener." [],
           .mk .mapping "" ""
            [.mk .scalar "http" "The HTTP listener." [],
             .mk .mapping "" ""
              [.mk .scalar "port" "" [], .mk .scalar "80" "" []]]]) :=
  ToYAML_ancestor_comment sampleEnv
    ⟨"Port", "", "port",
      .ref 2 (.ref 1 .nil "Network" "network" "Networking.") "HTTP" "http"
        "The HTTP listener.", .str "80"⟩
    (by decide) rfl 1 2 "Network" "network" "Networking." "HTTP" "http" "The HTTP listener."
    (by decide) (by decide) rfl

/-- C12 (scalar dispatch in the reader).  Let the third loop of `fromYAML` stand, in any
state (`os`, `merr`), before a pair whose name node `k` is a scalar at an even index, whose
value node `v` is a scalar, and whose name is in `optionsByName`, for the option `opt` at
index `j`.  If the value of `opt` is a `yaml.Unmarshaler`, its `UnmarshalYAML` is given the
node `v`, the holder becomes what that call left, and `Set` plays no part; otherwise the
holder becomes what `Set` left for exactly the text `v.Value`.  In both cases a returned
error is joined to the aggregate, wrapped with the name of the option, and the loop goes on
with the pairs that follow. -/
theorem fromYAMLItems_scalar_dispatch {V : Type} (env : Env V) (maps : Maps)
    (os : OptionSet V) (k v : Node) (rest : List Node) (i : Nat) (name : String)
    (merr : Option Error) (j : Nat) (opt : Opt V)
    (hi : i % 2 = 0) (hk : k.kind = .scalar) (hv : v.kind = .scalar)
    (hget : maps.optionsByName.get k.value = some j) (hj : os[j]? = some opt) :
    (∀ consume, env.unmarshalYAML opt.value = some consume →
      fromYAMLItems env maps os (k :: v :: rest) i name merr
        = fromYAMLItems env maps (setValue os j (consume v).1) rest (i + 2) k.value
            (joinWrapped merr (.unmarshal opt.name) (consume v).2))
    ∧ (env.unmarshalYAML opt.value = none →
      fromYAMLItems env maps os (k :: v :: rest) i name merr
        = fromYAMLItems env maps (setValue os j (env.set opt.value v.value).1) rest (i + 2)
            k.value (joinWrapped merr (.set opt.name) (env.set opt.value v.value).2)) := by
  rw [fromYAMLItems_pair env maps os k v rest i name merr hi]
  constructor
  · intro consume hu
    simp only [pairStep, hk, ne_eq, not_true_eq_false, if_false, hv, hget, hj, hu, afterPair]
  · intro hu
    simp only [pairStep, hk, ne_eq, not_true_eq_false, if_false, hv, hget, hj, hu, afterPair]

/-- Witness of C12: the structured holder `tags` consumes the scalar node `a,b`, the simple
holder `verbose` is set from the text `yes` and fails, the failure is joined with the name
of the option, and the pair `name: billie` that follows is still read. -/
theorem fromYAMLItems_scalar_dispatch_witness :
    fromYAMLItems holderEnv ⟨[], [("tags", 0), ("verbose", 1), ("name", 2)]⟩
        [⟨"Tags", "", "tags", .nil, .structured (.mk .sequence "" "" [])⟩,
         ⟨"Verbose", "", "verbose", .nil, .simple (.bool false)⟩,
         ⟨"Name", "", "name", .nil, .simple (.str "")⟩]
        [.mk .scalar "tags" "" [], .mk .scalar "a,b" "" [],
         .mk .scalar "verbose" "" [], .mk .scalar "yes" "" [],
         .mk .scalar "name" "" [], .mk .scalar "billie" "" []] 0 "" none
      = ([⟨"Tags", "", "tags", .nil, .structured (.mk .scalar "a,b" "" [])⟩,
          ⟨"Verbose", "", "verbose", .nil, .simple (.bool false)⟩,
          ⟨"Name", "", "name", .nil, .simple (.str "billie")⟩],
         some (.join [.set "Verbose" "invalid syntax"])) :=
  Eq.trans
    ((fromYAMLItems_scalar_dispatch holderEnv
        ⟨[], [("tags", 0), ("verbose", 1), ("name", 2)]⟩
        [⟨"Tags", "", "tags", .nil, .structured (.mk .sequence "" "" [])⟩,
         ⟨"Verbose", "", "verbose", .nil, .simple (.bool false)⟩,
         ⟨"Name", "", "name", .nil, .simple (.str "")⟩]
        (.mk .scalar "tags" "" []) (.mk .scalar "a,b" "" [])
        [.mk .scalar "verbose" "" [], .mk .scalar "yes" "" [],
         .mk .scalar "name" "" [], .mk .scalar "billie" "" []] 0 "" none 0
        ⟨"Tags", "", "tags", .nil, .structured (.mk .sequence "" "" [])⟩
        rfl rfl rfl rfl rfl).1 _ rfl)
    ((fromYAMLItems_scalar_dispatch holderEnv
        ⟨[], [("tags", 0), ("verbose", 1), ("name", 2)]⟩
        [⟨"Tags", "", "tags", .nil, .structured (.mk .scalar "a,b" "" [])⟩,
         ⟨"Verbose", "", "verbose", .nil, .simple (.bool false)⟩,
         ⟨"Name", "", "name", .nil, .simple (.str "")⟩]
        (.mk .scalar "verbose" "" []) (.mk .scalar "yes" "" [])
        [.mk .scalar "name" "" [], .mk .scalar "billie" "" []] 2 "tags" none 1
        ⟨"Verbose", "", "verbose", .nil, .simple (.bool false)⟩
        rfl rfl rfl rfl rfl).2 rfl)

/-- Counterexample to C13 as stated.  The option `port` lies in the group `network`, the
option `zone` in no group.  In the document the mapping of `network` holds the pair
`port: <sequence>`, and the pair `zone: eu` follows it.  `FromYAML` returns an error, and
the value of `zone` is `eu`: the pair that follows the offending pair in document order was
applied. -/
theorem FromYAML_continues_after_subgroup_abort :
    FromYAML sampleEnv
        [⟨"Port", "", "port", .ref 1 .nil "Network" "network" "", .str ""⟩,
         ⟨"Zone", "", "zone", .nil, .str ""⟩]
        (.mk .mapping "" ""
          [.mk .scalar "network" "" [],
           .mk .mapping "" "" [.mk .scalar "port" "" [], .mk .sequence "" "" []],
           .mk .scalar "zone" "" [], .mk .scalar "eu" "" []])
      = ([⟨"Port", "", "port", .ref 1 .nil "Network" "network" "", .str ""⟩,
          ⟨"Zone", "", "zone", .nil, .str "eu"⟩],
         some (.join [.group "network" (.unexpectedKind .sequence)])) :=
  rfl

/-- C13 as amended (structural violations abort the level they are in).  An offending pair
is a name node, at an even index, that is no scalar, or a name node with a value node that
is neither a mapping nor a scalar.
* For every option set and every level, read from a mapping with an offending pair, the
  result of `fromYAML` is an error and is the same whatever pairs follow the offending pair
  in that mapping: none of them is applied.
* For every document with an offending pair at the root level or inside the mapping of a
  subgroup that is read (`Offending`), `FromYAML` returns an error.
* When the loop meets the entry of a subgroup, it reads it by a recursive call, joins the
  error of that call, whatever it is, to the aggregate, and goes on with the pairs that
  follow the entry in the enclosing mapping. -/
theorem FromYAML_structural_abort {V : Type} (env : Env V) (os : OptionSet V) :
    (∀ g value headComment pre k v, pre.length % 2 = 0 →
      (k.kind ≠ .scalar ∨ (v.kind ≠ .mapping ∧ v.kind ≠ .scalar)) →
      ∃ r : OptionSet V × Option Error, r.2 ≠ none
        ∧ ∀ post, fromYAML env os g (.mk .mapping value headComment (pre ++ k :: v :: post))
            = r)
    ∧ (∀ n, Offending os .nil n → (FromYAML env os n).2 ≠ none)
    ∧ (∀ maps k v rest i name merr sub, i % 2 = 0 → k.kind = .scalar → v.kind = .mapping →
      maps.optionsByName.get k.value = none → maps.subGroupsByName.get k.value = some sub →
      fromYAMLItems env maps os (k :: v :: rest) i name merr
        = fromYAMLItems env maps (fromYAML env os sub v).1 rest (i + 2) k.value
            (joinWrapped merr (.group sub.yamlName) (fromYAML env os sub v).2)) := by
  refine ⟨?_, ?_, ?_⟩
  · intro g value headComment pre k v hpre hbad
    rcases fromYAML_level_result env os g value headComment with
      ⟨e, hall⟩ | ⟨maps, hk, _, hall⟩
    · exact ⟨(os, some e), by simp, fun post => hall _⟩
    · obtain ⟨r, hr, hall2⟩ := fromYAMLItems_offending env maps os pre k v hpre hbad hk
      exact ⟨r, hr, fun post => by rw [hall, hall2]⟩
  · intro n hn
    exact fromYAML_offending env os .nil n hn os rfl
  · intro maps k v rest i name merr sub hi hk hv hopt hsub
    rw [fromYAMLItems_pair env maps os k v rest i name merr hi]
    simp [pairStep, hk, hv, hopt, hsub, afterPair]

/-- Witness of C13 as amended: the document of the counterexample has an offending pair
inside the mapping of the subgroup `network`, and `FromYAML` returns an error. -/
theorem FromYAML_structural_abort_witness :
    (FromYAML sampleEnv
        [⟨"Port", "", "port", .ref 1 .nil "Network" "network" "", .str ""⟩,
         ⟨"Zone", "", "zone", .nil, .str ""⟩]
        (.mk .mapping "" ""
          ([] ++ .mk .scalar "network" "" []
            :: .mk .mapping "" ""
                ([] ++ .mk .scalar "port" "" [] :: .mk .sequence "" "" [] :: [])
            :: [.mk .scalar "zone" "" [], .mk .scalar "eu" "" []]))).2 ≠ none :=
  (FromYAML_structural_abort sampleEnv
      [⟨"Port", "", "port", .ref 1 .nil "Network" "network" "", .str ""⟩,
       ⟨"Zone", "", "zone", .nil, .str ""⟩]).2.1 _
    (Offending.inside .nil "" "" [] (.mk .scalar "network" "" []) _
      [.mk .scalar "zone" "" [], .mk .scalar "eu" "" []]
      ⟨[("network", .ref 1 .nil "Network" "network" "")], [("zone", 1)]⟩
      (.ref 1 .nil "Network" "network" "") rfl rfl rfl rfl rfl rfl
      (Offending.here _ "" "" [] (.mk .scalar "port" "" []) (.mk .sequence "" "" []) [] rfl
        (Or.inr ⟨by decide, by decide⟩)))

/-- C14 (root document unwrapping).  For every option set: `FromYAML` on a document node
with exactly one child is `FromYAML` on that child, same error and same option set after
the call; on a document node whose number of children is not one it returns an error and
the option set is as before; and on a root that is neither a document node nor a mapping
(what is left when no unwrapping applies) it returns an error and the option set is as
before. -/
theorem FromYAML_document_root {V : Type} (env : Env V) (s : OptionSet V) :
    (∀ value headComment c,
      FromYAML env s (.mk .document value headComment [c]) = FromYAML env s c)
    ∧ (∀ value headComment content, content.length ≠ 1 →
      FromYAML env s (.mk .document value headComment content)
        = (s, some (.expectedOneContent content.length)))
    ∧ (∀ n : Node, n.kind ≠ .document → n.kind ≠ .mapping →
      FromYAML env s n = (s, some (.expectedMapping n.kind))) := by
  refine ⟨?_, ?_, ?_⟩
  · intro value headComment c
    simp [FromYAML, fromYAML]
  · intro value headComment content hlen
    unfold FromYAML
    rw [fromYAML.eq_def]
    cases content with
    | nil => simp
    | cons c rest =>
      cases rest with
      | nil => simp at hlen
      | cons c2 rest => simp
  · intro n hd hm
    obtain ⟨kind, value, hc, content⟩ := n
    simp only [Node.kind] at hd hm
    unfold FromYAML
    rw [fromYAML.eq_def]
    simp [hd, hm, Node.kind]

/-- Witness of C14: a document node with two children, and a sequence as root. -/
theorem FromYAML_document_root_witness :
    FromYAML sampleEnv sampleSet
        (.mk .document "" "" [.mk .mapping "" "" [], .mk .mapping "" "" []])
      = (sampleSet, some (.expectedOneContent 2))
    ∧ FromYAML sampleEnv sampleSet (.mk .sequence "" "" [.mk .scalar "zone" "" []])
      = (sampleSet, some (.expectedMapping .sequence)) :=
  ⟨(FromYAML_document_root sampleEnv sampleSet).2.1 "" ""
      [.mk .mapping "" "" [], .mk .mapping "" "" []] (by decide),
   (FromYAML_document_root sampleEnv sampleSet).2.2
      (.mk .sequence "" "" [.mk .scalar "zone" "" []]) (by decide) (by decide)⟩

/-- Counterexample to C15 as stated.  The options `name` and `alias` have the same key
`name` and no group; before them stands the keyed option `port`, whose group has no parent
and no YAML name.  `FromYAML` fails, changing nothing, with the error for the empty YAML
name of the group, which the first loop of `fromYAML` meets first, and not with a
duplicate-option error. -/
theorem FromYAML_duplicate_behind_unnamed_group :
    FromYAML sampleEnv
        [⟨"Port", "", "port", .ref 1 .nil "Network" "" "", .str ""⟩,
         ⟨"Name", "", "name", .nil, .str ""⟩,
         ⟨"Alias", "", "name", .nil, .str ""⟩]
        (.mk .mapping "" "" [.mk .scalar "name" "" [], .mk .scalar "billie" "" []])
      = ([⟨"Port", "", "port", .ref 1 .nil "Network" "" "", .str ""⟩,
          ⟨"Name", "", "name", .nil, .str ""⟩,
          ⟨"Alias", "", "name", .nil, .str ""⟩],
         some (.groupYAMLNameEmpty "Port" (.ref 1 .nil "Network" "" ""))) :=
  rfl

/-- C15 as amended (duplicate option key rejection, atomic).  Let two options of the set
have the same non-empty YAML key and the same group `g` by identity, or both no group
(`DupPair`).
* Reading the level of `g` from any mapping fails before any pair is processed: `fromYAML`
  returns an error and the option set as it was.  The error is a duplicate-option error,
  or the error for the empty YAML name of a child group of the level, owned by a keyed
  option of the set.
* When no keyed option of the set has a child group of the level without YAML name, the
  error is a duplicate-option error.
* For a duplicate at the root, `FromYAML` returns an error for every mapping document and
  changes no option value.
* A duplicate-option error for key `k` at a level is only returned when two options of
  that very group have the key `k`: the same key in different groups does not trigger
  it. -/
theorem fromYAML_duplicate_option {V : Type} (env : Env V) (os : OptionSet V)
    (g : GroupPtr) :
    (∀ k, DupPair g k os → ∀ value headComment content,
      ∃ e, fromYAML env os g (.mk .mapping value headComment content) = (os, some e)
        ∧ ((∃ k1, e = .duplicateOption k1)
          ∨ ∃ o ∈ os, o.yaml ≠ "" ∧ o.group ≠ .nil ∧ o.group.parent = g
              ∧ o.group.yamlName = "" ∧ e = .groupYAMLNameEmpty o.name o.group))
    ∧ (∀ k, DupPair g k os →
      (∀ o ∈ os, o.yaml ≠ "" → o.group ≠ .nil → o.group.parent = g →
        o.group.yamlName ≠ "") →
      ∀ value headComment content,
        ∃ k1, fromYAML env os g (.mk .mapping value headComment content)
          = (os, some (.duplicateOption k1)))
    ∧ (∀ k, DupPair .nil k os → ∀ value headComment content,
      ∃ e, FromYAML env os (.mk .mapping value headComment content) = (os, some e))
    ∧ (∀ value headComment content os1 k,
      fromYAML env os g (.mk .mapping value headComment content)
        = (os1, some (.duplicateOption k)) → DupPair g k os) := by
  refine ⟨?_, ?_, ?_, ?_⟩
  · intro k hdup value headComment content
    exact fromYAML_duplicate_error env os g k hdup value headComment content
  · intro k hdup hnamed value headComment content
    obtain ⟨e, he, hkind⟩ := fromYAML_duplicate_error env os g k hdup value headComment content
    rcases hkind with ⟨k1, hk1⟩ | ⟨o, ho, h1, h2, h3, h4, _⟩
    · exact ⟨k1, by rw [he, hk1]⟩
    · exact absurd h4 (hnamed o ho h1 h2 h3)
  · intro k hdup value headComment content
    obtain ⟨e, he, _⟩ :=
      fromYAML_duplicate_error env os .nil k hdup value headComment content
    exact ⟨e, he⟩
  · intro value headComment content os1 k h
    exact fromYAML_duplicate_origin env os os1 g value headComment content k h

/-- Witness of C15 as amended: two ungrouped options with the key `name`. -/
theorem fromYAML_duplicate_option_witness :
    ∃ k1, fromYAML sampleEnv
        [⟨"Name", "", "name", .nil, .str ""⟩, ⟨"Alias", "", "name", .nil, .str ""⟩] .nil
        (.mk .mapping "" "" [.mk .scalar "name" "" [], .mk .scalar "billie" "" []])
      = ([⟨"Name", "", "name", .nil, .str ""⟩, ⟨"Alias", "", "name", .nil, .str ""⟩],
         some (.duplicateOption k1)) :=
  (fromYAML_duplicate_option sampleEnv
      [⟨"Name", "", "name", .nil, .str ""⟩, ⟨"Alias", "", "name", .nil, .str ""⟩] .nil).2.1
    "name" ⟨[], _, [], _, [], rfl, rfl, rfl, by decide, rfl, rfl⟩
    (by
      intro o ho _ hn
      simp only [List.mem_cons, List.mem_singleton, List.not_mem_nil, or_false] at ho
      rcases ho with rfl | rfl <;> exact absurd rfl hn)
    "" "" _

/-- The schema frame of the reader.  For every option set and every document tree, the
option set after `FromYAML`, error or not, has the same length and order and, at every
index, the same name, YAML key, description and group reference (a group reference carries
the name, key, description and parent of the group): only values can differ. -/
theorem FromYAML_schema {V : Type} (env : Env V) (s : OptionSet V) (n : Node) :
    (FromYAML env s n).1.map schemaOf = s.map schemaOf
    ∧ (FromYAML env s n).1.length = s.length := by
  have h := fromYAML_frame env s .nil n
  have h1 : (FromYAML env s n).1.map schemaOf = s.map schemaOf := by
    have h2 := congrArg (List.map (fun f : String × String × String × GroupPtr × Option V =>
      (f.1, f.2.2.1, f.2.1, f.2.2.2.1))) h
    simpa [List.map_map, Function.comp, frameOf, schemaOf, FromYAML] using h2
  exact ⟨h1, by simpa using congrArg List.length h1⟩

/-- C16 (frame of the builder), at the failing input.  The holder of the option `workspace`
keeps a mapping node whose children are the name `names`, at address 0, and an empty
mapping, at address 1, and returns it from `MarshalYAML`; the option `name` lies in the
group `names` of the group `workspace`.  `ToYAML` returns no error and the root at address
2, and the node at address 1, which the holder of `workspace` keeps, has after the call the
name node and the value node of the option `name` as content: `deepMapNode` matches the
group names against the name node of the option `workspace` and against the name node the
holder keeps, returns the pointer to the node of the holder, and `ToYAML` appends to it. -/
theorem ToYAMLMem_changes_kept_node :
    keptMem.read 1 = ⟨.mapping, "", "", []⟩
    ∧ ToYAMLMem sampleMemEnv keptMem keptSet
      = .ok ([⟨.scalar, "names", "", []⟩, ⟨.mapping, "", "", [5, 6]⟩,
              ⟨.mapping, "", "", [3, 4]⟩,
              ⟨.scalar, "workspace", "", []⟩, ⟨.mapping, "", "", [0, 1]⟩,
              ⟨.scalar, "name", "", []⟩, ⟨.scalar, "billie", "", []⟩], 2) :=
  ⟨rfl, rfl⟩

/-- C17 (the `SimpleString` build test), at the failing inputs.  For an option set whose
single option has a non-empty YAML key, a simple value and a parentless group with a
display name and an empty YAML name, `ToYAML` returns the error for the empty YAML name of
the group, where the test requires no error. -/
theorem ToYAML_group_without_yaml_name {V : Type} (env : Env V) (o : Opt V)
    (hk : o.yaml ≠ "") (hs : env.marshalYAML o.value = none)
    (addr : Nat) (n d : String) (hg : o.group = .ref addr .nil n "" d) :
    ToYAML env [o] = .error (.groupYAMLNameEmpty o.name o.group) := by
  simp [ToYAML, toYAMLLoop, toYAMLStep, hk, valueNodeOf, hs, hg, GroupPtr.Ancestry,
    groupPath, GroupPtr.yamlName]

/-- Witness of C17: the option set of the `SimpleString` build test. -/
theorem ToYAML_group_without_yaml_name_witness :
    ToYAML sampleEnv
        [⟨"Workspace Name", "The workspace's name.", "workspaceName",
          .ref 0 .nil "Names" "" "", .str "billie"⟩]
      = .error (.groupYAMLNameEmpty "Workspace Name" (.ref 0 .nil "Names" "" "")) :=
  ToYAML_group_without_yaml_name sampleEnv
    ⟨"Workspace Name", "The workspace's name.", "workspaceName",
      .ref 0 .nil "Names" "" "", .str "billie"⟩ (by decide) rfl 0 "Names" "" rfl

/-- C18: the structural invariant of the builder.  For an option set in which no keyed
option has the key of a subgroup of its level, (1) whenever `ToYAML` has reached an option
`o` with a key, every node `deepMapNode` descends into on a name match, that is the node `c`
found in the tree built so far along a non-empty prefix `p` of the path of the group of
`o`, is a mapping of even-length content with scalar names, was created for a group of an
earlier option, and lies at the path of no option's value node; and (2) in the tree `ToYAML`
returns (which it only does when every ancestor group is keyed), the node of every level,
the root or a group, is a mapping with a content of even length and a scalar name at every
even position, and every keyed option's pair of name node and marshalled value node is
still, unmodified, in the content of the node of its group. -/
theorem ToYAML_structural_invariant {V : Type} (env : Env V) (s : OptionSet V)
    (hnc : NoCollision s) :
    (∀ (pre : OptionSet V) (o : Opt V) (post : OptionSet V) (tp : Node)
        (p r : List String) (c : Node),
        s = pre ++ o :: post → ToYAML env pre = .ok tp → o.yaml ≠ "" → p ≠ [] →
        ancestryKeys o.group = p ++ r → nodeAt tp p = some c →
        c.kind = .mapping ∧ c.content.length % 2 = 0 ∧ scalarNames c.content
          ∧ (∃ q ∈ pre, (touch p q).isSome)
          ∧ ∀ q ∈ s, q.yaml ≠ "" → p ≠ ancestryKeys q.group ++ [q.yaml])
    ∧ ∀ t, ToYAML env s = .ok t →
        (∀ p, IsLevel s p →
          ∃ n, nodeAt t p = some n ∧ n.kind = .mapping ∧ n.content.length % 2 = 0
            ∧ scalarNames n.content)
        ∧ ∀ o ∈ s, o.yaml ≠ "" →
            ∃ n v, nodeAt t (ancestryKeys o.group) = some n ∧ valueNodeOf env o = .ok v
              ∧ pairIn (nameNodeOf env o) v n.content := by
  refine ⟨?_, fun t ht => ⟨?_, ?_⟩⟩
  · intro pre o post tp p r c hs hpre hok hp hpo hc
    have ho : o ∈ s := by rw [hs]; simp
    have hon : ∀ q ∈ pre, q.yaml ≠ "" → ∀ r1, p ≠ ancestryKeys q.group ++ q.yaml :: r1 :=
      fun q hq hqk =>
        noCollision_off_path s hnc q o (by rw [hs]; simp [hq]) ho hqk hok p r hpo
    obtain ⟨g1, g2, g3, _⟩ :=
      toYAMLLoop_level_more env p pre _ tp hpre (goodAlong_empty p) hon
    obtain ⟨c1, c2⟩ := goodAlong_nodeAt p tp c g1 hc
    refine ⟨c1, c2, scalarAlong_nodeAt p tp c (g2 (scalarAlong_empty p)) hc, ?_, ?_⟩
    · rcases g3 (by simp [hc]) with h1 | h1
      · cases p with
        | nil => exact absurd rfl hp
        | cons k p => simp [nodeAt_empty_cons] at h1
      · exact h1
    · intro q hq hqk
      exact noCollision_off_path s hnc q o hq ho hqk hok p r hpo []
  · intro p hp
    have hon : ∀ o ∈ s, o.yaml ≠ "" → ∀ r, p ≠ ancestryKeys o.group ++ o.yaml :: r := by
      intro o ho hk r hpe
      rcases hp with hp | ⟨q, hq, hqt⟩
      · rw [hp] at hpe
        simp at hpe
      · obtain ⟨hqk, hqs⟩ := touch_isSome p q hqt
        cases hs : stripPath p (ancestryKeys q.group) with
        | none => simp [hs] at hqs
        | some r1 =>
          exact noCollision_off_path s hnc o q ho hq hk hqk p r1
            ((stripPath_eq_some p _ _).1 hs) r hpe
    obtain ⟨n, hn, _, _⟩ := toYAML_level env s t ht hnc p hp
    obtain ⟨g1, g2, _, _⟩ := toYAMLLoop_level_more env p s _ t ht (goodAlong_empty p) hon
    obtain ⟨c1, c2⟩ := goodAlong_nodeAt p t n g1 hn
    exact ⟨n, hn, c1, c2, scalarAlong_nodeAt p t n (g2 (scalarAlong_empty p)) hn⟩
  · intro o ho hok
    obtain ⟨pre, post, hs⟩ := List.append_of_mem ho
    subst hs
    obtain ⟨tp, t1, hpre, hstep, hpost⟩ := toYAMLLoop_split env pre o post _ t ht
    obtain ⟨v, hc, hv, rfl⟩ := toYAMLStep_ok_nodes env tp t1 o hstep hok
    have hoff : ∀ q ∈ pre ++ o :: post, q.yaml ≠ "" →
        ∀ r1, ancestryKeys o.group ≠ ancestryKeys q.group ++ q.yaml :: r1 :=
      fun q hq hqk =>
        noCollision_off_path _ hnc q o hq ho hqk hok (ancestryKeys o.group) []
          (List.append_nil _).symm
    obtain ⟨g1, _, _, _⟩ :=
      toYAMLLoop_level_more env (ancestryKeys o.group) pre _ tp hpre (goodAlong_empty _)
        (fun q hq => hoff q (by simp [hq]))
    have hpa := deepMapNode_pairAt hc (nameNodeOf env o) v (ancestryKeys o.group) tp g1
    obtain ⟨g2, _, _⟩ :=
      deepMapNode_level hc (nameNodeOf env o) v (ancestryKeys o.group) tp
        (ancestryKeys o.group) g1 (hoff o ho hok)
    obtain ⟨_, _, _, g4⟩ :=
      toYAMLLoop_level_more env (ancestryKeys o.group) post _ t hpost g2
        (fun q hq => hoff q (by simp [hq]))
    have hto : touch (ancestryKeys o.group) o = some (.option o.yaml) := by
      have := stripPath_append (ancestryKeys o.group) []
      rw [List.append_nil] at this
      simp [touch, hok, this]
    obtain ⟨n, hn, hpin⟩ := g4 (nameNodeOf env o) v
      (fun q hq k hqt hval =>
        noCollision_touch _ hnc (ancestryKeys o.group) o ho q (by simp [hq]) o.yaml hto
          (by rw [hqt]; exact congrArg _ (congrArg _ hval.symm))) hpa
    exact ⟨n, v, hn, hv, hpin⟩

theorem ToYAML_structural_invariant_witness :
    NoCollision sampleSet
      ∧ (∃ n, nodeAt sampleTree ["network", "http"] = some n ∧ n.kind = .mapping
          ∧ n.content.length % 2 = 0 ∧ scalarNames n.content) :=
  ⟨by unfold NoCollision; decide,
    ((ToYAML_structural_invariant sampleEnv sampleSet
        (by unfold NoCollision; decide)).2 sampleTree rfl).1 ["network", "http"]
      (Or.inr ⟨⟨"Port", "", "port",
        .ref 2 (.ref 1 .nil "Network" "network" "") "HTTP" "http" "", .str "80"⟩,
        by simp [sampleSet], rfl⟩)⟩

/-- C19 (mapping-valued entry for a simple option aborts the level).  Let the third loop of
`fromYAML` stand, in any state (`os`, `merr`), before a pair whose name node is a scalar at
an even index, whose value node is a mapping, and whose name is in `optionsByName`, for an
option `opt` whose value is no `yaml.Unmarshaler`.  Then `fromYAML` returns at once: the
result does not depend on the pairs that follow, the option set is returned as it stands,
the value of `opt` included, and the error is the complex-option error with the name of
`opt` alone, without the errors aggregated in `merr`. -/
theorem fromYAMLItems_mapping_for_simple_option {V : Type} (env : Env V) (maps : Maps)
    (os : OptionSet V) (k v : Node) (rest : List Node) (i : Nat) (name : String)
    (merr : Option Error) (j : Nat) (opt : Opt V)
    (hi : i % 2 = 0) (hk : k.kind = .scalar) (hv : v.kind = .mapping)
    (hget : maps.optionsByName.get k.value = some j) (hj : os[j]? = some opt)
    (hu : env.unmarshalYAML opt.value = none) :
    fromYAMLItems env maps os (k :: v :: rest) i name merr
      = (os, some (.complexOption opt.name)) := by
  rw [fromYAMLItems_pair env maps os k v rest i name merr hi]
  simp only [pairStep, hk, ne_eq, not_true_eq_false, if_false, hv, hget, hj, hu, afterPair]

/-- Witness of C19: a document with an unknown entry, then a mapping for the string option
`workspaceName`, then an entry for `verbose`.  `FromYAML` returns the complex-option error
alone; `verbose` is not read and the error for the unknown entry is gone. -/
theorem fromYAMLItems_mapping_for_simple_option_witness :
    FromYAML sampleEnv
        [⟨"Workspace Name", "", "workspaceName", .nil, .str "old"⟩,
         ⟨"Verbose", "", "verbose", .nil, .bool false⟩]
        (.mk .mapping "" ""
          [.mk .scalar "color" "" [], .mk .scalar "red" "" [],
           .mk .scalar "workspaceName" "" [],
           .mk .mapping "" "" [.mk .scalar "first" "" [], .mk .scalar "billie" "" []],
           .mk .scalar "verbose" "" [], .mk .scalar "true" "" []])
      = ([⟨"Workspace Name", "", "workspaceName", .nil, .str "old"⟩,
          ⟨"Verbose", "", "verbose", .nil, .bool false⟩],
         some (.complexOption "Workspace Name")) :=
  Eq.trans
    (show FromYAML sampleEnv
        [⟨"Workspace Name", "", "workspaceName", .nil, .str "old"⟩,
         ⟨"Verbose", "", "verbose", .nil, .bool false⟩]
        (.mk .mapping "" ""
          [.mk .scalar "color" "" [], .mk .scalar "red" "" [],
           .mk .scalar "workspaceName" "" [],
           .mk .mapping "" "" [.mk .scalar "first" "" [], .mk .scalar "billie" "" []],
           .mk .scalar "verbose" "" [], .mk .scalar "true" "" []])
      = fromYAMLItems sampleEnv ⟨[], [("workspaceName", 0), ("verbose", 1)]⟩
          [⟨"Workspace Name", "", "workspaceName", .nil, .str "old"⟩,
           ⟨"Verbose", "", "verbose", .nil, .bool false⟩]
          [.mk .scalar "workspaceName" "" [],
           .mk .mapping "" "" [.mk .scalar "first" "" [], .mk .scalar "billie" "" []],
           .mk .scalar "verbose" "" [], .mk .scalar "true" "" []] 2 "color"
          (some (.join [.unknownOption "color"])) from rfl)
    (fromYAMLItems_mapping_for_simple_option sampleEnv
      ⟨[], [("workspaceName", 0), ("verbose", 1)]⟩
      [⟨"Workspace Name", "", "workspaceName", .nil, .str "old"⟩,
       ⟨"Verbose", "", "verbose", .nil, .bool false⟩]
      (.mk .scalar "workspaceName" "" [])
      (.mk .mapping "" "" [.mk .scalar "first" "" [], .mk .scalar "billie" "" []])
      [.mk .scalar "verbose" "" [], .mk .scalar "true" "" []] 2 "color"
      (some (.join [.unknownOption "color"])) 0
      ⟨"Workspace Name", "", "workspaceName", .nil, .str "old"⟩ rfl rfl rfl rfl rfl rfl)

end Clibase
